import Mathlib

/-!
Verification of the Korin core containers and allocators against their
natural-language specification.

Each section shallowly embeds one part of the C++ source
(`src/korin/core/...`) as executable Lean definitions and proves or
refutes the specification claims about it.  Definitions mirror the C++
control flow; machine integers are modelled as `Nat`/`Int`/`Rat` with
explicit wrap-around only where the source can actually overflow.
-/

namespace Korin

/-! # Hash-table bucket bookkeeping (hash_table.h)

The load-factor claims only concern the two counters `numBuckets` and
`numItems` of `HashTable`, together with `reserve` / `reallocBuckets`.
We embed exactly that bookkeeping.  The `0.75f` literal and the
float division of `reserve` are modelled with exact rational
arithmetic; both sides of the comparison (`newNumItems` below 2^24 and
`numBuckets` a power of two) are exactly representable as `float`, so
the rational comparison coincides with the source's float comparison
throughout the proved range. -/

/-- The two counters of `Korin::HashTable`: current number of buckets
(`numBuckets`, "always a power of two") and number of stored items
(`numItems`). -/
structure HTCounters where
  numBuckets : Nat
  numItems : Nat
  deriving Repr, DecidableEq

/-- `HASH_BUCKET_INITIAL_COUNT` (hash_types.h). -/
def HASH_BUCKET_INITIAL_COUNT : Nat := 16

/-- `HASH_BUCKET_LOAD_FACTOR` (hash_types.h): `0.75f`, exactly 3/4. -/
def HASH_BUCKET_LOAD_FACTOR : ℚ := 3 / 4

/-- Effect of `HashTable::reallocBuckets(desired)` on the counters: the
bucket count becomes the desired count (the early-return when the count
is unchanged has the same effect on the counters), and the rehash loop
touches neither counter. -/
def HTCounters.reallocBuckets (s : HTCounters) (desired : Nat) : HTCounters :=
  { s with numBuckets := desired }

/-- `HashTable::reserve(extraItems)`: if
`(numItems + extraItems) / (float)numBuckets >= 0.75f` the bucket count
is doubled (`numBuckets << 1`) by `reallocBuckets`. -/
def HTCounters.reserve (s : HTCounters) (extraItems : Nat) : HTCounters :=
  if ((s.numItems + extraItems : ℚ) / (s.numBuckets : ℚ)) ≥ HASH_BUCKET_LOAD_FACTOR then
    s.reallocBuckets (s.numBuckets <<< 1)
  else
    s

/-- `HashTable::HashTable()`: both counters start at zero and
`reallocBuckets(HASH_BUCKET_INITIAL_COUNT)` is called. -/
def HTCounters.init : HTCounters :=
  HTCounters.reallocBuckets { numBuckets := 0, numItems := 0 } HASH_BUCKET_INITIAL_COUNT

/-- Effect of one insertion (`HashTable::findOrEmplace`, and likewise
`findOrInsert_Impl`) on the counters.  When the key is already present
(`isDup`) the freshly created node is destroyed and the counters are
untouched; otherwise `reserve(1)` runs and then `numItems++`. -/
def HTCounters.insert (s : HTCounters) (isDup : Bool) : HTCounters :=
  if isDup then s
  else
    let s1 := s.reserve 1
    { s1 with numItems := s1.numItems + 1 }

/-- A sequence of insertions applied to a freshly constructed table.
Each list entry tells whether that insertion hit a duplicate. -/
def HTCounters.run (ops : List Bool) : HTCounters :=
  ops.foldl HTCounters.insert HTCounters.init

/-- Strengthened load-factor invariant: the load factor stays strictly
below 3/4 and the bucket count is `16 * 2^k` for some `k`. -/
def HTCounters.Inv (s : HTCounters) : Prop :=
  4 * s.numItems < 3 * s.numBuckets ∧ ∃ k, s.numBuckets = 16 * 2 ^ k

theorem HTCounters.Inv.init : HTCounters.Inv HTCounters.init := by
  constructor
  · show 4 * 0 < 3 * 16
    norm_num
  · exact ⟨0, by norm_num [HTCounters.init, HTCounters.reallocBuckets, HASH_BUCKET_INITIAL_COUNT]⟩

theorem HTCounters.Inv.insert {s : HTCounters} (h : s.Inv) (b : Bool) :
    (s.insert b).Inv := by
  obtain ⟨hlf, k, hk⟩ := h
  have hpos : 0 < s.numBuckets := by rw [hk]; positivity
  cases b with
  | true => exact ⟨hlf, k, hk⟩
  | false =>
    rw [HTCounters.insert, if_neg (by simp), HTCounters.reserve]
    by_cases hc : ((s.numItems + 1 : ℚ) / (s.numBuckets : ℚ)) ≥ HASH_BUCKET_LOAD_FACTOR
    · rw [if_pos (by exact_mod_cast hc), HTCounters.reallocBuckets]
      have hsl : s.numBuckets <<< 1 = 2 * s.numBuckets := by
        rw [Nat.shiftLeft_eq]; ring
      refine ⟨?_, k + 1, ?_⟩
      · show 4 * (s.numItems + 1) < 3 * (s.numBuckets <<< 1)
        rw [hsl]
        omega
      · show s.numBuckets <<< 1 = 16 * 2 ^ (k + 1)
        rw [hsl, hk]; ring
    · rw [if_neg (by exact_mod_cast hc)]
      -- the reserve test failed: (numItems + 1) / numBuckets < 3/4
      have hq : ((s.numItems + 1 : ℚ) / (s.numBuckets : ℚ)) < 3 / 4 := by
        simpa [HASH_BUCKET_LOAD_FACTOR, not_le] using hc
      have hbq : (0 : ℚ) < (s.numBuckets : ℚ) := by exact_mod_cast hpos
      have hmul := (div_lt_iff₀ hbq).mp hq
      have hnat : 4 * (s.numItems + 1) < 3 * s.numBuckets := by
        have h4 : ((4 : ℚ) * ((s.numItems : ℚ) + 1)) < 3 * (s.numBuckets : ℚ) := by nlinarith
        exact_mod_cast h4
      exact ⟨hnat, k, hk⟩

theorem HTCounters.Inv.run (ops : List Bool) : (HTCounters.run ops).Inv := by
  suffices h : ∀ (l : List Bool) (s : HTCounters), s.Inv → (l.foldl HTCounters.insert s).Inv by
    exact h ops _ HTCounters.Inv.init
  intro l
  induction l with
  | nil => intro s hs; exact hs
  | cons b t ih => intro s hs; exact ih _ (hs.insert b)

/-- **C3.** After every sequence of insertions (some possibly hitting
duplicates) on a freshly constructed hash table, the load factor
satisfies `numItems / numBuckets ≤ 0.75`, and `numBuckets` is the power
of two `16 * 2^k` obtained from the initial 16 buckets by doubling on
each load-factor breach.  Since every prefix of a sequence is itself a
sequence, this holds immediately after each insertion. -/
theorem hashTable_load_factor_bound (ops : List Bool) :
    ((HTCounters.run ops).numItems : ℚ) / ((HTCounters.run ops).numBuckets : ℚ)
        ≤ HASH_BUCKET_LOAD_FACTOR
      ∧ ∃ k, (HTCounters.run ops).numBuckets = 16 * 2 ^ k := by
  obtain ⟨hlf, k, hk⟩ := HTCounters.Inv.run ops
  refine ⟨?_, k, hk⟩
  have hpos : 0 < (HTCounters.run ops).numBuckets := by
    rw [hk]; positivity
  have hbq : (0 : ℚ) < ((HTCounters.run ops).numBuckets : ℚ) := by exact_mod_cast hpos
  rw [HASH_BUCKET_LOAD_FACTOR, div_le_div_iff₀ hbq (by norm_num)]
  have : (4 * (HTCounters.run ops).numItems : ℚ) < 3 * (HTCounters.run ops).numBuckets := by
    exact_mod_cast hlf
  nlinarith

/-! # Dynamic array growth policy (array.h, class `Array`)

The growth-policy claim only concerns the two counters of `Array`:
`size` (the buffer capacity in items) and `count` (the length), plus a
flag recording whether a buffer is currently allocated (`data`), which
the copy constructors branch on.  `resize`, `growToFit` and
`shrinkToFit` are embedded exactly; the public operations are embedded
through their effect on these fields.  The `CHECK`/`CHECKF` macros of
this code base only print a warning and continue (assert.h), so they do
not gate any path; the documented preconditions of the operations
(non-empty array for `pop`, in-range indices for `removeAt`, ...) appear
as hypotheses of the reachability relation below. -/

/-- `KORIN_ARRAY_MIN_SIZE` (array.h). -/
def KORIN_ARRAY_MIN_SIZE : Nat := 4

/-- The fields of `Korin::Array` relevant to the growth policy: buffer
size in items (`size`), number of items (`count`) and whether `data`
is currently non-null. -/
structure ArrCounters where
  size : Nat
  count : Nat
  hasBuf : Bool
  deriving Repr, DecidableEq

/-- The loop `for (; newSize < requiredSize; newSize = newSize << 1)` of
`Array::growToFit`.  The source enters it with `newSize >= 4`; for
`newSize = 0` (where the C++ loop would not terminate) we return the
current value. -/
def growLoop (required : Nat) (newSize : Nat) : Nat :=
  if h : 0 < newSize ∧ newSize < required then growLoop required (newSize <<< 1)
  else newSize
termination_by required - newSize
decreasing_by
  rcases h with ⟨h0, hr⟩
  rw [Nat.shiftLeft_eq]
  omega

/-- The loop `for (; newSize > requiredSize * 2; newSize = newSize >> 1)`
of `Array::shrinkToFit`. -/
def shrinkLoop (required : Nat) (newSize : Nat) : Nat :=
  if h : newSize > required * 2 then shrinkLoop required (newSize >>> 1)
  else newSize
termination_by newSize
decreasing_by
  rw [Nat.shiftRight_one]
  omega

/-- `Array::resize(newSize)`: reallocates the buffer (so `data` becomes
non-null) and records the new size; `count` is untouched. -/
def ArrCounters.resize (s : ArrCounters) (newSize : Nat) : ArrCounters :=
  { s with size := newSize, hasBuf := true }

/-- `Array::growToFit(requiredSize)`. -/
def ArrCounters.growToFit (s : ArrCounters) (required : Nat) : ArrCounters :=
  if s.size < required then
    s.resize (growLoop required (max s.size KORIN_ARRAY_MIN_SIZE))
  else s

/-- `Array::shrinkToFit(requiredSize)`. -/
def ArrCounters.shrinkToFit (s : ArrCounters) (required : Nat) : ArrCounters :=
  let newSize := shrinkLoop required s.size
  if newSize ≠ s.size then s.resize newSize
  else s

/-- `Array::destroy()`: frees the buffer and zeroes both counters. -/
def ArrCounters.destroy : ArrCounters :=
  { size := 0, count := 0, hasBuf := false }

/-- `Array::Array()`. -/
def ArrCounters.init : ArrCounters :=
  { size := 0, count := 0, hasBuf := false }

/-- `Array::Array(sizet reservedSize)`. -/
def ArrCounters.initReserved (reservedSize : Nat) : ArrCounters :=
  ArrCounters.init.growToFit reservedSize

/-- `Array::Array(sizet numItems, T const&, sizet slack)` and
`Array::Array(T const*, sizet numItems, sizet extraSlack)`: grow to
`numItems + slack`, then `count = numItems`. -/
def ArrCounters.initFill (numItems slack : Nat) : ArrCounters :=
  { ArrCounters.init.growToFit (numItems + slack) with count := numItems }

/-- `Array::Array(Array const&)` (copy): empty stays empty, otherwise
`resize(other.size)` then copy `other.count` items. -/
def ArrCounters.initCopy (other : ArrCounters) : ArrCounters :=
  if other.hasBuf then
    { ArrCounters.init.resize other.size with count := other.count }
  else ArrCounters.init

/-- `Array::Array(Array const&, uint64 slack)`: starts from
`size = other.size` with a null buffer, grows to fit
`other.count + slack`, and falls back to `resize(other.size)` when
`growToFit` did not resize; then `count = other.count`. -/
def ArrCounters.initCopySlack (other : ArrCounters) (slack : Nat) : ArrCounters :=
  if other.hasBuf || 0 < slack then
    let s0 : ArrCounters := { size := other.size, count := 0, hasBuf := false }
    let s1 := s0.growToFit (other.count + slack)
    let s2 := if s1.hasBuf then s1 else s1.resize other.size
    { s2 with count := other.count }
  else ArrCounters.init

/-- `Array::append(items...)` with `n = sizeof...(items) >= 1`. -/
def ArrCounters.append (s : ArrCounters) (n : Nat) : ArrCounters :=
  let s1 := s.growToFit (s.count + n)
  { s1 with count := s1.count + n }

/-- `Array::insert(idx, items...)` with `n = sizeof...(items) >= 1`. -/
def ArrCounters.insert (s : ArrCounters) (idx n : Nat) : ArrCounters :=
  if idx < s.count then
    let s1 := s.growToFit (s.count + n)
    { s1 with count := s1.count + n }
  else
    let s1 := s.growToFit (idx + n)
    { s1 with count := s1.count + n }

/-- `Array::pop()`: `count--`, destroy the last item, `shrinkToFit(count)`. -/
def ArrCounters.pop (s : ArrCounters) : ArrCounters :=
  let s1 := { s with count := s.count - 1 }
  s1.shrinkToFit s1.count

/-- `Array::removeAt(idx, numItems)`: the last-item branch delegates to
`pop()`, otherwise destroy, move back, `count -= numItems` and
`shrinkToFit(count)`. -/
def ArrCounters.removeAt (s : ArrCounters) (idx n : Nat) : ArrCounters :=
  if idx = s.count - 1 then s.pop
  else
    let s1 := { s with count := s.count - n }
    s1.shrinkToFit s1.count

/-- `Array::concat(others...)` through `concatImpl`: the innermost call
grows the buffer to the total count and sets `count` to it (`ms` lists
the counts of the appended arrays, at least one). -/
def ArrCounters.concat (s : ArrCounters) (ms : List Nat) : ArrCounters :=
  let total := s.count + ms.sum
  let s1 := s.growToFit total
  { s1 with count := total }

/-- `Array::slice(beginIdx, endIdx)`: a fresh array grown to fit
`endIdx - beginIdx` items with that count. -/
def ArrCounters.slice (beginIdx endIdx : Nat) : ArrCounters :=
  let s1 := ArrCounters.init.growToFit (endIdx - beginIdx)
  { s1 with count := endIdx - beginIdx }

/-- `Array::operator=(Array const&)` (copy assignment). -/
def ArrCounters.assign (s other : ArrCounters) : ArrCounters :=
  if s.hasBuf && !other.hasBuf then ArrCounters.destroy
  else if other.count < s.count then
    let s1 := { s with count := other.count }
    s1.shrinkToFit s1.count
  else
    let s1 := s.growToFit other.count
    { s1 with count := other.count }

/-- The modulus of the target's unsigned 64-bit `sizet`/`uint64`. -/
def U64 : Nat := 2 ^ 64

/-- `Array::remove(from, to)` (array.h): `const sizet numItems = from -
to; removeAt(from - data, numItems)`.  The operand order is reversed
(`from - to` instead of `to - from`) and `sizet` is unsigned 64-bit, so
for a proper range (`from < to`) the subtraction wraps around; in
`removeAt`'s else branch `destroyItems` is then a no-op for trivially
destructible payloads (utility.h), the move-back is counter-neutral
either way, and the 64-bit `count -= numItems` wraps again, so `count`
*increases* by `to - from`; `shrinkToFit(count)` then runs with the
inflated count.  Both `sizet` subtractions are taken mod `2^64`
(`a - b` as `(a + 2^64 - b) % 2^64`), including the `idx == count - 1`
comparison that selects the `pop()` branch. -/
def ArrCounters.remove (s : ArrCounters) (fromIdx toIdx : Nat) : ArrCounters :=
  let numItems := (fromIdx + U64 - toIdx) % U64
  if fromIdx = (s.count + U64 - 1) % U64 then s.pop
  else
    let s1 := { s with count := (s.count + U64 - numItems) % U64 }
    s1.shrinkToFit s1.count

/-- States of `Array` reachable by constructors followed by public
operations, each applied within its documented domain (the `CHECK`
macros only warn, so the domain conditions are genuine caller
obligations, not code behavior).  This relation covers the full public
surface, `remove(from, to)` included. -/
inductive ArrReach : ArrCounters → Prop
  | init : ArrReach ArrCounters.init
  | initReserved (r : Nat) : ArrReach (ArrCounters.initReserved r)
  | initFill (n slack : Nat) : ArrReach (ArrCounters.initFill n slack)
  | initCopy {other : ArrCounters} (h : ArrReach other) : ArrReach (ArrCounters.initCopy other)
  | initCopySlack {other : ArrCounters} (slack : Nat) (h : ArrReach other) :
      ArrReach (ArrCounters.initCopySlack other slack)
  | append {s : ArrCounters} (n : Nat) (h : ArrReach s) (hn : 0 < n) : ArrReach (s.append n)
  | insert {s : ArrCounters} (idx n : Nat) (h : ArrReach s) (hn : 0 < n) :
      ArrReach (s.insert idx n)
  | pop {s : ArrCounters} (h : ArrReach s) (hc : 0 < s.count) : ArrReach s.pop
  | removeAt {s : ArrCounters} (idx n : Nat) (h : ArrReach s) (hn : 0 < n)
      (hi : idx < s.count) (hr : idx + n ≤ s.count) : ArrReach (s.removeAt idx n)
  | remove {s : ArrCounters} (fromIdx toIdx : Nat) (h : ArrReach s)
      (hf : fromIdx < toIdx) (ht : toIdx ≤ s.count) : ArrReach (s.remove fromIdx toIdx)
  | concat {s : ArrCounters} (ms : List Nat) (h : ArrReach s) (hm : ms ≠ []) :
      ArrReach (s.concat ms)
  | slice {s : ArrCounters} (beginIdx endIdx : Nat) (h : ArrReach s)
      (hb : beginIdx ≤ endIdx) (he : endIdx ≤ s.count) :
      ArrReach (ArrCounters.slice beginIdx endIdx)
  | assign {s other : ArrCounters} (h : ArrReach s) (h2 : ArrReach other) :
      ArrReach (s.assign other)

/-- The same reachable states, restricted to sequences that never call
`remove(from, to)` — the fragment on which the length bound survives. -/
inductive ArrReachNoRemove : ArrCounters → Prop
  | init : ArrReachNoRemove ArrCounters.init
  | initReserved (r : Nat) : ArrReachNoRemove (ArrCounters.initReserved r)
  | initFill (n slack : Nat) : ArrReachNoRemove (ArrCounters.initFill n slack)
  | initCopy {other : ArrCounters} (h : ArrReachNoRemove other) :
      ArrReachNoRemove (ArrCounters.initCopy other)
  | initCopySlack {other : ArrCounters} (slack : Nat) (h : ArrReachNoRemove other) :
      ArrReachNoRemove (ArrCounters.initCopySlack other slack)
  | append {s : ArrCounters} (n : Nat) (h : ArrReachNoRemove s) (hn : 0 < n) :
      ArrReachNoRemove (s.append n)
  | insert {s : ArrCounters} (idx n : Nat) (h : ArrReachNoRemove s) (hn : 0 < n) :
      ArrReachNoRemove (s.insert idx n)
  | pop {s : ArrCounters} (h : ArrReachNoRemove s) (hc : 0 < s.count) : ArrReachNoRemove s.pop
  | removeAt {s : ArrCounters} (idx n : Nat) (h : ArrReachNoRemove s) (hn : 0 < n)
      (hi : idx < s.count) (hr : idx + n ≤ s.count) : ArrReachNoRemove (s.removeAt idx n)
  | concat {s : ArrCounters} (ms : List Nat) (h : ArrReachNoRemove s) (hm : ms ≠ []) :
      ArrReachNoRemove (s.concat ms)
  | slice {s : ArrCounters} (beginIdx endIdx : Nat) (h : ArrReachNoRemove s)
      (hb : beginIdx ≤ endIdx) (he : endIdx ≤ s.count) :
      ArrReachNoRemove (ArrCounters.slice beginIdx endIdx)
  | assign {s other : ArrCounters} (h : ArrReachNoRemove s) (h2 : ArrReachNoRemove other) :
      ArrReachNoRemove (s.assign other)

/-- The capacity invariant the code actually maintains: the capacity is
zero or a power of two `2^k` with `k ≥ 1`, the length never exceeds the
capacity, and a null buffer implies capacity zero. -/
def ArrCounters.Inv (s : ArrCounters) : Prop :=
  (s.size = 0 ∨ ∃ k, 1 ≤ k ∧ s.size = 2 ^ k) ∧ s.count ≤ s.size ∧ (s.hasBuf = false → s.size = 0)

/-- The invariant claimed by the specification: capacity is zero or
`2^k` with `k ≥ 2` (i.e. at least 4), and length never exceeds it. -/
def ArrCounters.InvClaimed (s : ArrCounters) : Prop :=
  (s.size = 0 ∨ ∃ k, 2 ≤ k ∧ s.size = 2 ^ k) ∧ s.count ≤ s.size

instance (s : ArrCounters) : Decidable s.InvClaimed := by
  unfold ArrCounters.InvClaimed
  refine @instDecidableAnd _ _ ?_ inferInstance
  by_cases h0 : s.size = 0
  · exact .isTrue (.inl h0)
  · by_cases hp : s.size = 2 ^ (Nat.log2 s.size) ∧ 2 ≤ Nat.log2 s.size
    · exact .isTrue (.inr ⟨Nat.log2 s.size, hp.2, hp.1⟩)
    · refine .isFalse ?_
      rintro (h | ⟨k, hk, hs⟩)
      · exact h0 h
      · exact hp ⟨by rw [hs, Nat.log2_two_pow], by rw [hs, Nat.log2_two_pow]; exact hk⟩

theorem growLoop_unfold (r s : Nat) :
    growLoop r s = if 0 < s ∧ s < r then growLoop r (s <<< 1) else s := by
  rw [growLoop]
  split <;> rfl

theorem growLoop_spec (required : Nat) : ∀ (newSize : Nat), 0 < newSize →
    required ≤ growLoop required newSize ∧ ∃ j, growLoop required newSize = newSize * 2 ^ j := by
  refine growLoop.induct required
    (fun s => 0 < s → required ≤ growLoop required s ∧ ∃ j, growLoop required s = s * 2 ^ j)
    ?_ ?_
  · intro s h ih _
    rw [growLoop_unfold, if_pos h]
    obtain ⟨h1, j, hj⟩ := ih (by rw [Nat.shiftLeft_eq]; omega)
    refine ⟨h1, j + 1, ?_⟩
    rw [hj, Nat.shiftLeft_eq]
    ring
  · intro s h h0
    rw [growLoop_unfold, if_neg h]
    push_neg at h
    exact ⟨by omega, 0, by ring⟩

theorem shrinkLoop_unfold (r s : Nat) :
    shrinkLoop r s = if s > r * 2 then shrinkLoop r (s >>> 1) else s := by
  rw [shrinkLoop]
  split <;> rfl

theorem shrinkLoop_le (r : Nat) : ∀ s, shrinkLoop r s ≤ s := by
  refine shrinkLoop.induct r (fun s => shrinkLoop r s ≤ s) ?_ ?_
  · intro s h ih
    rw [shrinkLoop_unfold, if_pos h]
    calc shrinkLoop r (s >>> 1) ≤ s >>> 1 := ih
    _ ≤ s := by rw [Nat.shiftRight_one]; omega
  · intro s h
    rw [shrinkLoop_unfold, if_neg h]

theorem shrinkLoop_ge (r : Nat) : ∀ s, r ≤ s → r ≤ shrinkLoop r s := by
  refine shrinkLoop.induct r (fun s => r ≤ s → r ≤ shrinkLoop r s) ?_ ?_
  · intro s h ih hr
    rw [shrinkLoop_unfold, if_pos h]
    exact ih (by rw [Nat.shiftRight_one]; omega)
  · intro s h hr
    rw [shrinkLoop_unfold, if_neg h]
    exact hr

theorem shrinkLoop_pow (r : Nat) (hr : 0 < r) :
    ∀ k, 1 ≤ k → ∃ j, 1 ≤ j ∧ shrinkLoop r (2 ^ k) = 2 ^ j := by
  intro k
  induction k with
  | zero => omega
  | succ k ih =>
    intro _
    rw [shrinkLoop_unfold]
    split
    · rename_i hgt
      have hk1 : 1 ≤ k := by
        by_contra hk0
        have : k = 0 := by omega
        subst this
        norm_num at hgt
        omega
      have hsr : (2 : Nat) ^ (k + 1) >>> 1 = 2 ^ k := by
        rw [Nat.shiftRight_one, pow_succ]
        omega
      rw [hsr]
      exact ih hk1
    · exact ⟨k + 1, by omega, rfl⟩

theorem shrinkLoop_req_zero : ∀ s, shrinkLoop 0 s = 0 := by
  refine shrinkLoop.induct 0 (fun s => shrinkLoop 0 s = 0) ?_ ?_
  · intro s h ih
    rw [shrinkLoop_unfold, if_pos h]
    exact ih
  · intro s h
    rw [shrinkLoop_unfold, if_neg h]
    omega

/-- Capacities are zero or a power of two with exponent at least one. -/
def SizeOk (n : Nat) : Prop := n = 0 ∨ ∃ k, 1 ≤ k ∧ n = 2 ^ k

theorem max_pow_min_size (k : Nat) :
    max (2 ^ k) KORIN_ARRAY_MIN_SIZE = 2 ^ max k 2 := by
  rw [KORIN_ARRAY_MIN_SIZE]
  rcases Nat.le_total k 2 with h | h
  · have hle : (2 : Nat) ^ k ≤ 2 ^ 2 := Nat.pow_le_pow_right (by norm_num) h
    rw [max_eq_right (by norm_num at hle ⊢; omega), max_eq_right h]
    norm_num
  · have hle : (2 : Nat) ^ 2 ≤ 2 ^ k := Nat.pow_le_pow_right (by norm_num) h
    rw [max_eq_left (by norm_num at hle ⊢; omega), max_eq_left h]

theorem growToFit_size {s : ArrCounters} (hs : SizeOk s.size) (r : Nat) :
    SizeOk (s.growToFit r).size ∧ r ≤ (s.growToFit r).size ∧
      (s.growToFit r).count = s.count ∧
      ((s.growToFit r).hasBuf = false → (s.growToFit r).size = s.size ∧ s.hasBuf = false) := by
  rw [ArrCounters.growToFit]
  split
  · rename_i hlt
    have hbase : 0 < max s.size KORIN_ARRAY_MIN_SIZE := by
      simp [KORIN_ARRAY_MIN_SIZE]
    obtain ⟨h1, j, hj⟩ := growLoop_spec r _ hbase
    refine ⟨?_, h1, rfl, by simp [ArrCounters.resize]⟩
    right
    rcases hs with h0 | ⟨k, hk, hpow⟩
    · refine ⟨2 + j, by omega, ?_⟩
      show growLoop r (max s.size KORIN_ARRAY_MIN_SIZE) = 2 ^ (2 + j)
      rw [hj, h0, pow_add]
      norm_num [KORIN_ARRAY_MIN_SIZE]
    · refine ⟨max k 2 + j, by omega, ?_⟩
      show growLoop r (max s.size KORIN_ARRAY_MIN_SIZE) = 2 ^ (max k 2 + j)
      rw [hj, hpow, max_pow_min_size, pow_add]
  · rename_i hge
    exact ⟨hs, by omega, rfl, fun h => ⟨rfl, h⟩⟩

theorem shrinkToFit_size {s : ArrCounters} (hs : SizeOk s.size) (hc : s.count ≤ s.size) :
    SizeOk (s.shrinkToFit s.count).size ∧ s.count ≤ (s.shrinkToFit s.count).size ∧
      (s.shrinkToFit s.count).count = s.count ∧
      ((s.shrinkToFit s.count).hasBuf = false →
        (s.shrinkToFit s.count).size = s.size ∧ s.hasBuf = false) := by
  rw [ArrCounters.shrinkToFit]
  split
  · rename_i hne
    refine ⟨?_, shrinkLoop_ge _ _ hc, rfl, by simp [ArrCounters.resize]⟩
    rcases Nat.eq_zero_or_pos s.count with h0 | hpos
    · left
      show shrinkLoop s.count s.size = 0
      rw [h0, shrinkLoop_req_zero]
    · rcases hs with h0 | ⟨k, hk, hpow⟩
      · left
        show shrinkLoop s.count s.size = 0
        rw [h0, shrinkLoop_unfold]
        simp
      · right
        show ∃ j, 1 ≤ j ∧ shrinkLoop s.count s.size = 2 ^ j
        rw [hpow]
        exact shrinkLoop_pow _ hpos k hk
  · exact ⟨hs, hc, rfl, fun h => ⟨rfl, h⟩⟩

theorem ArrCounters.Inv.ofParts {s : ArrCounters} (h1 : SizeOk s.size)
    (h2 : s.count ≤ s.size) (h3 : s.hasBuf = false → s.size = 0) : s.Inv :=
  ⟨by rcases h1 with h | h; exact .inl h; exact .inr h, h2, h3⟩

theorem ArrCounters.Inv.sizeOk {s : ArrCounters} (h : s.Inv) : SizeOk s.size := by
  rcases h.1 with h0 | hp
  · exact .inl h0
  · exact .inr hp

theorem arrReach_inv : ∀ {s : ArrCounters}, ArrReachNoRemove s → s.Inv := by
  have initInv : ArrCounters.init.Inv := ⟨.inl rfl, le_rfl, fun _ => rfl⟩
  intro s h
  induction h with
  | init => exact initInv
  | initReserved r =>
    obtain ⟨h1, h2, h3, h4⟩ := growToFit_size (s := ArrCounters.init) (.inl rfl) r
    rw [ArrCounters.initReserved]
    refine .ofParts h1 ?_ (fun hb => (h4 hb).1)
    show (ArrCounters.init.growToFit r).count ≤ _
    rw [h3]
    show 0 ≤ _
    omega
  | initFill n slack =>
    obtain ⟨h1, h2, h3, h4⟩ := growToFit_size (s := ArrCounters.init) (.inl rfl) (n + slack)
    rw [ArrCounters.initFill]
    refine .ofParts h1 ?_ (fun hb => (h4 hb).1)
    show n ≤ (ArrCounters.init.growToFit (n + slack)).size
    omega
  | initCopy h ih =>
    rw [ArrCounters.initCopy]
    obtain ⟨hso, hcs, hbs⟩ := ih
    split
    · refine ⟨hso, hcs, ?_⟩
      intro hb
      simp [ArrCounters.resize, ArrCounters.init] at hb
    · exact initInv
  | initCopySlack slack h ih =>
    rename_i other
    rw [ArrCounters.initCopySlack]
    split
    · rename_i hcond
      dsimp only
      obtain ⟨h1, h2, h3, h4⟩ :=
        growToFit_size (s := ⟨other.size, 0, false⟩) ih.sizeOk (other.count + slack)
      by_cases hb1 :
          (ArrCounters.growToFit ⟨other.size, 0, false⟩ (other.count + slack)).hasBuf = true
      · rw [if_pos hb1]
        refine .ofParts h1 ?_ (by simp [hb1])
        show other.count ≤ (ArrCounters.growToFit ⟨other.size, 0, false⟩ (other.count + slack)).size
        omega
      · rw [if_neg hb1]
        refine .ofParts ?_ ?_ (by simp [ArrCounters.resize])
        · show SizeOk other.size
          exact ih.sizeOk
        · show other.count ≤ other.size
          exact ih.2.1
    · exact initInv
  | append n h hn ih =>
    rename_i s0
    rw [ArrCounters.append]
    obtain ⟨h1, h2, h3, h4⟩ := growToFit_size (s := s0) ih.sizeOk (s0.count + n)
    refine .ofParts h1 ?_ (fun hb => ((h4 hb).1.trans (ih.2.2 (h4 hb).2)))
    show (s0.growToFit (s0.count + n)).count + n ≤ (s0.growToFit (s0.count + n)).size
    omega
  | insert idx n h hn ih =>
    rename_i s0
    rw [ArrCounters.insert]
    split
    · rename_i hidx
      obtain ⟨h1, h2, h3, h4⟩ := growToFit_size (s := s0) ih.sizeOk (s0.count + n)
      refine .ofParts h1 ?_ (fun hb => ((h4 hb).1.trans (ih.2.2 (h4 hb).2)))
      show (s0.growToFit (s0.count + n)).count + n ≤ (s0.growToFit (s0.count + n)).size
      omega
    · rename_i hidx
      obtain ⟨h1, h2, h3, h4⟩ := growToFit_size (s := s0) ih.sizeOk (idx + n)
      refine .ofParts h1 ?_ (fun hb => ((h4 hb).1.trans (ih.2.2 (h4 hb).2)))
      show (s0.growToFit (idx + n)).count + n ≤ (s0.growToFit (idx + n)).size
      push_neg at hidx
      omega
  | pop h hc ih =>
    rename_i s0
    rw [ArrCounters.pop]
    obtain ⟨h1, h2, h3, h4⟩ := shrinkToFit_size (s := { s0 with count := s0.count - 1 })
      ih.sizeOk (show s0.count - 1 ≤ s0.size by have := ih.2.1; omega)
    refine .ofParts h1 ?_ (fun hb => ((h4 hb).1.trans (ih.2.2 (h4 hb).2)))
    rw [h3]
    exact h2
  | removeAt idx n h hn hi hr ih =>
    rename_i s0
    rw [ArrCounters.removeAt]
    split
    · -- delegates to pop
      rw [ArrCounters.pop]
      obtain ⟨h1, h2, h3, h4⟩ := shrinkToFit_size (s := { s0 with count := s0.count - 1 })
        ih.sizeOk (show s0.count - 1 ≤ s0.size by have := ih.2.1; omega)
      refine .ofParts h1 ?_ (fun hb => ((h4 hb).1.trans (ih.2.2 (h4 hb).2)))
      rw [h3]
      exact h2
    · obtain ⟨h1, h2, h3, h4⟩ := shrinkToFit_size (s := { s0 with count := s0.count - n })
        ih.sizeOk (show s0.count - n ≤ s0.size by have := ih.2.1; omega)
      refine .ofParts h1 ?_ (fun hb => ((h4 hb).1.trans (ih.2.2 (h4 hb).2)))
      rw [h3]
      exact h2
  | concat ms h hm ih =>
    rename_i s0
    rw [ArrCounters.concat]
    obtain ⟨h1, h2, h3, h4⟩ := growToFit_size (s := s0) ih.sizeOk (s0.count + ms.sum)
    refine .ofParts h1 ?_ (fun hb => ((h4 hb).1.trans (ih.2.2 (h4 hb).2)))
    show s0.count + ms.sum ≤ (s0.growToFit (s0.count + ms.sum)).size
    omega
  | slice beginIdx endIdx h hb he ih =>
    rw [ArrCounters.slice]
    obtain ⟨h1, h2, h3, h4⟩ := growToFit_size (s := ArrCounters.init) (.inl rfl)
      (endIdx - beginIdx)
    refine .ofParts h1 ?_ (fun hbf => (h4 hbf).1)
    show endIdx - beginIdx ≤ (ArrCounters.init.growToFit (endIdx - beginIdx)).size
    omega
  | assign h h2 ih ih2 =>
    rename_i s0 other
    rw [ArrCounters.assign]
    split
    · exact ⟨.inl rfl, le_rfl, fun _ => rfl⟩
    · split
      · rename_i hlt
        obtain ⟨ha, hb, hc, hd⟩ := shrinkToFit_size (s := { s0 with count := other.count })
          ih.sizeOk (show other.count ≤ s0.size by have := ih.2.1; omega)
        refine .ofParts ha ?_ (fun hbf => ((hd hbf).1.trans (ih.2.2 (hd hbf).2)))
        rw [hc]
        exact hb
      · obtain ⟨ha, hb, hc, hd⟩ := growToFit_size (s := s0) ih.sizeOk other.count
        refine .ofParts ha ?_ (fun hbf => ((hd hbf).1.trans (ih.2.2 (hd hbf).2)))
        show other.count ≤ (s0.growToFit other.count).size
        omega

theorem shrinkToFit_sizeOk {s : ArrCounters} (hs : SizeOk s.size) (r : Nat) :
    SizeOk (s.shrinkToFit r).size := by
  rw [ArrCounters.shrinkToFit]
  split
  · show SizeOk (shrinkLoop r s.size)
    rcases Nat.eq_zero_or_pos r with h0 | hpos
    · left
      rw [h0, shrinkLoop_req_zero]
    · rcases hs with h0 | ⟨k, hk, hpow⟩
      · left
        rw [h0, shrinkLoop_unfold]
        simp
      · right
        rw [hpow]
        exact shrinkLoop_pow _ hpos k hk
  · exact hs

/-- The power-of-two part of the invariant survives the *entire* public
surface, `remove(from, to)` included: every operation changes the
capacity only through `growToFit`/`shrinkToFit`. -/
theorem arrReach_sizeOk : ∀ {s : ArrCounters}, ArrReach s → SizeOk s.size := by
  intro s h
  induction h with
  | init => exact .inl rfl
  | initReserved r =>
    rw [ArrCounters.initReserved]
    exact (growToFit_size (s := ArrCounters.init) (.inl rfl) r).1
  | initFill n slack =>
    rw [ArrCounters.initFill]
    exact (growToFit_size (s := ArrCounters.init) (.inl rfl) (n + slack)).1
  | initCopy h ih =>
    rw [ArrCounters.initCopy]
    split
    · exact ih
    · exact .inl rfl
  | initCopySlack slack h ih =>
    rename_i other
    rw [ArrCounters.initCopySlack]
    split
    · dsimp only
      by_cases hb1 :
          (ArrCounters.growToFit ⟨other.size, 0, false⟩ (other.count + slack)).hasBuf = true
      · rw [if_pos hb1]
        exact (growToFit_size (s := ⟨other.size, 0, false⟩) ih (other.count + slack)).1
      · rw [if_neg hb1]
        exact ih
    · exact .inl rfl
  | append n h hn ih =>
    rw [ArrCounters.append]
    exact (growToFit_size ih _).1
  | insert idx n h hn ih =>
    rw [ArrCounters.insert]
    split
    · exact (growToFit_size ih _).1
    · exact (growToFit_size ih _).1
  | pop h hc ih =>
    rename_i s0
    rw [ArrCounters.pop]
    exact @shrinkToFit_sizeOk ⟨s0.size, s0.count - 1, s0.hasBuf⟩ ih _
  | removeAt idx n h hn hi hr ih =>
    rename_i s0
    rw [ArrCounters.removeAt]
    split
    · rw [ArrCounters.pop]
      exact @shrinkToFit_sizeOk ⟨s0.size, s0.count - 1, s0.hasBuf⟩ ih _
    · exact @shrinkToFit_sizeOk ⟨s0.size, s0.count - n, s0.hasBuf⟩ ih _
  | remove fromIdx toIdx h hf ht ih =>
    rename_i s0
    simp only [ArrCounters.remove]
    split
    · rw [ArrCounters.pop]
      exact @shrinkToFit_sizeOk ⟨s0.size, s0.count - 1, s0.hasBuf⟩ ih _
    · exact @shrinkToFit_sizeOk
        ⟨s0.size, (s0.count + U64 - (fromIdx + U64 - toIdx) % U64) % U64, s0.hasBuf⟩ ih _
  | concat ms h hm ih =>
    rw [ArrCounters.concat]
    exact (growToFit_size ih _).1
  | slice beginIdx endIdx h hb he ih =>
    rw [ArrCounters.slice]
    exact (growToFit_size (s := ArrCounters.init) (.inl rfl) _).1
  | assign h h2 ih ih2 =>
    rw [ArrCounters.assign]
    split
    · exact .inl rfl
    · split
      · rename_i other hnb hlt
        exact @shrinkToFit_sizeOk ⟨_, other.count, _⟩ ih _
      · exact (growToFit_size ih _).1

/-- `Array(4, value)` builds a full array: capacity 4, length 4. -/
theorem initFill4 : ArrCounters.initFill 4 0 = ⟨4, 4, true⟩ := by
  have e1 : growLoop 4 4 = 4 := by
    rw [growLoop_unfold]
    norm_num
  simp only [ArrCounters.initFill, ArrCounters.growToFit, ArrCounters.init,
    ArrCounters.resize, KORIN_ARRAY_MIN_SIZE]
  norm_num [e1]

/-- `remove(data + 1, data + 3)` on a full 4-item array: the reversed
count `from - to` wraps to `2^64 - 2`, `count -= numItems` wraps back
up to 6, and `shrinkToFit(6)` leaves the capacity 4 — the array ends
with length 6 above capacity 4. -/
theorem remove13_eval : (ArrCounters.initFill 4 0).remove 1 3 = ⟨4, 6, true⟩ := by
  have eS : shrinkLoop 6 4 = 4 := by
    rw [shrinkLoop_unfold]
    norm_num
  rw [initFill4]
  simp only [ArrCounters.remove, ArrCounters.shrinkToFit, U64]
  norm_num [eS]

/-- **C6 (counterexample).** The claimed invariant — capacity in
`{0} ∪ {2^k | k ≥ 2}` and length ≤ capacity — fails on reachable states
in two independent ways: `append; append; pop` shrinks the capacity
from 4 down to 2 (so `k ≥ 2` is wrong), and `remove(1, 3)` on a full
4-item array computes its item count reversed (`from - to`), wrapping
`count -= numItems` up to length 6 > capacity 4 (so the length bound is
wrong as well once `remove` is used). -/
theorem array_capacity_claim_false :
    (ArrReach ((ArrCounters.init.append 1).append 1).pop ∧
      ¬ ArrCounters.InvClaimed ((ArrCounters.init.append 1).append 1).pop) ∧
    (ArrReach ((ArrCounters.initFill 4 0).remove 1 3) ∧
      ¬ ArrCounters.InvClaimed ((ArrCounters.initFill 4 0).remove 1 3) ∧
      ((ArrCounters.initFill 4 0).remove 1 3).size <
        ((ArrCounters.initFill 4 0).remove 1 3).count) := by
  have e1 : growLoop 1 4 = 4 := by
    rw [growLoop_unfold]
    norm_num
  have e2 : shrinkLoop 1 2 = 2 := by
    rw [shrinkLoop_unfold]
    norm_num
  have e3 : shrinkLoop 1 4 = 2 := by
    rw [shrinkLoop_unfold, if_pos (by norm_num)]
    have h41 : (4 : Nat) >>> 1 = 2 := by decide
    rw [h41, e2]
  have h1 : ArrCounters.init.append 1 = ⟨4, 1, true⟩ := by
    simp only [ArrCounters.append, ArrCounters.growToFit, ArrCounters.init,
      ArrCounters.resize, KORIN_ARRAY_MIN_SIZE]
    norm_num [e1]
  have h2 : (ArrCounters.mk 4 1 true).append 1 = ⟨4, 2, true⟩ := by
    simp only [ArrCounters.append, ArrCounters.growToFit]
    norm_num
  have h3 : (ArrCounters.mk 4 2 true).pop = ⟨2, 1, true⟩ := by
    simp only [ArrCounters.pop, ArrCounters.shrinkToFit, ArrCounters.resize]
    norm_num [e3]
  refine ⟨⟨?_, ?_⟩, ?_, ?_, ?_⟩
  · refine ArrReach.pop (ArrReach.append 1 (ArrReach.append 1 ArrReach.init (by norm_num))
      (by norm_num)) ?_
    rw [h1, h2]
    norm_num
  · rw [h1, h2, h3]
    rintro ⟨h4 | ⟨k, hk, hs⟩, -⟩
    · exact absurd h4 (by norm_num)
    · have hle : (2 : Nat) ^ 2 ≤ 2 ^ k := Nat.pow_le_pow_right (by norm_num) hk
      rw [← hs] at hle
      norm_num at hle
  · refine ArrReach.remove 1 3 (ArrReach.initFill 4 0) (by norm_num) ?_
    rw [initFill4]
    norm_num
  · rw [remove13_eval]
    rintro ⟨-, hc⟩
    norm_num at hc
  · rw [remove13_eval]
    norm_num

/-- **C6 (amended).** For every sequence of public `Array` operations
applied within their documented domains: the capacity is at all times
either 0 or a power of two `2^k` with `k ≥ 1` (growth never produces a
capacity below 4, but a shrink can halve 4 down to 2, so the claimed
minimum `k ≥ 2` is wrong); the length never exceeds the capacity as
long as `remove(from, to)` is not used; and `remove` itself, in its
documented domain, breaks the length bound, because it computes its
item count reversed (`from - to` instead of `to - from`): removing the
two middle items of a full 4-item array leaves length 6 above
capacity 4. -/
theorem array_growth_policy :
    (∀ s : ArrCounters, ArrReach s →
      s.size = 0 ∨ ∃ k, 1 ≤ k ∧ s.size = 2 ^ k) ∧
    (∀ s : ArrCounters, ArrReachNoRemove s → s.count ≤ s.size) ∧
    ((ArrCounters.initFill 4 0).remove 1 3).size <
      ((ArrCounters.initFill 4 0).remove 1 3).count := by
  refine ⟨?_, ?_, ?_⟩
  · intro s h
    exact arrReach_sizeOk h
  · intro s h
    exact (arrReach_inv h).2.1
  · rw [remove13_eval]
    norm_num

/-- Witness for `array_growth_policy`: the capacity clause at a
reachable state (also at a post-`remove` state) and the length clause
at a `remove`-free state. -/
theorem array_growth_policy_witness :
    ((ArrCounters.init.append 1).size = 0 ∨
      ∃ k, 1 ≤ k ∧ (ArrCounters.init.append 1).size = 2 ^ k) ∧
    (ArrCounters.init.append 1).count ≤ (ArrCounters.init.append 1).size ∧
    (((ArrCounters.initFill 4 0).remove 1 3).size = 0 ∨
      ∃ k, 1 ≤ k ∧ ((ArrCounters.initFill 4 0).remove 1 3).size = 2 ^ k) :=
  ⟨array_growth_policy.1 _ (ArrReach.append 1 ArrReach.init (by norm_num)),
   array_growth_policy.2.1 _
     (ArrReachNoRemove.append 1 ArrReachNoRemove.init (by norm_num)),
   array_growth_policy.1 _ (ArrReach.remove 1 3 (ArrReach.initFill 4 0) (by norm_num)
     (by rw [initFill4]; norm_num))⟩

/-! # Pooled allocator under memory exhaustion (malloc_pool.cpp)

`MallocPool::malloc` creates a new pool through `createPool` when the
free-pool list is empty.  `createPool` performs one allocation through
the global allocator and *never checks it for null*: it
placement-constructs the pool header at `buffer + poolHandleOffset` and
`initMemoryPool` threads the free list through the buffer's block
slots.  With a null buffer both steps dereference a pointer derived
from null: the debug `ASSERT(pool->buffer != nullptr)` aborts the
process, and in release builds the writes are undefined behavior.  The
model returns an explicit fault value in that case; on the success path
it mirrors the code.  Addresses are plain naturals, a null pointer is
`Option.none`, and the 64-bit platform constants are fixed below. -/

/-- `sizeof(void*)` on the 64-bit target. -/
def PTR_SIZE : Nat := 8

/-- `alignof(BinaryNodeBase<MemoryPoolHandle>)` on the 64-bit target. -/
def POOL_NODE_ALIGN : Nat := 8

/-- `sizeof(BinaryNodeBase<MemoryPoolHandle>)` on the 64-bit target
(the exact value has no bearing on the claim). -/
def POOL_NODE_SIZE : Nat := 120

/-- `PlatformMath::align2Up(n, p)`: round `n` up to a multiple of the
power of two `p` (the bitwise `(n + p - 1) & ~(p - 1)` of the source,
written arithmetically). -/
def align2Up (n p : Nat) : Nat := (n + p - 1) / p * p

/-- `MemoryPool::CreateInfo`. -/
structure MPCreateInfo where
  blockSize : Nat
  blockAlignment : Nat
  numBlocks : Nat
  deriving Repr, DecidableEq

/-- A `MemoryPool` header (malloc_pool.h): buffer start address (none
models a null pointer), physical buffer size, the intrusive free list
of block addresses, and the in-use counter. -/
structure MPool where
  buffer : Option Nat
  bufferSize : Nat
  blocks : List Nat
  numBlocksInUse : Nat
  deriving Repr, DecidableEq

/-- The `MallocPool` state: the pools indexed by the RB tree (kept as a
list sorted by buffer address), the MRU list of pools with free blocks,
and `numPools`. -/
structure MPState where
  treePools : List MPool
  freePools : List MPool
  numPools : Nat
  deriving Repr, DecidableEq

/-- `MallocPool::MallocPool`: no pools. -/
def MPState.init : MPState := { treePools := [], freePools := [], numPools := 0 }

/-- A fault of the modelled code: a pointer derived from a null buffer
is dereferenced (placement-new of the pool header at
`buffer + poolHandleOffset`, the `ASSERT(pool->buffer != nullptr)` of
`initMemoryPool`, and the free-list threading writes). -/
inductive MPFault where
  | nullDeref
  deriving Repr, DecidableEq

/-- `initMemoryPool` (malloc_pool.cpp): threads the free list through
the `numBlocks` physical block slots of the buffer.  A null buffer is a
fault (debug assert / undefined writes). -/
def initMemoryPool (ci : MPCreateInfo) (pool : MPool) : Except MPFault MPool :=
  match pool.buffer with
  | none => .error .nullDeref
  | some base =>
    let blockPhySize := align2Up (ci.blockSize + PTR_SIZE) ci.blockAlignment
    .ok { pool with blocks := (List.range ci.numBlocks).map fun i => base + i * blockPhySize }

/-- `MallocPool::createPool`: one buffer allocation through the global
allocator (`galloc` is the address it returns, none on exhaustion),
pool header placed at the tail of the buffer, free list threaded
through the blocks.  The null result of the global allocator is *not*
checked. -/
def createPool (ci : MPCreateInfo) (galloc : Option Nat) : Except MPFault MPool :=
  let blockLogSize := ci.blockSize
  let blockPhySize := align2Up (blockLogSize + PTR_SIZE) ci.blockAlignment
  let bufferLogSize := ci.numBlocks * blockPhySize
  let poolHandleOffset := align2Up bufferLogSize POOL_NODE_ALIGN
  let bufferPhySize := poolHandleOffset + POOL_NODE_SIZE
  -- buffer = gMalloc->malloc(...): none models the null return
  let buffer := galloc
  match buffer with
  | none =>
    -- the code continues: `new (buffer + poolHandleOffset) NodeT{}` and
    -- `initMemoryPool` dereference pointers derived from null
    .error .nullDeref
  | some base =>
    initMemoryPool ci
      { buffer := some base, bufferSize := bufferPhySize, blocks := [], numBlocksInUse := 0 }

/-- `acquireBlock` (malloc_pool.cpp): pop the head of the pool's free
list, incrementing `numBlocksInUse`. -/
def acquireBlock (pool : MPool) : Option Nat × MPool :=
  match pool.blocks with
  | [] => (none, pool)
  | b :: rest => (some b, { pool with blocks := rest, numBlocksInUse := pool.numBlocksInUse + 1 })

/-- Insertion into the address-ordered RB tree of pools
(`TreeNode::insert` keyed by `GreaterThan` on the buffer address),
abstracted to its effect on the set of indexed pools. -/
def treeInsertPool (pools : List MPool) (pool : MPool) : List MPool :=
  match pools with
  | [] => [pool]
  | p :: rest =>
    if pool.buffer.getD 0 < p.buffer.getD 0 then pool :: p :: rest
    else p :: treeInsertPool rest pool

/-- `MallocPool::malloc(size, alignment)`.  Returns the allocated block
address (none for a null return) and the new allocator state, or a
fault when the code dereferences a null-derived pointer. -/
def MPState.malloc (ci : MPCreateInfo) (galloc : Option Nat) (s : MPState) :
    Except MPFault (Option Nat × MPState) := do
  let s ←
    if s.freePools.isEmpty then do
      let pool ← createPool ci galloc
      pure { treePools := treeInsertPool s.treePools pool,
             freePools := pool :: s.freePools,
             numPools := s.numPools + 1 }
    else pure s
  match s.freePools with
  | [] =>
    -- `if (!pools) return nullptr;`
    pure (none, s)
  | pool :: rest =>
    let (block, pool) := acquireBlock pool
    let s :=
      if pool.blocks.isEmpty then
        { s with freePools := rest }
      else
        { s with freePools := pool :: rest }
    pure (block, s)

/-- The pool configuration of the spec's seed scenario S1 (any other
configuration behaves identically here). -/
def mpCfg : MPCreateInfo := { blockSize := 32, blockAlignment := 16, numBlocks := 8 }

/-- **C7 (code bug).** When the global aligned allocator returns null
while `MallocPool::malloc` is creating its first pool, the code does
not return null with unchanged state as the specification requires:
`createPool` never tests the buffer for null, so the pool header is
placement-constructed at `nullptr + poolHandleOffset` and
`initMemoryPool` hits `ASSERT(pool->buffer != nullptr)` (a fatal abort
in debug builds; undefined writes through a null-derived pointer in
release builds).  The model therefore faults instead of producing any
return value. -/
theorem mallocPool_oom_no_rollback :
    MPState.malloc mpCfg none MPState.init = .error .nullDeref ∧
      ∀ s' : MPState, MPState.malloc mpCfg none MPState.init ≠ .ok (none, s') := by
  constructor
  · rfl
  · intro s'
    simp only [show MPState.malloc mpCfg none MPState.init = .error .nullDeref from rfl]
    simp

/-! # Set algebra (set.h)

`Set<T, PolicyT>` wraps the RB tree; its iterators walk the in-order
chain, so a set is abstracted here by its ascending, duplicate-free
element list (the tree section below proves that insertion into the
tree yields exactly such a list).  The default `int32` policy is
`GreaterThan`, whose `cmp = (x > y) - (x < y)` drives every merge walk
below; each function is the direct list-level rendering of the
corresponding iterator loop of set.h. -/

/-- `Set::insert` = `Tree::findOrEmplace` on the in-order element list:
descend to the ordered position, keep the existing item on a match,
otherwise link the new item there. -/
def slInsert : List ℤ → ℤ → List ℤ
  | [], v => [v]
  | x :: xs, v =>
    if v < x then v :: x :: xs
    else if v = x then x :: xs
    else x :: slInsert xs v

/-- `Set::operator|` : copy the left set, then `operator|=` inserts
every item of the right set in iteration (ascending) order. -/
def unionCode (a b : List ℤ) : List ℤ := b.foldl slInsert a

/-- `Set::operator&` (set.h): merge walk emitting the common items into
a fresh set; `cmp < 0` advances the left iterator, `cmp > 0` the right
one. -/
def interCode : List ℤ → List ℤ → List ℤ
  | [], _ => []
  | _ :: _, [] => []
  | x :: xs, y :: ys =>
    if x < y then interCode xs (y :: ys)
    else if y < x then interCode (x :: xs) ys
    else x :: interCode xs ys
termination_by a b => a.length + b.length

/-- `Set::operator-` (set.h): merge walk keeping the items of the left
set that are not matched in the right set, plus the trailing loop that
inserts the left set's remaining items. -/
def diffCode : List ℤ → List ℤ → List ℤ
  | [], _ => []
  | x :: xs, [] => x :: xs
  | x :: xs, y :: ys =>
    if x < y then x :: diffCode xs (y :: ys)
    else if y < x then diffCode (x :: xs) ys
    else diffCode xs ys
termination_by a b => a.length + b.length

/-- `Set::operator^` = copy of the left set then `operator^=` (set.h):
`cmp < 0` keeps the current left item, `cmp > 0` inserts the right item
in front of the iteration point, a match removes the common item; the
trailing loop inserts the right set's remaining items. -/
def symmDiffCode : List ℤ → List ℤ → List ℤ
  | [], ys => ys
  | x :: xs, [] => x :: xs
  | x :: xs, y :: ys =>
    if x < y then x :: symmDiffCode xs (y :: ys)
    else if y < x then y :: symmDiffCode (x :: xs) ys
    else symmDiffCode xs ys
termination_by a b => a.length + b.length

/-- Strictly-ascending lists agreeing on membership are equal. -/
theorem sorted_mem_ext : ∀ {l₁ l₂ : List ℤ}, l₁.Sorted (· < ·) → l₂.Sorted (· < ·) →
    (∀ x, x ∈ l₁ ↔ x ∈ l₂) → l₁ = l₂ := by
  intro l₁
  induction l₁ with
  | nil =>
    intro l₂ _ _ hmem
    cases l₂ with
    | nil => rfl
    | cons y ys => exact absurd ((hmem y).mpr (by simp)) (by simp)
  | cons x xs ih =>
    intro l₂ h₁ h₂ hmem
    cases l₂ with
    | nil => exact absurd ((hmem x).mp (by simp)) (by simp)
    | cons y ys =>
      rw [List.sorted_cons] at h₁ h₂
      have hxy : x = y := by
        rcases List.mem_cons.mp ((hmem x).mp (by simp)) with h | h
        · exact h
        · rcases List.mem_cons.mp ((hmem y).mpr (by simp)) with h' | h'
          · exact h'.symm
          · exact absurd (lt_trans (h₁.1 y h') (h₂.1 x h)) (lt_irrefl x)
      subst hxy
      have htails : ∀ z, z ∈ xs ↔ z ∈ ys := by
        intro z
        constructor
        · intro hz
          rcases List.mem_cons.mp ((hmem z).mp (by simp [hz])) with h | h
          · exact absurd (h ▸ h₁.1 z hz) (lt_irrefl z)
          · exact h
        · intro hz
          rcases List.mem_cons.mp ((hmem z).mpr (by simp [hz])) with h | h
          · exact absurd (h ▸ h₂.1 z hz) (lt_irrefl z)
          · exact h
      rw [ih h₁.2 h₂.2 htails]

theorem slInsert_spec : ∀ (l : List ℤ) (v : ℤ), l.Sorted (· < ·) →
    (slInsert l v).Sorted (· < ·) ∧ ∀ z, z ∈ slInsert l v ↔ z = v ∨ z ∈ l := by
  intro l
  induction l with
  | nil =>
    intro v _
    exact ⟨by simp [slInsert], by simp [slInsert]⟩
  | cons x xs ih =>
    intro v hs
    rw [List.sorted_cons] at hs
    rw [slInsert]
    by_cases h1 : v < x
    · rw [if_pos h1]
      refine ⟨?_, by intro z; simp [or_assoc]⟩
      rw [List.sorted_cons]
      refine ⟨?_, List.sorted_cons.mpr hs⟩
      intro b hb
      rcases List.mem_cons.mp hb with h | h
      · exact h ▸ h1
      · exact lt_trans h1 (hs.1 b h)
    · rw [if_neg h1]
      by_cases h2 : v = x
      · rw [if_pos h2]
        refine ⟨List.sorted_cons.mpr hs, ?_⟩
        intro z
        simp only [List.mem_cons, h2]
        tauto
      · rw [if_neg h2]
        obtain ⟨ihs, ihm⟩ := ih v hs.2
        have hxv : x < v := by omega
        refine ⟨?_, ?_⟩
        · rw [List.sorted_cons]
          refine ⟨?_, ihs⟩
          intro b hb
          rcases (ihm b).mp hb with h | h
          · exact h ▸ hxv
          · exact hs.1 b h
        · intro z
          simp only [List.mem_cons, ihm z]
          tauto

theorem unionCode_spec : ∀ (b a : List ℤ), a.Sorted (· < ·) →
    (unionCode a b).Sorted (· < ·) ∧ ∀ z, z ∈ unionCode a b ↔ z ∈ a ∨ z ∈ b := by
  intro b
  induction b with
  | nil =>
    intro a ha
    exact ⟨ha, by simp [unionCode]⟩
  | cons y ys ih =>
    intro a ha
    obtain ⟨h1, h2⟩ := slInsert_spec a y ha
    obtain ⟨h3, h4⟩ := ih (slInsert a y) h1
    refine ⟨h3, ?_⟩
    intro z
    rw [show unionCode a (y :: ys) = unionCode (slInsert a y) ys from rfl, h4 z, h2 z]
    simp only [List.mem_cons]
    tauto

theorem not_mem_of_lt_head {x y : ℤ} {ys : List ℤ} (h : (y :: ys).Sorted (· < ·))
    (hxy : x < y) : x ∉ y :: ys := by
  intro hx
  rw [List.sorted_cons] at h
  rcases List.mem_cons.mp hx with h' | h'
  · omega
  · have := h.1 x h'
    omega

theorem not_eq_or_mem_of_lt_head {x y : ℤ} {ys : List ℤ} (h : (y :: ys).Sorted (· < ·))
    (hxy : x < y) : ¬(x = y ∨ x ∈ ys) :=
  fun hc => not_mem_of_lt_head h hxy (List.mem_cons.mpr hc)

theorem interCode_spec : ∀ (a b : List ℤ), a.Sorted (· < ·) → b.Sorted (· < ·) →
    (interCode a b).Sorted (· < ·) ∧ ∀ z, z ∈ interCode a b ↔ z ∈ a ∧ z ∈ b := by
  have hind := interCode.induct
    (motive := fun a b => a.Sorted (· < ·) → b.Sorted (· < ·) →
      (interCode a b).Sorted (· < ·) ∧ ∀ z, z ∈ interCode a b ↔ z ∈ a ∧ z ∈ b)
  apply hind
  · intro b _ _
    exact ⟨by simp [interCode], by simp [interCode]⟩
  · intro x xs _ _
    exact ⟨by simp [interCode], by simp [interCode]⟩
  · -- x < y
    intro x xs y ys hxy ih ha hb
    rw [List.sorted_cons] at ha
    obtain ⟨ihs, ihm⟩ := ih ha.2 hb
    have heq : interCode (x :: xs) (y :: ys) = interCode xs (y :: ys) := by
      rw [interCode, if_pos hxy]
    rw [heq]
    refine ⟨ihs, ?_⟩
    intro z
    rw [ihm z]
    simp only [List.mem_cons]
    constructor
    · tauto
    · rintro ⟨hz1 | hz1, hz2⟩
      · exact absurd hz2 (hz1 ▸ not_eq_or_mem_of_lt_head hb hxy)
      · exact ⟨hz1, hz2⟩
  · -- y < x
    intro x xs y ys hxy hyx ih ha hb
    rw [List.sorted_cons] at hb
    obtain ⟨ihs, ihm⟩ := ih ha hb.2
    have heq : interCode (x :: xs) (y :: ys) = interCode (x :: xs) ys := by
      rw [interCode, if_neg hxy, if_pos hyx]
    rw [heq]
    refine ⟨ihs, ?_⟩
    intro z
    rw [ihm z]
    simp only [List.mem_cons]
    constructor
    · tauto
    · rintro ⟨hz1, hz2 | hz2⟩
      · exact absurd hz1 (hz2 ▸ not_eq_or_mem_of_lt_head ha hyx)
      · exact ⟨hz1, hz2⟩
  · -- x = y
    intro x xs y ys hxy hyx ih ha hb
    have hx : x = y := by omega
    subst hx
    rw [List.sorted_cons] at ha hb
    obtain ⟨ihs, ihm⟩ := ih ha.2 hb.2
    have heq : interCode (x :: xs) (x :: ys) = x :: interCode xs ys := by
      rw [interCode, if_neg hxy, if_neg hyx]
    rw [heq]
    constructor
    · rw [List.sorted_cons]
      refine ⟨?_, ihs⟩
      intro b hbmem
      rcases ((ihm b).mp hbmem) with ⟨h1, _⟩
      exact ha.1 b h1
    · intro z
      simp only [List.mem_cons, ihm z]
      constructor
      · rintro (h | ⟨h1, h2⟩)
        · exact ⟨.inl h, .inl h⟩
        · exact ⟨.inr h1, .inr h2⟩
      · rintro ⟨h1 | h1, h2 | h2⟩
        · exact .inl h1
        · exact .inl h1
        · exact .inl h2
        · exact .inr ⟨h1, h2⟩

theorem diffCode_spec : ∀ (a b : List ℤ), a.Sorted (· < ·) → b.Sorted (· < ·) →
    (diffCode a b).Sorted (· < ·) ∧ ∀ z, z ∈ diffCode a b ↔ z ∈ a ∧ z ∉ b := by
  have hind := diffCode.induct
    (motive := fun a b => a.Sorted (· < ·) → b.Sorted (· < ·) →
      (diffCode a b).Sorted (· < ·) ∧ ∀ z, z ∈ diffCode a b ↔ z ∈ a ∧ z ∉ b)
  apply hind
  · intro b _ _
    exact ⟨by simp [diffCode], by simp [diffCode]⟩
  · intro x xs ha _
    exact ⟨by simpa [diffCode] using ha, by simp [diffCode]⟩
  · -- x < y: keep x
    intro x xs y ys hxy ih ha hb
    rw [List.sorted_cons] at ha
    obtain ⟨ihs, ihm⟩ := ih ha.2 hb
    have heq : diffCode (x :: xs) (y :: ys) = x :: diffCode xs (y :: ys) := by
      rw [diffCode, if_pos hxy]
    rw [heq]
    constructor
    · rw [List.sorted_cons]
      refine ⟨?_, ihs⟩
      intro b hbm
      exact ha.1 b ((ihm b).mp hbm).1
    · intro z
      simp only [List.mem_cons, ihm z]
      constructor
      · rintro (h | ⟨h1, h2⟩)
        · exact ⟨.inl h, h ▸ not_eq_or_mem_of_lt_head hb hxy⟩
        · exact ⟨.inr h1, h2⟩
      · rintro ⟨h1 | h1, h2⟩
        · exact .inl h1
        · exact .inr ⟨h1, h2⟩
  · -- y < x: advance right
    intro x xs y ys hxy hyx ih ha hb
    rw [List.sorted_cons] at hb
    obtain ⟨ihs, ihm⟩ := ih ha hb.2
    have heq : diffCode (x :: xs) (y :: ys) = diffCode (x :: xs) ys := by
      rw [diffCode, if_neg hxy, if_pos hyx]
    rw [heq]
    refine ⟨ihs, ?_⟩
    intro z
    rw [ihm z]
    constructor
    · rintro ⟨h1, h2⟩
      refine ⟨h1, ?_⟩
      intro hzy
      rcases List.mem_cons.mp hzy with h | h
      · subst h
        exact absurd h1 (not_mem_of_lt_head ha hyx)
      · exact h2 h
    · rintro ⟨h1, h2⟩
      exact ⟨h1, fun hz => h2 (List.mem_cons_of_mem y hz)⟩
  · -- x = y: drop both
    intro x xs y ys hxy hyx ih ha hb
    have hx : x = y := by omega
    subst hx
    rw [List.sorted_cons] at ha hb
    obtain ⟨ihs, ihm⟩ := ih ha.2 hb.2
    have heq : diffCode (x :: xs) (x :: ys) = diffCode xs ys := by
      rw [diffCode, if_neg hxy, if_neg hyx]
    rw [heq]
    refine ⟨ihs, ?_⟩
    intro z
    rw [ihm z]
    simp only [List.mem_cons]
    constructor
    · rintro ⟨h1, h2⟩
      have hxz : x < z := ha.1 z h1
      exact ⟨.inr h1, fun hc => by rcases hc with h | h; omega; exact h2 h⟩
    · rintro ⟨h1 | h1, h2⟩
      · exact absurd (.inl h1) h2
      · have hxz : x < z := ha.1 z h1
        exact ⟨h1, fun hc => h2 (.inr hc)⟩

theorem symmDiffCode_spec : ∀ (a b : List ℤ), a.Sorted (· < ·) → b.Sorted (· < ·) →
    (symmDiffCode a b).Sorted (· < ·) ∧
      ∀ z, z ∈ symmDiffCode a b ↔ (z ∈ a ∧ z ∉ b) ∨ (z ∈ b ∧ z ∉ a) := by
  have hind := symmDiffCode.induct
    (motive := fun a b => a.Sorted (· < ·) → b.Sorted (· < ·) →
      (symmDiffCode a b).Sorted (· < ·) ∧
        ∀ z, z ∈ symmDiffCode a b ↔ (z ∈ a ∧ z ∉ b) ∨ (z ∈ b ∧ z ∉ a))
  apply hind
  · intro b _ hb
    refine ⟨by simpa [symmDiffCode] using hb, by simp [symmDiffCode]⟩
  · intro x xs ha _
    exact ⟨by simpa [symmDiffCode] using ha, by simp [symmDiffCode]⟩
  · -- x < y: keep x
    intro x xs y ys hxy ih ha hb
    rw [List.sorted_cons] at ha
    obtain ⟨ihs, ihm⟩ := ih ha.2 hb
    have heq : symmDiffCode (x :: xs) (y :: ys) = x :: symmDiffCode xs (y :: ys) := by
      rw [symmDiffCode, if_pos hxy]
    rw [heq]
    have hxnb : ¬(x = y ∨ x ∈ ys) := not_eq_or_mem_of_lt_head hb hxy
    have hxnbm : x ∉ y :: ys := not_mem_of_lt_head hb hxy
    constructor
    · rw [List.sorted_cons]
      refine ⟨?_, ihs⟩
      intro b hbm
      rcases (ihm b).mp hbm with ⟨h1, _⟩ | ⟨h1, _⟩
      · exact ha.1 b h1
      · -- b is in y :: ys, hence x < y ≤ b
        rw [List.sorted_cons] at hb
        rcases List.mem_cons.mp h1 with h | h
        · omega
        · have := hb.1 b h
          omega
    · intro z
      simp only [List.mem_cons, ihm z]
      constructor
      · rintro (h | h)
        · exact .inl ⟨.inl h, h ▸ hxnb⟩
        · rcases h with ⟨h1, h2⟩ | ⟨h1, h2⟩
          · exact .inl ⟨.inr h1, h2⟩
          · refine .inr ⟨h1, ?_⟩
            intro hc
            rcases hc with h | h
            · subst h
              exact hxnb h1
            · exact h2 h
      · rintro (⟨h1 | h1, h2⟩ | ⟨h1, h2⟩)
        · exact .inl h1
        · exact .inr (.inl ⟨h1, h2⟩)
        · refine .inr (.inr ⟨h1, fun hc => h2 (.inr hc)⟩)
  · -- y < x: emit y
    intro x xs y ys hxy hyx ih ha hb
    rw [List.sorted_cons] at hb
    obtain ⟨ihs, ihm⟩ := ih ha hb.2
    have heq : symmDiffCode (x :: xs) (y :: ys) = y :: symmDiffCode (x :: xs) ys := by
      rw [symmDiffCode, if_neg hxy, if_pos hyx]
    rw [heq]
    have hyna : ¬(y = x ∨ y ∈ xs) := not_eq_or_mem_of_lt_head ha hyx
    have hynam : y ∉ x :: xs := not_mem_of_lt_head ha hyx
    constructor
    · rw [List.sorted_cons]
      refine ⟨?_, ihs⟩
      intro b hbm
      rcases (ihm b).mp hbm with ⟨h1, _⟩ | ⟨h1, _⟩
      · rw [List.sorted_cons] at ha
        rcases List.mem_cons.mp h1 with h | h
        · omega
        · have := ha.1 b h
          omega
      · exact hb.1 b h1
    · intro z
      simp only [List.mem_cons, ihm z]
      constructor
      · rintro (h | h)
        · exact .inr ⟨.inl h, h ▸ hyna⟩
        · rcases h with ⟨h1, h2⟩ | ⟨h1, h2⟩
          · refine .inl ⟨h1, ?_⟩
            intro hc
            rcases hc with h | h
            · subst h
              exact hyna h1
            · exact h2 h
          · exact .inr ⟨.inr h1, h2⟩
      · rintro (⟨h1, h2⟩ | ⟨h1 | h1, h2⟩)
        · exact .inr (.inl ⟨h1, fun hc => h2 (.inr hc)⟩)
        · exact .inl h1
        · exact .inr (.inr ⟨h1, h2⟩)
  · -- x = y: drop both
    intro x xs y ys hxy hyx ih ha hb
    have hx : x = y := by omega
    subst hx
    rw [List.sorted_cons] at ha hb
    obtain ⟨ihs, ihm⟩ := ih ha.2 hb.2
    have heq : symmDiffCode (x :: xs) (x :: ys) = symmDiffCode xs ys := by
      rw [symmDiffCode, if_neg hxy, if_neg hyx]
    rw [heq]
    refine ⟨ihs, ?_⟩
    intro z
    rw [ihm z]
    simp only [List.mem_cons]
    constructor
    · rintro (⟨h1, h2⟩ | ⟨h1, h2⟩)
      · have hxz : x < z := ha.1 z h1
        exact .inl ⟨.inr h1, fun hc => by rcases hc with h | h; omega; exact h2 h⟩
      · have hxz : x < z := hb.1 z h1
        exact .inr ⟨.inr h1, fun hc => by rcases hc with h | h; omega; exact h2 h⟩
    · rintro (⟨h1 | h1, h2⟩ | ⟨h1 | h1, h2⟩)
      · exact absurd (.inl h1) h2
      · exact .inl ⟨h1, fun hc => h2 (.inr hc)⟩
      · exact absurd (.inl h1) h2
      · exact .inr ⟨h1, fun hc => h2 (.inr hc)⟩

/-- **C5.** For sets `A` and `B` built by insertion (abstracted by
their ascending duplicate-free in-order element lists), the set-algebra
identities of the specification hold for the operators of set.h:
`(A | B) - (A & B) = A ^ B`, `A - B = (A ^ B) & A`, and
`|A| + |B| = |A | B| + |A & B|`. -/
theorem set_algebra_identities {a b : List ℤ}
    (ha : a.Sorted (· < ·)) (hb : b.Sorted (· < ·)) :
    diffCode (unionCode a b) (interCode a b) = symmDiffCode a b ∧
      diffCode a b = interCode (symmDiffCode a b) a ∧
      a.length + b.length = (unionCode a b).length + (interCode a b).length := by
  obtain ⟨hus, hum⟩ := unionCode_spec b a ha
  obtain ⟨his, him⟩ := interCode_spec a b ha hb
  obtain ⟨hss, hsm⟩ := symmDiffCode_spec a b ha hb
  obtain ⟨hds, hdm⟩ := diffCode_spec (unionCode a b) (interCode a b) hus his
  obtain ⟨hds2, hdm2⟩ := diffCode_spec a b ha hb
  obtain ⟨his2, him2⟩ := interCode_spec (symmDiffCode a b) a hss ha
  refine ⟨?_, ?_, ?_⟩
  · apply sorted_mem_ext hds hss
    intro z
    rw [hdm z, hsm z, hum z, him z]
    tauto
  · apply sorted_mem_ext hds2 his2
    intro z
    rw [hdm2 z, him2 z, hsm z]
    tauto
  · have hca : a.toFinset.card = a.length := List.toFinset_card_of_nodup ha.nodup
    have hcb : b.toFinset.card = b.length := List.toFinset_card_of_nodup hb.nodup
    have hcu : (unionCode a b).toFinset.card = (unionCode a b).length :=
      List.toFinset_card_of_nodup hus.nodup
    have hci : (interCode a b).toFinset.card = (interCode a b).length :=
      List.toFinset_card_of_nodup his.nodup
    have hfu : (unionCode a b).toFinset = a.toFinset ∪ b.toFinset := by
      ext z
      simp only [List.mem_toFinset, Finset.mem_union, hum z]
    have hfi : (interCode a b).toFinset = a.toFinset ∩ b.toFinset := by
      ext z
      simp only [List.mem_toFinset, Finset.mem_inter, him z]
    have hcard := Finset.card_union_add_card_inter a.toFinset b.toFinset
    rw [← hca, ← hcb, ← hcu, ← hci, hfu, hfi]
    omega

/-- Witness for `set_algebra_identities` at the spec's seed scenario
S4: `A = {1, 3, 10}`, `B = {0, 2, 3, 9}`. -/
theorem set_algebra_identities_witness :
    ([1, 3, 10] : List ℤ).Sorted (· < ·) ∧ ([0, 2, 3, 9] : List ℤ).Sorted (· < ·) ∧
      (diffCode (unionCode [1, 3, 10] [0, 2, 3, 9]) (interCode [1, 3, 10] [0, 2, 3, 9]) =
          symmDiffCode [1, 3, 10] [0, 2, 3, 9] ∧
        diffCode [1, 3, 10] [0, 2, 3, 9] =
          interCode (symmDiffCode [1, 3, 10] [0, 2, 3, 9]) [1, 3, 10] ∧
        ([1, 3, 10] : List ℤ).length + ([0, 2, 3, 9] : List ℤ).length =
          (unionCode [1, 3, 10] [0, 2, 3, 9]).length +
            (interCode [1, 3, 10] [0, 2, 3, 9]).length) :=
  ⟨by decide, by decide, set_algebra_identities (by decide) (by decide)⟩

/-! # Chained hash table (hash_table.h)

Heap-level embedding of the shared-chain hash table.  Nodes live in an
allocation map from ids to records `(value, hkey, next)`; `next` is the
intrusive forward-list link of the single shared chain, whose head is
the embedded placeholder (`phNext` models `placeholder.next`).  Each
bucket stores its *anchor*: null, the placeholder, or a node id.  The
hash policy is a parameter `hash : α → Nat` standing for
`HashBucket_Impl::computeHash` (whose release-build scramble is part of
the function).  Loops over the chain carry explicit fuel; a dangling
read or exhausted fuel yields `none` (the C++ would be reading freed
memory there), and on well-formed states the fuel never runs out. -/

/-- A hash-table node (`ForwardListNodeBase<HashBucket<T, P>>`). -/
structure HNode (α : Type) where
  value : α
  hkey : Nat
  next : Option Nat
  deriving Repr, DecidableEq

/-- A bucket anchor: the placeholder or a node id (`buckets[i]` when
non-null points to the node whose `next` is the bucket's first entry). -/
inductive BAnchor where
  | ph
  | node (id : Nat)
  deriving Repr, DecidableEq

/-- The hash-table state: allocated nodes, `placeholder.next`, the
bucket anchor array, and the counters. -/
structure HTState (α : Type) where
  nodes : List (Nat × HNode α)
  phNext : Option Nat
  buckets : List (Option BAnchor)
  numBuckets : Nat
  numItems : Nat
  nextId : Nat
  deriving Repr, DecidableEq

namespace HTState

variable {α : Type}

/-- Read a node from the allocation map. -/
def lookup (s : HTState α) (id : Nat) : Option (HNode α) :=
  (s.nodes.find? (fun p => p.1 = id)).map (·.2)

/-- Overwrite the `next` field of an allocated node. -/
def setNext (s : HTState α) (id : Nat) (nxt : Option Nat) : HTState α :=
  { s with nodes := s.nodes.map (fun p => if p.1 = id then (p.1, { p.2 with next := nxt }) else p) }

/-- `HashTable::getBucketIdx(HashKey)`: `hkey & (numBuckets - 1)`. -/
def getBucketIdx (s : HTState α) (hkey : Nat) : Nat :=
  hkey &&& (s.numBuckets - 1)

/-- Read `anchor->next` (the placeholder's or a node's link). -/
def anchorNext (s : HTState α) (a : BAnchor) : Option (Option Nat) :=
  match a with
  | .ph => some s.phNext
  | .node id => (s.lookup id).map (·.next)

/-- Write `anchor->next`. -/
def setAnchorNext (s : HTState α) (a : BAnchor) (nxt : Option Nat) : HTState α :=
  match a with
  | .ph => { s with phNext := nxt }
  | .node id => s.setNext id nxt

/-- Store an anchor into `buckets[idx]`. -/
def setBucket (s : HTState α) (idx : Nat) (a : Option BAnchor) : HTState α :=
  { s with buckets := s.buckets.set idx a }

/-- `HashTable::pushToBucket(node, bucketIdx)` (hash_table.h): push the
node at the front of the bucket; an empty bucket hooks the node at the
head of the global chain through the placeholder, updating the
displaced bucket's anchor. -/
def pushToBucket (s : HTState α) (id : Nat) (bucketIdx : Nat) : Option (HTState α) := do
  let bucket ← s.buckets.get? bucketIdx
  match bucket with
  | some anchor => do
    -- node->next = buckets[bucketIdx]->next; buckets[bucketIdx]->next = node
    let anext ← s.anchorNext anchor
    let s1 := s.setNext id anext
    pure (s1.setAnchorNext anchor (some id))
  | none =>
    -- bucket is empty: node->next = placeholder.next; placeholder.next = node
    let s1 := s.setNext id s.phNext
    let s2 := { s1 with phNext := some id }
    -- if (node->next) buckets[getBucketIdx(node->next)] = node
    let s3 ← match s.phNext with
      | some m => do
        let mn ← s2.lookup m
        pure (s2.setBucket (s2.getBucketIdx mn.hkey) (some (.node id)))
      | none => pure s2
    -- buckets[bucketIdx] = &placeholder
    pure (s3.setBucket bucketIdx (some .ph))

/-- `HashTable::getBucketFirstNode(bucketIdx)`. -/
def getBucketFirstNode (s : HTState α) (bucketIdx : Nat) : Option (Option Nat) := do
  let bucket ← s.buckets.get? bucketIdx
  match bucket with
  | none => pure none
  | some anchor => s.anchorNext anchor

/-- The bucket-chain scan of `HashTable::locateNode`: walk from the
bucket's first node while the nodes still home to this bucket, looking
for an equal hash key.  (The key argument of the source is unused — the
comparison is on hash keys only.) -/
def locateLoop (s : HTState α) (bucketIdx hkey : Nat) : Nat → Option Nat → Option (Option Nat)
  | _, none => some none
  | 0, some _ => none
  | fuel + 1, some id => do
    let n ← s.lookup id
    if s.getBucketIdx n.hkey = bucketIdx then
      if n.hkey = hkey then pure (some id)
      else locateLoop s bucketIdx hkey fuel n.next
    else pure none

/-- `HashTable::locateNode(key, hkey)`. -/
def locateNode (s : HTState α) (hkey : Nat) : Option (Option Nat) := do
  let bucketIdx := s.getBucketIdx hkey
  let first ← s.getBucketFirstNode bucketIdx
  locateLoop s bucketIdx hkey (s.nodes.length + 1) first

/-- The rehash loop of `HashTable::reallocBuckets`: walk the detached
old chain, reinserting every node into its new bucket (`next` is read
before the node is relinked). -/
def rehashLoop (s : HTState α) : Nat → Option Nat → Option (HTState α)
  | _, none => some s
  | 0, some _ => none
  | fuel + 1, some id => do
    let n ← s.lookup id
    let s' ← s.pushToBucket id (s.getBucketIdx n.hkey)
    rehashLoop s' fuel n.next

/-- `HashTable::reallocBuckets(desiredNumBuckets)`. -/
def reallocBuckets (s : HTState α) (desired : Nat) : Option (HTState α) :=
  if desired = s.numBuckets then some s
  else
    let s1 : HTState α := { s with numBuckets := desired, buckets := List.replicate desired none }
    if s.buckets.isEmpty then some s1
    else rehashLoop { s1 with phNext := none } (s.nodes.length + 1) s.phNext

/-- `HashTable::reserve(extraItems)`.  The float test
`newNumItems / (float)numBuckets >= 0.75f` is written in the equivalent
integer form `3 * numBuckets <= 4 * newNumItems` so that concrete
states evaluate in the kernel; `reserveTest_eq_float` below proves the
equivalence with the exact rational comparison used in the counter
model whenever the table has buckets. -/
def reserve (s : HTState α) (extraItems : Nat) : Option (HTState α) :=
  if 3 * s.numBuckets ≤ 4 * (s.numItems + extraItems) then
    s.reallocBuckets (s.numBuckets <<< 1)
  else some s

/-- The zero state before the constructor body runs. -/
def empty : HTState α :=
  { nodes := [], phNext := none, buckets := [], numBuckets := 0, numItems := 0, nextId := 0 }

/-- `HashTable::HashTable()`: `reallocBuckets(HASH_BUCKET_INITIAL_COUNT)`
on the zero state. -/
def construct : Option (HTState α) :=
  HTState.empty.reallocBuckets HASH_BUCKET_INITIAL_COUNT

/-- `HashTable::findOrEmplace` (hash_table.h): create the node, compute
its hash key, search the bucket for a node with the same hash key
(destroying the new node on a hit), otherwise reserve a slot, push the
node to its bucket and count it.  Returns the new state and the id the
returned iterator points to. -/
def findOrEmplace (hash : α → Nat) (s : HTState α) (v : α) : Option (HTState α × Nat) := do
  let id := s.nextId
  let hk := hash v
  let s1 : HTState α :=
    { s with nodes := s.nodes ++ [(id, ⟨v, hk, none⟩)], nextId := s.nextId + 1 }
  match (← s1.locateNode hk) with
  | some found =>
    -- duplicate: destroyNode(node); return {found}
    let s2 := { s1 with nodes := s1.nodes.filter (fun p => p.1 ≠ id) }
    pure (s2, found)
  | none => do
    let s2 ← s1.reserve 1
    let s3 ← s2.pushToBucket id (s2.getBucketIdx hk)
    pure ({ s3 with numItems := s3.numItems + 1 }, id)

/-- `HashTable::find(key)`: locate by the key's computed hash key,
returning the id of the node the iterator points at (none = `end()`). -/
def find (hash : α → Nat) (s : HTState α) (key : α) : Option (Option Nat) :=
  s.locateNode (hash key)

end HTState

/-- The integer reserve test of the heap model agrees with the exact
float comparison of the source whenever the table has buckets. -/
theorem reserveTest_eq_float (n b : Nat) (hb : 0 < b) :
    (3 * b ≤ 4 * n) ↔ ((n : ℚ) / (b : ℚ) ≥ HASH_BUCKET_LOAD_FACTOR) := by
  have hbq : (0 : ℚ) < (b : ℚ) := by exact_mod_cast hb
  rw [HASH_BUCKET_LOAD_FACTOR, ge_iff_le, div_le_div_iff₀ (by norm_num) hbq]
  constructor
  · intro h
    have : (3 * b : ℚ) ≤ 4 * n := by exact_mod_cast h
    nlinarith
  · intro h
    have : (3 * b : ℚ) ≤ 4 * n := by nlinarith
    exact_mod_cast this

/-! ## Chain well-formedness and the rehash theorem -/

/-- The shared chain starting at pointer `p` visits exactly the ids
`L`, following the intrusive `next` links. -/
inductive ChainIs (s : HTState α) : Option Nat → List Nat → Prop
  | nil : ChainIs s none []
  | cons {id : Nat} {n : HNode α} {rest : List Nat} :
      s.lookup id = some n → ChainIs s n.next rest → ChainIs s (some id) (id :: rest)

/-- The identity-relevant part of a node: its value and cached hash
key (everything but the chain link). -/
def entry (s : HTState α) (id : Nat) : Option (α × Nat) :=
  (s.lookup id).map fun n => (n.value, n.hkey)

/-- Every non-null bucket anchor is the placeholder or a chain node. -/
def AnchorsOk (s : HTState α) (L : List Nat) : Prop :=
  ∀ a ∈ s.buckets, ∀ id, a = some (BAnchor.node id) → id ∈ L

theorem find_map_setNext (l : List (Nat × HNode α)) (id : Nat) (nxt : Option Nat) (j : Nat) :
    ((l.map (fun p => if p.1 = id then (p.1, { p.2 with next := nxt }) else p)).find?
        (fun p => p.1 = j)) =
      if j = id then (l.find? (fun p => p.1 = j)).map (fun p => (p.1, { p.2 with next := nxt }))
      else l.find? (fun p => p.1 = j) := by
  induction l with
  | nil => by_cases h : j = id <;> simp [h]
  | cons hd tl ih =>
    by_cases hki : hd.1 = id <;> by_cases hk : hd.1 = j
    · have hji : j = id := by rw [← hk, hki]
      simp [List.find?_cons, hki, hk, hji]
    · have hji : ¬ (j = id) := fun hc => hk (by rw [hki, ← hc])
      have hij : ¬ (id = j) := fun hc => hji hc.symm
      simp [List.find?_cons, hki, hk, hji, hij, ih]
    · have hji : ¬ (j = id) := fun hc => hki (by rw [hk, hc])
      simp [List.find?_cons, hki, hk, hji, ih]
    · simp [List.find?_cons, hki, hk, ih]

theorem lookup_setNext (s : HTState α) (id : Nat) (nxt : Option Nat) (j : Nat) :
    (s.setNext id nxt).lookup j =
      if j = id then (s.lookup j).map (fun n => { n with next := nxt }) else s.lookup j := by
  unfold HTState.lookup HTState.setNext
  simp only [find_map_setNext]
  by_cases h : j = id
  · rw [if_pos h, if_pos h, Option.map_map, Option.map_map]
    rfl
  · rw [if_neg h, if_neg h]

theorem lookup_setBucket (s : HTState α) (i : Nat) (a : Option BAnchor) (j : Nat) :
    (s.setBucket i a).lookup j = s.lookup j := rfl

theorem entry_setNext (s : HTState α) (id : Nat) (nxt : Option Nat) (j : Nat) :
    entry (s.setNext id nxt) j = entry s j := by
  unfold entry
  rw [lookup_setNext]
  by_cases h : j = id
  · rw [if_pos h, Option.map_map]
    rfl
  · rw [if_neg h]

theorem ChainIs.mem_lookup {s : HTState α} {p : Option Nat} {L : List Nat}
    (h : ChainIs s p L) : ∀ id ∈ L, ∃ n, s.lookup id = some n := by
  induction h with
  | nil => intro id h; cases h
  | cons hlk hrest ih =>
    intro j hj
    rcases List.mem_cons.mp hj with h | h
    · exact ⟨_, h ▸ hlk⟩
    · exact ih j h

theorem ChainIs.congr {s s' : HTState α} {p : Option Nat} {L : List Nat}
    (h : ChainIs s p L) (hl : ∀ id ∈ L, s'.lookup id = s.lookup id) : ChainIs s' p L := by
  induction h with
  | nil => exact .nil
  | cons hlk hrest ih =>
    rename_i id n rest
    exact .cons ((hl id (by simp)) ▸ hlk) (ih fun j hj => hl j (by simp [hj]))

theorem ChainIs.length_le {s : HTState α} {p : Option Nat} {L : List Nat}
    (h : ChainIs s p L) (hnd : L.Nodup) : L.length ≤ s.nodes.length := by
  have hsub : L ⊆ s.nodes.map (·.1) := by
    intro id hid
    obtain ⟨n, hn⟩ := h.mem_lookup id hid
    unfold HTState.lookup at hn
    rcases Option.map_eq_some'.mp hn with ⟨pr, hfind, _⟩
    have hmem := List.mem_of_find?_eq_some hfind
    have hp := List.find?_some hfind
    simp only [decide_eq_true_eq] at hp
    exact hp ▸ List.mem_map_of_mem (·.1) hmem
  have := (List.subperm_of_subset hnd hsub).length_le
  simpa using this

/-- Splicing a fresh node after a chain member: the two `next` writes of
the non-empty-bucket branch of `pushToBucket` yield a chain that is a
permutation of the old one with the new id added. -/
theorem chain_insert_after {s : HTState α} {p : Option Nat} {L : List Nat} {aid id : Nat}
    {na n : HNode α} (hch : ChainIs s p L) :
    L.Nodup → aid ∈ L → id ∉ L → s.lookup aid = some na → s.lookup id = some n →
    ∃ L', ChainIs ((s.setNext id na.next).setNext aid (some id)) p L' ∧ List.Perm L' (id :: L) := by
  induction hch with
  | nil => intro _ haid; cases haid
  | cons hlk hrest ih =>
    rename_i id0 n0 rest
    intro hnd haid hid hna hn
    have hid0ne : id0 ≠ id := fun hc => hid (hc ▸ by simp)
    rw [List.nodup_cons] at hnd
    by_cases h0 : id0 = aid
    · subst h0
      have hn0 : n0 = na := by
        rw [hlk] at hna
        exact Option.some.inj hna
      subst hn0
      refine ⟨id0 :: id :: rest, ?_, ?_⟩
      · have hlk2 : ((s.setNext id n0.next).setNext id0 (some id)).lookup id0 =
            some { n0 with next := some id } := by
          rw [lookup_setNext, if_pos rfl, lookup_setNext, if_neg hid0ne, hlk]
          rfl
        refine .cons hlk2 ?_
        have hlkid : ((s.setNext id n0.next).setNext id0 (some id)).lookup id =
            some { n with next := n0.next } := by
          rw [lookup_setNext, if_neg (Ne.symm hid0ne), lookup_setNext, if_pos rfl, hn]
          rfl
        refine .cons hlkid ?_
        show ChainIs _ n0.next rest
        refine hrest.congr ?_
        intro j hj
        have hjne : j ≠ id := fun hc => hid (hc ▸ by simp [hj])
        have hjne0 : j ≠ id0 := fun hc => hnd.1 (hc ▸ hj)
        rw [lookup_setNext, if_neg hjne0, lookup_setNext, if_neg hjne]
      · exact List.Perm.swap id id0 rest
    · have haid' : aid ∈ rest := by
        rcases List.mem_cons.mp haid with h | h
        · exact absurd h.symm h0
        · exact h
      obtain ⟨L', hL', hperm⟩ := ih hnd.2 haid' (fun hc => hid (by simp [hc])) hna hn
      refine ⟨id0 :: L', ?_, ?_⟩
      · have hlk0 : ((s.setNext id na.next).setNext aid (some id)).lookup id0 = some n0 := by
          rw [lookup_setNext, if_neg h0, lookup_setNext, if_neg hid0ne, hlk]
        exact .cons hlk0 hL'
      · exact (hperm.cons id0).trans (List.Perm.swap id id0 rest)

/-- Frame facts of a push: counters, bucket count and node allocation
are untouched, values and hash keys are all intact, and nodes outside
`id :: L` keep even their links. -/
def PushFrame (s s' : HTState α) (id : Nat) (L : List Nat) : Prop :=
  (∀ j, entry s' j = entry s j) ∧
  (∀ j, j ≠ id → j ∉ L → s'.lookup j = s.lookup j) ∧
  s'.numBuckets = s.numBuckets ∧ s'.numItems = s.numItems ∧
  s'.buckets.length = s.buckets.length ∧ s'.nodes.length = s.nodes.length

theorem nodes_length_setNext (s : HTState α) (id : Nat) (nxt : Option Nat) :
    (s.setNext id nxt).nodes.length = s.nodes.length := by
  simp [HTState.setNext]

/-- `pushToBucket` succeeds on a well-formed state with a fresh node
and produces a chain that is a permutation of the old chain with the
node added, preserving every entry. -/
theorem pushToBucket_spec {s : HTState α} {L : List Nat} {id bucketIdx : Nat} {n : HNode α}
    (hch : ChainIs s s.phNext L) (hnd : L.Nodup) (hid : id ∉ L)
    (hlk : s.lookup id = some n) (ha : AnchorsOk s L)
    (hb : bucketIdx < s.buckets.length) :
    ∃ s' L', s.pushToBucket id bucketIdx = some s' ∧
      ChainIs s' s'.phNext L' ∧ List.Perm L' (id :: L) ∧ L'.Nodup ∧
      AnchorsOk s' L' ∧ PushFrame s s' id L := by
  obtain ⟨bucket, hbg⟩ : ∃ bucket, s.buckets.get? bucketIdx = some bucket :=
    ⟨_, List.get?_eq_get hb⟩
  have hndid : (id :: L).Nodup := List.nodup_cons.mpr ⟨hid, hnd⟩
  cases bucket with
  | none =>
    -- empty bucket: hook the node at the head of the chain through the
    -- placeholder, updating the displaced bucket's anchor
    cases hp : s.phNext with
    | none =>
      -- chain was empty
      have hL : L = [] := by
        rw [hp] at hch
        cases hch
        rfl
      subst hL
      have hpe : s.pushToBucket id bucketIdx = some
          ((HTState.mk (s.setNext id none).nodes (some id) s.buckets s.numBuckets
            s.numItems s.nextId).setBucket bucketIdx (some .ph)) := by
        rw [HTState.pushToBucket, hbg, hp]
        rfl
      refine ⟨_, [id], hpe, ?_, List.Perm.refl _, ?_, ?_, ?_⟩
      · show ChainIs _ (some id) [id]
        refine .cons (n := { n with next := none }) ?_ .nil
        show (s.setNext id none).lookup id = _
        rw [lookup_setNext, if_pos rfl, hlk]
        rfl
      · exact List.nodup_cons.mpr ⟨by simp, List.nodup_nil⟩
      · intro a hamem id' hid'
        subst hid'
        rcases List.mem_or_eq_of_mem_set hamem with h | h
        · exact absurd (ha _ h id' rfl) (by simp)
        · exact absurd h (by simp)
      · refine ⟨fun j => entry_setNext s id _ j, fun j hj _ => ?_, rfl, rfl,
          by simp [HTState.setBucket], ?_⟩
        · show (s.setNext id none).lookup j = s.lookup j
          rw [lookup_setNext, if_neg hj]
        · show (s.setNext id none).nodes.length = s.nodes.length
          exact nodes_length_setNext s id _
    | some m =>
      -- chain had head m: relink the displaced bucket's anchor to the node
      obtain ⟨rest, nm, hmL, hlkm, hchrest⟩ :
          ∃ rest nm, L = m :: rest ∧ s.lookup m = some nm ∧ ChainIs s nm.next rest := by
        rw [hp] at hch
        cases hch with
        | cons hlkm hchrest => exact ⟨_, _, rfl, hlkm, hchrest⟩
      have hmne : m ≠ id := fun hc => hid (hc ▸ hmL ▸ by simp)
      have hlkm2 : (HTState.mk (s.setNext id (some m)).nodes (some id) s.buckets s.numBuckets
          s.numItems s.nextId).lookup m = some nm := by
        show (s.setNext id (some m)).lookup m = some nm
        rw [lookup_setNext, if_neg hmne, hlkm]
      have hpe : s.pushToBucket id bucketIdx = some
          (((HTState.mk (s.setNext id (some m)).nodes (some id) s.buckets s.numBuckets
              s.numItems s.nextId).setBucket (s.getBucketIdx nm.hkey)
              (some (.node id))).setBucket bucketIdx (some .ph)) := by
        rw [HTState.pushToBucket, hbg, hp]
        show (Option.bind ((HTState.mk (s.setNext id (some m)).nodes (some id) s.buckets
          s.numBuckets s.numItems s.nextId).lookup m) _) = _
        rw [hlkm2]
        rfl
      refine ⟨_, id :: L, hpe, ?_, List.Perm.refl _, hndid, ?_, ?_⟩
      · show ChainIs _ (some id) (id :: L)
        refine .cons (n := { n with next := some m }) ?_ ?_
        · show (s.setNext id (some m)).lookup id = _
          rw [lookup_setNext, if_pos rfl, hlk]
          rfl
        · show ChainIs _ (some m) L
          rw [hmL]
          refine ChainIs.cons (n := nm) ?_ ?_
          · show (s.setNext id (some m)).lookup m = some nm
            rw [lookup_setNext, if_neg hmne, hlkm]
          · refine hchrest.congr ?_
            intro j hj
            have hjne : j ≠ id := fun hc => hid (hc ▸ hmL ▸ by simp [hj])
            show (s.setNext id (some m)).lookup j = s.lookup j
            rw [lookup_setNext, if_neg hjne]
      · intro a hamem id' hid'
        subst hid'
        rcases List.mem_or_eq_of_mem_set hamem with h | h
        · rcases List.mem_or_eq_of_mem_set h with h2 | h2
          · exact List.mem_cons_of_mem id (ha _ h2 id' rfl)
          · have hi : id' = id := BAnchor.node.inj (Option.some.inj h2)
            rw [hi]
            exact List.mem_cons_self id L
        · exact absurd h (by simp)
      · refine ⟨fun j => entry_setNext s id _ j, fun j hj _ => ?_, rfl, rfl,
          by simp [HTState.setBucket], ?_⟩
        · show (s.setNext id (some m)).lookup j = s.lookup j
          rw [lookup_setNext, if_neg hj]
        · show (s.setNext id (some m)).nodes.length = s.nodes.length
          exact nodes_length_setNext s id _
  | some anchor =>
    cases anchor with
    | ph =>
      have hpe : s.pushToBucket id bucketIdx =
          some { s.setNext id s.phNext with phNext := some id } := by
        rw [HTState.pushToBucket, hbg]
        rfl
      refine ⟨_, id :: L, hpe, ?_, List.Perm.refl _, hndid, ?_, ?_⟩
      · show ChainIs _ (some id) (id :: L)
        refine .cons (n := { n with next := s.phNext }) ?_ ?_
        · show (s.setNext id s.phNext).lookup id = _
          rw [lookup_setNext, if_pos rfl, hlk]
          rfl
        · show ChainIs _ s.phNext L
          refine hch.congr ?_
          intro j hj
          have hjne : j ≠ id := fun hc => hid (hc ▸ hj)
          show (s.setNext id s.phNext).lookup j = s.lookup j
          rw [lookup_setNext, if_neg hjne]
      · intro a hamem id' hid'
        exact List.mem_cons_of_mem id (ha a hamem id' hid')
      · refine ⟨fun j => entry_setNext s id _ j, fun j hj _ => ?_, rfl, rfl, rfl, ?_⟩
        · show (s.setNext id s.phNext).lookup j = s.lookup j
          rw [lookup_setNext, if_neg hj]
        · show (s.setNext id s.phNext).nodes.length = s.nodes.length
          exact nodes_length_setNext s id _
    | node aid =>
      have haid : aid ∈ L := ha _ (List.get?_mem hbg) aid rfl
      obtain ⟨na, hna⟩ := hch.mem_lookup aid haid
      have hpe : s.pushToBucket id bucketIdx =
          some ((s.setNext id na.next).setNext aid (some id)) := by
        rw [HTState.pushToBucket, hbg]
        show ((s.lookup aid).map (·.next)).bind _ = _
        rw [hna]
        rfl
      obtain ⟨L', hL', hperm⟩ :=
        chain_insert_after hch hnd haid hid hna hlk
      refine ⟨_, L', hpe, hL', hperm, (hperm.nodup_iff).mpr hndid, ?_, ?_⟩
      · intro a hamem id' hid'
        exact (hperm.mem_iff).mpr (List.mem_cons_of_mem id (ha a hamem id' hid'))
      · refine ⟨?_, ?_, rfl, rfl, rfl, ?_⟩
        · intro j
          calc entry ((s.setNext id na.next).setNext aid (some id)) j
              = entry (s.setNext id na.next) j := entry_setNext _ aid _ j
            _ = entry s j := entry_setNext s id _ j
        · intro j hj hjL
          have hjaid : j ≠ aid := fun hc => hjL (hc ▸ haid)
          show ((s.setNext id na.next).setNext aid (some id)).lookup j = s.lookup j
          rw [lookup_setNext, if_neg hjaid, lookup_setNext, if_neg hj]
        · show ((s.setNext id na.next).setNext aid (some id)).nodes.length = s.nodes.length
          rw [nodes_length_setNext, nodes_length_setNext]

/-- The rehash loop reinserts the whole detached chain: the resulting
chain is a permutation of the processed ids prepended to the already
rebuilt chain, and every entry survives untouched. -/
theorem rehashLoop_spec :
    ∀ (R : List Nat) (fuel : Nat) (s : HTState α) (p : Option Nat) (M : List Nat),
      ChainIs s p R → ChainIs s s.phNext M → (M ++ R).Nodup → AnchorsOk s M →
      s.buckets.length = s.numBuckets → 0 < s.numBuckets →
      R.length < fuel →
      ∃ s' M', HTState.rehashLoop s fuel p = some s' ∧ ChainIs s' s'.phNext M' ∧
        List.Perm M' (R ++ M) ∧ M'.Nodup ∧ AnchorsOk s' M' ∧
        (∀ j, entry s' j = entry s j) ∧
        s'.numBuckets = s.numBuckets ∧ s'.numItems = s.numItems ∧
        s'.buckets.length = s.buckets.length ∧ s'.nodes.length = s.nodes.length := by
  intro R
  induction R with
  | nil =>
    intro fuel s p M hchR hchM hnd ha hbl hbp hfuel
    have hpnone : p = none := by cases hchR; rfl
    subst hpnone
    have hre : HTState.rehashLoop s fuel none = some s := by
      cases fuel <;> rfl
    exact ⟨s, M, hre, hchM, by simpa using List.Perm.refl M, by simpa using hnd, ha,
      fun j => rfl, rfl, rfl, rfl, rfl⟩
  | cons id R' ih =>
    intro fuel s p M hchR hchM hnd ha hbl hbp hfuel
    obtain ⟨n, hlk, hchR', hpid⟩ :
        ∃ n, s.lookup id = some n ∧ ChainIs s n.next R' ∧ p = some id := by
      cases hchR with
      | cons hlk h => exact ⟨_, hlk, h, rfl⟩
    subst hpid
    cases fuel with
    | zero => omega
    | succ f =>
      have hndparts := List.nodup_append.mp hnd
      have hidM : id ∉ M := fun hc => hndparts.2.2 hc (by simp)
      have hndM : M.Nodup := (List.nodup_append.mp hnd).1
      have hbidx : s.getBucketIdx n.hkey < s.buckets.length := by
        rw [hbl]
        exact lt_of_le_of_lt Nat.and_le_right (by omega)
      obtain ⟨s1, M1, hpush, hchM1, hpermM1, hndM1, haM1, hframe⟩ :=
        pushToBucket_spec hchM hndM hidM hlk ha hbidx
      obtain ⟨hent1, hfr1, hnb1, hni1, hbl1, hnl1⟩ := hframe
      have hdisj : ∀ j ∈ R', j ≠ id ∧ j ∉ M := by
        intro j hj
        constructor
        · intro hc
          subst hc
          exact (List.nodup_cons.mp hndparts.2.1).1 hj
        · intro hc
          exact hndparts.2.2 hc (by simp [hj])
      have hchR1 : ChainIs s1 n.next R' := by
        refine hchR'.congr ?_
        intro j hj
        exact hfr1 j (hdisj j hj).1 (hdisj j hj).2
      have hndApp : (M1 ++ R').Nodup := by
        have hp1 : List.Perm (M1 ++ R') ((id :: M) ++ R') := hpermM1.append_right R'
        have hp2 : List.Perm ((id :: M) ++ R') (M ++ id :: R') := List.perm_middle.symm
        rw [(hp1.trans hp2).nodup_iff]
        exact hnd
      obtain ⟨s', M2, hloop, hchM2, hpermM2, hndM2, haM2, hent2, hnb2, hni2, hbl2, hnl2⟩ :=
        ih f s1 n.next M1 hchR1 hchM1 hndApp haM1 (by rw [hbl1, hnb1, hbl]) (by rw [hnb1]; exact hbp)
          (by simpa using Nat.lt_of_succ_lt_succ hfuel)
      refine ⟨s', M2, ?_, hchM2, ?_, hndM2, haM2, fun j => (hent2 j).trans (hent1 j),
        hnb2.trans hnb1, hni2.trans hni1, hbl2.trans hbl1, hnl2.trans hnl1⟩
      · show HTState.rehashLoop s (f + 1) (some id) = some s'
        rw [HTState.rehashLoop, hlk]
        show (s.pushToBucket id (s.getBucketIdx n.hkey)).bind _ = some s'
        rw [hpush]
        exact hloop
      · exact hpermM2.trans ((hpermM1.append_left R').trans List.perm_middle)

/-- **C10.** A rehash (`reallocBuckets` with a new bucket count, as
triggered by a load-factor breach) relinks the existing entry nodes in
place: it succeeds, the new shared chain visits a permutation of
exactly the old chain's nodes, the multiset of entries (value and
cached hash key per node) is unchanged, no node is destroyed or
allocated and every node keeps its value and hash key (so iterators,
which are node pointers, still point at live identical entries), and
`numItems` is unchanged — only the chain order and the bucket anchors
change. -/
theorem rehash_relinks_in_place {α : Type} {s : HTState α} {L : List Nat} {desired : Nat}
    (hch : ChainIs s s.phNext L) (hnd : L.Nodup) (ha : AnchorsOk s L)
    (hbne : s.buckets ≠ []) (hdne : desired ≠ s.numBuckets) (hdpos : 0 < desired) :
    ∃ s' L', s.reallocBuckets desired = some s' ∧
      ChainIs s' s'.phNext L' ∧ List.Perm L' L ∧
      List.Perm (L'.map (entry s')) (L.map (entry s)) ∧
      (∀ id, entry s' id = entry s id) ∧
      s'.nodes.length = s.nodes.length ∧
      s'.numItems = s.numItems ∧ s'.numBuckets = desired := by
  have hne : ¬ (s.buckets.isEmpty = true) := by
    simpa [List.isEmpty_iff] using hbne
  set s2 : HTState α := { s with numBuckets := desired, buckets := List.replicate desired none, phNext := none } with hs2
  have hrb : s.reallocBuckets desired =
      HTState.rehashLoop s2 (s.nodes.length + 1) s.phNext := by
    rw [HTState.reallocBuckets, if_neg hdne, if_neg hne]
  have hchR : ChainIs s2 s.phNext L := hch.congr (fun j hj => rfl)
  have hchM : ChainIs s2 s2.phNext [] := ChainIs.nil
  have hnd2 : (([] : List Nat) ++ L).Nodup := by simpa using hnd
  have ha2 : AnchorsOk s2 [] := by
    intro a hmem idn hid
    have hrep := List.eq_of_mem_replicate hmem
    subst hid
    exact absurd hrep (by simp)
  have hbl2 : s2.buckets.length = s2.numBuckets := by simp [hs2]
  have hbp2 : 0 < s2.numBuckets := hdpos
  have hfuel : L.length < s.nodes.length + 1 := by
    have := hchR.length_le hnd
    exact Nat.lt_succ_of_le (by simpa using this)
  obtain ⟨s', M', hloop, hch', hperm, hndM', haM', hent, hnb, hni, hbl', hnl⟩ :=
    rehashLoop_spec L (s.nodes.length + 1) s2 s.phNext [] hchR hchM hnd2 ha2 hbl2 hbp2 hfuel
  have hperm2 : List.Perm M' L := by simpa using hperm
  have hentS : ∀ j, entry s' j = entry s j := fun j => hent j
  refine ⟨s', M', by rw [hrb]; exact hloop, hch', hperm2, ?_, hentS, ?_, ?_, ?_⟩
  · have hmapeq : M'.map (entry s') = M'.map (entry s) :=
      List.map_congr_left (fun j _ => hentS j)
    rw [hmapeq]
    exact hperm2.map (entry s)
  · simpa using hnl
  · simpa using hni
  · rw [hnb]

/-- Concrete state for the rehash witness: a 16-bucket table holding
one entry (value 7, hash key 5), exactly as one insertion builds it. -/
def rehashWitState : HTState ℤ :=
  { nodes := [(0, ⟨7, 5, none⟩)], phNext := some 0,
    buckets := (List.replicate 16 (none : Option BAnchor)).set 5 (some .ph),
    numBuckets := 16, numItems := 1, nextId := 1 }

/-- Witness for `rehash_relinks_in_place`: rehashing the one-entry
table to 32 buckets. -/
theorem rehash_relinks_in_place_witness :
    ∃ s' L', rehashWitState.reallocBuckets 32 = some s' ∧
      ChainIs s' s'.phNext L' ∧ List.Perm L' [0] ∧
      List.Perm (L'.map (entry s')) ([0].map (entry rehashWitState)) ∧
      (∀ id, entry s' id = entry rehashWitState id) ∧
      s'.nodes.length = rehashWitState.nodes.length ∧
      s'.numItems = rehashWitState.numItems ∧ s'.numBuckets = 32 :=
  rehash_relinks_in_place
    (ChainIs.cons (n := ⟨7, 5, none⟩) rfl ChainIs.nil)
    (by decide)
    (fun a hmem idn hid => by
      subst hid
      rcases List.mem_or_eq_of_mem_set hmem with h | h
      · exact absurd (List.eq_of_mem_replicate h) (by simp)
      · exact absurd h (by simp))
    (by decide)
    (by decide)
    (by decide)

/-- A hash policy under which the distinct keys 0 and 1 collide (any
policy instantiation is admissible for `HashTable`'s template
parameter; the claim quantifies over every hash table). -/
def collHash : ℤ → Nat := fun _ => 5

/-- Construct a table, insert key 0, then insert key 1. -/
def collRun : Option (HTState ℤ × Nat) := do
  let s0 ← (HTState.construct : Option (HTState ℤ))
  let (s1, _) ← HTState.findOrEmplace collHash s0 0
  HTState.findOrEmplace collHash s1 1

/-- **C2 (code bug).** After inserting the distinct keys 0 and 1 whose
computed hash keys collide, `find(1)` is not `end()` but dereferences
to the *stored value 0*, not 1 — and `numItems` is 1 because the second
insertion was treated as a duplicate: `locateNode` matches on
`it->hkey == hkey` only (its key parameter is `[[maybe_unused]]`),
although `findOrEmplace`'s own documentation defines duplicates as
"same hash key *and* compare equal".  The claim's round trip fails for
colliding keys. -/
theorem hash_collision_roundtrip_bug :
    (collRun.map fun p =>
        ((HTState.find collHash p.1 1).map fun r =>
          r.map fun id => (HTState.lookup p.1 id).map (·.value))) =
      some (some (some (some (0 : ℤ)))) ∧
    (collRun.map fun p => p.1.numItems) = some 1 := by
  constructor
  · decide
  · decide

/-! ### Tree search: `bisectLeft` / `bisectRight` / `lowerBound` / `upperBound` (tree_node.h)

`TreeNode` trees are threaded binary trees: every node carries `next` and
`prev` pointers along the in-order chain.  We model the tree shape as an
inductive binary tree of (distinct) node values, a node pointer as an
`Option` value, and the threading as the in-order successor/predecessor in
the in-order list, which the search functions receive as the `next`/`prev`
maps.  A branching policy is an integer-valued function on nodes; at every
call site in tree.h it is `policy(node) = PolicyT{}(key, node->value)`. -/

inductive BTree (α : Type) where
  | nil
  | node (l : BTree α) (v : α) (r : BTree α)
deriving DecidableEq

/-- The in-order node list of a tree: the order in which the `next`
chain of a correctly threaded tree visits the nodes. -/
def inorder {α : Type} : BTree α → List α
  | .nil => []
  | .node l v r => inorder l ++ v :: inorder r

/-- What the `next` pointer of the node holding `v` dereferences to in a
chain listed as `xs`: the element right after the first occurrence of
`v` (`none` = null, for the last node). -/
def succIn {α : Type} [DecidableEq α] : List α → α → Option α
  | [], _ => none
  | x :: rest, v => if x = v then rest.head? else succIn rest v

/-- The `prev` pointer: the element right before `v` in the chain. -/
def predIn {α : Type} [DecidableEq α] (xs : List α) (v : α) : Option α :=
  succIn xs.reverse v

/-- `TreeNode::bisectLeft(root, policy)` (tree_node.h): descend from
`root`, going left when `policy(root) <= 0` ("if equal go left") and
right otherwise, returning the last visited node (the `parent`
accumulator; null if the subtree is empty). -/
def bisectLeft {α : Type} (policy : α → Int) : BTree α → Option α → Option α
  | .nil, parent => parent
  | .node l v r, _ =>
      if policy v ≤ 0 then bisectLeft policy l (some v)
      else bisectLeft policy r (some v)

/-- `TreeNode::bisectRight(root, policy)`: same descent, but goes left
only when `policy(root) < 0` ("if equal go right"). -/
def bisectRight {α : Type} (policy : α → Int) : BTree α → Option α → Option α
  | .nil, parent => parent
  | .node l v r, _ =>
      if policy v < 0 then bisectRight policy l (some v)
      else bisectRight policy r (some v)

/-- `TreeNode::lowerBound(root, policy)`: `lb = bisectLeft(root, policy);
if (policy(lb) > 0) lb = lb->next; return lb`.  The code applies the
policy to `lb` with no null check, and every policy dereferences its
node argument, so a null `lb` (empty tree) is a null dereference inside
the policy — modeled as the outer `none`.  `next` is the threaded `next`
pointer map. -/
def lowerBound {α : Type} (policy : α → Int) (root : BTree α) (next : α → Option α) :
    Option (Option α) :=
  match bisectLeft policy root none with
  | none => none
  | some lb => some (if 0 < policy lb then next lb else some lb)

/-- `TreeNode::upperBound(root, policy)`: `ub = bisectRight(root, policy);
if (policy(ub) < 0) ub = ub->prev; return ub`, with the same unguarded
policy application to a possibly null `ub`. -/
def upperBound {α : Type} (policy : α → Int) (root : BTree α) (prev : α → Option α) :
    Option (Option α) :=
  match bisectRight policy root none with
  | none => none
  | some ub => some (if policy ub < 0 then prev ub else some ub)

/-- The node pointers the policy is applied to during `bisectLeft` (one
application per loop iteration, always at the current non-null root). -/
def bisectLeftApps {α : Type} (policy : α → Int) : BTree α → List (Option α)
  | .nil => []
  | .node l v r =>
      some v :: (if policy v ≤ 0 then bisectLeftApps policy l else bisectLeftApps policy r)

/-- The node pointers the policy is applied to during `bisectRight`. -/
def bisectRightApps {α : Type} (policy : α → Int) : BTree α → List (Option α)
  | .nil => []
  | .node l v r =>
      some v :: (if policy v < 0 then bisectRightApps policy l else bisectRightApps policy r)

/-- All node pointers the policy is applied to during
`lowerBound(root, policy)`: the bisect applications, then the final
unguarded application to the bisect result. -/
def lowerBoundApps {α : Type} (policy : α → Int) (root : BTree α) : List (Option α) :=
  bisectLeftApps policy root ++ [bisectLeft policy root none]

/-- All node pointers the policy is applied to during `upperBound`. -/
def upperBoundApps {α : Type} (policy : α → Int) (root : BTree α) : List (Option α) :=
  bisectRightApps policy root ++ [bisectRight policy root none]

/-- `GreaterThan::operator()` (templates/ordering.h): the three-way
comparison `(x > y) - (x < y)` that `Tree`/`Set` instantiate as
`PolicyT`; tree policies are `GreaterThan{}(key, node->value)`. -/
def GreaterThan (x y : Int) : Int := (if y < x then 1 else 0) - (if x < y then 1 else 0)

/-- An element reachable through `succIn` is an element of the chain. -/
theorem succIn_mem {α : Type} [DecidableEq α] {v w : α} :
    ∀ {xs : List α}, succIn xs v = some w → w ∈ xs := by
  intro xs
  induction xs with
  | nil => intro h; exact Option.noConfusion h
  | cons x rest ih =>
      intro h
      rw [succIn] at h
      by_cases hx : x = v
      · rw [if_pos hx] at h
        cases rest with
        | nil => exact Option.noConfusion h
        | cons y t =>
            rw [List.head?_cons] at h
            injection h with h
            exact h ▸ List.mem_cons_of_mem _ (List.mem_cons_self y t)
      · rw [if_neg hx] at h
        exact List.mem_cons_of_mem _ (ih h)

/-- `succIn` at the marked occurrence of a chain split. -/
theorem succIn_append {α : Type} [DecidableEq α] {v : α} :
    ∀ {ys zs : List α}, v ∉ ys → succIn (ys ++ v :: zs) v = zs.head? := by
  intro ys
  induction ys with
  | nil => intro zs _; rw [List.nil_append, succIn, if_pos rfl]
  | cons y t ih =>
      intro zs hv
      have hyv : ¬ (y = v) := fun h => hv (by rw [h]; exact List.mem_cons_self v t)
      have hvt : v ∉ t := fun h => hv (List.mem_cons_of_mem _ h)
      rw [List.cons_append, succIn, if_neg hyv]
      exact ih hvt

/-- `find?` skips a prefix on which the predicate is false. -/
theorem find?_append_false {α : Type} {p : α → Bool} :
    ∀ {ys zs : List α}, (∀ a ∈ ys, p a = false) → (ys ++ zs).find? p = zs.find? p := by
  intro ys
  induction ys with
  | nil => intro zs _; rw [List.nil_append]
  | cons y t ih =>
      intro zs h
      have hy : ¬ (p y = true) := by simp [h y (List.mem_cons_self y t)]
      rw [List.cons_append, List.find?_cons_of_neg _ hy]
      exact ih fun a ha => h a (List.mem_cons_of_mem _ ha)

/-- On a list where the predicate holds everywhere, `find?` is `head?`. -/
theorem find?_eq_head?_true {α : Type} {p : α → Bool} :
    ∀ {zs : List α}, (∀ a ∈ zs, p a = true) → zs.find? p = zs.head? := by
  intro zs h
  cases zs with
  | nil => rfl
  | cons z t =>
      rw [List.find?_cons_of_pos _ (h z (List.mem_cons_self z t)), List.head?_cons]

/-- On a non-empty subtree, `bisectLeft` returns a node of the subtree
(whatever the initial `parent` accumulator is). -/
theorem bisectLeft_mem {α : Type} (policy : α → Int) :
    ∀ (t : BTree α), t ≠ BTree.nil →
      ∀ p : Option α, ∃ v, bisectLeft policy t p = some v ∧ v ∈ inorder t := by
  intro t
  induction t with
  | nil => intro h; exact absurd rfl h
  | node l v r ihl ihr =>
      intro _ p
      rw [bisectLeft]
      by_cases hv : policy v ≤ 0
      · rw [if_pos hv]
        by_cases hl : l = BTree.nil
        · subst hl
          exact ⟨v, rfl, List.mem_append.mpr (Or.inr (List.mem_cons_self v _))⟩
        · obtain ⟨w, hw, hmem⟩ := ihl hl (some v)
          exact ⟨w, hw, List.mem_append.mpr (Or.inl hmem)⟩
      · rw [if_neg hv]
        by_cases hr : r = BTree.nil
        · subst hr
          exact ⟨v, rfl, List.mem_append.mpr (Or.inr (List.mem_cons_self v _))⟩
        · obtain ⟨w, hw, hmem⟩ := ihr hr (some v)
          exact ⟨w, hw, List.mem_append.mpr (Or.inr (List.mem_cons_of_mem _ hmem))⟩

/-- On a non-empty subtree, `bisectRight` returns a node of the subtree. -/
theorem bisectRight_mem {α : Type} (policy : α → Int) :
    ∀ (t : BTree α), t ≠ BTree.nil →
      ∀ p : Option α, ∃ v, bisectRight policy t p = some v ∧ v ∈ inorder t := by
  intro t
  induction t with
  | nil => intro h; exact absurd rfl h
  | node l v r ihl ihr =>
      intro _ p
      rw [bisectRight]
      by_cases hv : policy v < 0
      · rw [if_pos hv]
        by_cases hl : l = BTree.nil
        · subst hl
          exact ⟨v, rfl, List.mem_append.mpr (Or.inr (List.mem_cons_self v _))⟩
        · obtain ⟨w, hw, hmem⟩ := ihl hl (some v)
          exact ⟨w, hw, List.mem_append.mpr (Or.inl hmem)⟩
      · rw [if_neg hv]
        by_cases hr : r = BTree.nil
        · subst hr
          exact ⟨v, rfl, List.mem_append.mpr (Or.inr (List.mem_cons_self v _))⟩
        · obtain ⟨w, hw, hmem⟩ := ihr hr (some v)
          exact ⟨w, hw, List.mem_append.mpr (Or.inr (List.mem_cons_of_mem _ hmem))⟩

/-- Every policy application inside the `bisectLeft` loop is at a
non-null node (the loop guard is `while (root)`). -/
theorem bisectLeftApps_some {α : Type} (policy : α → Int) :
    ∀ t : BTree α, (none : Option α) ∉ bisectLeftApps policy t := by
  intro t
  induction t with
  | nil => intro h; exact absurd h (List.not_mem_nil none)
  | node l v r ihl ihr =>
      rw [bisectLeftApps]
      intro hmem
      rcases List.mem_cons.mp hmem with h | h
      · exact Option.noConfusion h
      · by_cases hv : policy v ≤ 0
        · rw [if_pos hv] at h; exact ihl h
        · rw [if_neg hv] at h; exact ihr h

/-- Every policy application inside the `bisectRight` loop is at a
non-null node. -/
theorem bisectRightApps_some {α : Type} (policy : α → Int) :
    ∀ t : BTree α, (none : Option α) ∉ bisectRightApps policy t := by
  intro t
  induction t with
  | nil => intro h; exact absurd h (List.not_mem_nil none)
  | node l v r ihl ihr =>
      rw [bisectRightApps]
      intro hmem
      rcases List.mem_cons.mp hmem with h | h
      · exact Option.noConfusion h
      · by_cases hv : policy v < 0
        · rw [if_pos hv] at h; exact ihl h
        · rw [if_neg hv] at h; exact ihr h

/-- The descent invariant of `bisectLeft` under a policy that is
antitone along the in-order walk (as every `cmp(key, node->value)`
policy on a search tree is): in a surrounding chain context
`pre ++ inorder t ++ post` where every node of `pre` compares strictly
greater than the key (policy `> 0`) and every node of `post` compares
less-or-equal (policy `≤ 0`), the last visited node `w` splits the full
chain so that everything before `w` has policy `> 0`, and — whenever
`w` itself has policy `> 0` — everything after `w` has policy `≤ 0`. -/
theorem bisectLeft_split {α : Type} (policy : α → Int) :
    ∀ (t : BTree α) (p : Option α) (pre post : List α), t ≠ BTree.nil →
      ((inorder t).Pairwise fun a b => policy b ≤ policy a) →
      (∀ a ∈ pre, 0 < policy a) → (∀ a ∈ post, policy a ≤ 0) →
      ∃ w ys zs, bisectLeft policy t p = some w ∧
        pre ++ inorder t ++ post = ys ++ w :: zs ∧
        (∀ a ∈ ys, 0 < policy a) ∧
        (0 < policy w → ∀ a ∈ zs, policy a ≤ 0) := by
  intro t
  induction t with
  | nil => intro p pre post h; exact absurd rfl h
  | node l v r ihl ihr =>
      intro p pre post _ hpw hpre hpost
      have hio : inorder (BTree.node l v r) = inorder l ++ v :: inorder r := rfl
      rw [hio] at hpw
      obtain ⟨hpwl, hpwvr, hlr⟩ := List.pairwise_append.mp hpw
      have hpwr : (inorder r).Pairwise fun a b => policy b ≤ policy a :=
        (List.pairwise_cons.mp hpwvr).2
      have hvr : ∀ a ∈ inorder r, policy a ≤ policy v :=
        (List.pairwise_cons.mp hpwvr).1
      have hlv : ∀ a ∈ inorder l, policy v ≤ policy a :=
        fun a ha => hlr a ha v (List.mem_cons_self v _)
      rw [bisectLeft]
      by_cases hv : policy v ≤ 0
      · rw [if_pos hv]
        have hpost' : ∀ a ∈ v :: (inorder r ++ post), policy a ≤ 0 := by
          intro a ha
          rcases List.mem_cons.mp ha with h | h
          · exact h ▸ hv
          · rcases List.mem_append.mp h with h | h
            · exact le_trans (hvr a h) hv
            · exact hpost a h
        by_cases hl : l = BTree.nil
        · subst hl
          refine ⟨v, pre, inorder r ++ post, rfl, ?_, hpre, ?_⟩
          · rw [hio]
            simp [inorder, List.append_assoc]
          · intro h0
            exact absurd h0 (not_lt.mpr hv)
        · obtain ⟨w, ys, zs, hw, heq, hys, hzs⟩ :=
            ihl (some v) pre (v :: (inorder r ++ post)) hl hpwl hpre hpost'
          refine ⟨w, ys, zs, hw, ?_, hys, hzs⟩
          rw [hio, ← heq]
          simp [inorder, List.append_assoc]
      · rw [if_neg hv]
        have h0v : 0 < policy v := not_le.mp hv
        have hpre' : ∀ a ∈ (pre ++ inorder l) ++ [v], 0 < policy a := by
          intro a ha
          rcases List.mem_append.mp ha with h | h
          · rcases List.mem_append.mp h with h | h
            · exact hpre a h
            · exact lt_of_lt_of_le h0v (hlv a h)
          · rcases List.mem_cons.mp h with h | h
            · exact h ▸ h0v
            · exact absurd h (List.not_mem_nil a)
        by_cases hr : r = BTree.nil
        · subst hr
          refine ⟨v, pre ++ inorder l, post, rfl, ?_, ?_, fun _ => hpost⟩
          · rw [hio]
            simp [inorder, List.append_assoc]
          · intro a ha
            exact hpre' a (List.mem_append.mpr (Or.inl ha))
        · obtain ⟨w, ys, zs, hw, heq, hys, hzs⟩ :=
            ihr (some v) ((pre ++ inorder l) ++ [v]) post hr hpwr hpre' hpost
          refine ⟨w, ys, zs, hw, ?_, hys, hzs⟩
          rw [hio, ← heq]
          simp [inorder, List.append_assoc]

/-- **C8 (corrected).** For a non-empty threaded search tree (distinct
nodes, `next` = in-order successor) and a branching policy that is
antitone along the in-order walk, `lowerBound(root, policy)` is total
(no null dereference) and returns the *first in-order node whose policy
value is ≤ 0* — not `≥ 0` as claimed: policies are
`cmp(key, node->value)`, which *decreases* along the walk, so the nodes
with policy `≥ 0` form a prefix, not a suffix, of the chain.  The
claim's decomposition clause is code-accurate and is proved alongside:
the result equals `bisectLeft(root, policy)->next` when the bisect node
compares strictly less (policy `> 0`), and the bisect node itself
otherwise. -/
theorem lowerBound_first_nonpos {α : Type} [DecidableEq α] (policy : α → Int)
    (root : BTree α) (hne : root ≠ BTree.nil) (hnd : (inorder root).Nodup)
    (hanti : (inorder root).Pairwise fun a b => policy b ≤ policy a) :
    lowerBound policy root (succIn (inorder root)) =
      some ((inorder root).find? fun v => decide (policy v ≤ 0)) ∧
    ∃ lb, bisectLeft policy root none = some lb ∧
      lowerBound policy root (succIn (inorder root)) =
        some (if 0 < policy lb then succIn (inorder root) lb else some lb) := by
  obtain ⟨w, ys, zs, hw, heq, hys, hzs⟩ :=
    bisectLeft_split policy root none [] [] hne hanti
      (fun a ha => absurd ha (List.not_mem_nil a))
      (fun a ha => absurd ha (List.not_mem_nil a))
  have heq' : inorder root = ys ++ w :: zs := by
    rw [← heq]
    simp
  have hysf : ∀ a ∈ ys, (decide (policy a ≤ 0)) = false :=
    fun a ha => decide_eq_false (not_le.mpr (hys a ha))
  refine ⟨?_, w, hw, by rw [lowerBound, hw]⟩
  rw [lowerBound, hw]
  show some (if 0 < policy w then succIn (inorder root) w else some w) =
    some ((inorder root).find? fun v => decide (policy v ≤ 0))
  by_cases h0 : 0 < policy w
  · have hzs0 : ∀ a ∈ zs, policy a ≤ 0 := hzs h0
    have hwys : w ∉ ys := by
      intro hmem
      have hnd' := heq' ▸ hnd
      exact (List.nodup_append.mp hnd').2.2 hmem (List.mem_cons_self w zs)
    have hsucc : succIn (inorder root) w = zs.head? := by
      rw [heq']
      exact succIn_append hwys
    have hwf : ¬ ((decide (policy w ≤ 0)) = true) := by
      simp [not_le.mpr h0]
    have hfind : (inorder root).find? (fun v => decide (policy v ≤ 0)) = zs.head? := by
      rw [heq', find?_append_false hysf]
      have hskip : List.find? (fun v => decide (policy v ≤ 0)) (w :: zs) =
          List.find? (fun v => decide (policy v ≤ 0)) zs :=
        List.find?_cons_of_neg zs hwf
      rw [hskip]
      exact find?_eq_head?_true fun a ha => decide_eq_true (hzs0 a ha)
    rw [if_pos h0, hsucc, hfind]
  · have hfind : (inorder root).find? (fun v => decide (policy v ≤ 0)) = some w := by
      rw [heq', find?_append_false hysf]
      exact List.find?_cons_of_pos zs (decide_eq_true (not_lt.mp h0))
    rw [if_neg h0, hfind]

/-- Witness for `lowerBound_first_nonpos`: the two-node tree holding 1
and 2, searched with the key-2 policy `GreaterThan 2`. -/
theorem lowerBound_first_nonpos_witness :
    lowerBound (GreaterThan 2) (BTree.node BTree.nil 1 (BTree.node BTree.nil 2 BTree.nil))
        (succIn (inorder (BTree.node BTree.nil 1 (BTree.node BTree.nil 2 BTree.nil)))) =
      some ((inorder (BTree.node BTree.nil 1 (BTree.node BTree.nil 2 BTree.nil))).find?
        fun v => decide (GreaterThan 2 v ≤ 0)) ∧
    ∃ lb, bisectLeft (GreaterThan 2)
        (BTree.node BTree.nil 1 (BTree.node BTree.nil 2 BTree.nil)) none = some lb ∧
      lowerBound (GreaterThan 2) (BTree.node BTree.nil 1 (BTree.node BTree.nil 2 BTree.nil))
          (succIn (inorder (BTree.node BTree.nil 1 (BTree.node BTree.nil 2 BTree.nil)))) =
        some (if 0 < GreaterThan 2 lb
          then succIn (inorder (BTree.node BTree.nil 1 (BTree.node BTree.nil 2 BTree.nil))) lb
          else some lb) :=
  lowerBound_first_nonpos (GreaterThan 2)
    (BTree.node BTree.nil 1 (BTree.node BTree.nil 2 BTree.nil))
    (by decide) (by decide) (by decide)

/-- **C8 counterexample.** The claim's characterization — lowerBound
returns the first in-order node whose policy value is *`≥ 0`* — fails
on the threaded search tree holding 1 and 2 under the key-2 policy
`GreaterThan 2` (antitone in-order, nodes distinct): the code returns
the node 2 (the first with policy `≤ 0`), while the first node with
policy `≥ 0` is the node 1 (`GreaterThan 2 1 = 1`). -/
theorem lowerBound_geq_claim_false :
    ¬ (∀ (policy : Int → Int) (root : BTree Int), root ≠ BTree.nil →
        (inorder root).Nodup →
        ((inorder root).Pairwise fun a b => policy b ≤ policy a) →
        lowerBound policy root (succIn (inorder root)) =
          some ((inorder root).find? fun v => decide (0 ≤ policy v))) := by
  intro h
  have hc := h (GreaterThan 2) (BTree.node BTree.nil 1 (BTree.node BTree.nil 2 BTree.nil))
    (by decide) (by decide) (by decide)
  exact absurd hc (by decide)

/-- An element reachable through `predIn` is an element of the chain. -/
theorem predIn_mem {α : Type} [DecidableEq α] {xs : List α} {v w : α}
    (h : predIn xs v = some w) : w ∈ xs :=
  List.mem_reverse.mp (succIn_mem h)

/-- **C9 (corrected).** `lowerBound`/`upperBound` apply the policy to
the `bisectLeft`/`bisectRight` result with no null check, so they
presuppose a non-empty tree.  On a non-null root the policy is indeed
never applied to a null node, and — *correcting the claim* — the result
is a node of the tree **or null** (e.g. `lb->next` past the last node
when every node compares less; `Tree::begin(key)` relies on this to
return `end()`).  On a null root the final unguarded application *is*
to a null node — a null dereference inside the policy — so
`Tree::begin(key)`/`Tree::end(key)` must not be called on an empty
tree. -/
theorem bound_null_safety {α : Type} [DecidableEq α] (policy : α → Int) (root : BTree α) :
    (root ≠ BTree.nil →
      ((none : Option α) ∉ lowerBoundApps policy root ∧
       (none : Option α) ∉ upperBoundApps policy root) ∧
      (∃ r, lowerBound policy root (succIn (inorder root)) = some r ∧
        (r = none ∨ ∃ w, r = some w ∧ w ∈ inorder root)) ∧
      (∃ r, upperBound policy root (predIn (inorder root)) = some r ∧
        (r = none ∨ ∃ w, r = some w ∧ w ∈ inorder root))) ∧
    (root = BTree.nil →
      (none : Option α) ∈ lowerBoundApps policy root ∧
      (none : Option α) ∈ upperBoundApps policy root) := by
  constructor
  · intro hne
    obtain ⟨v, hv, hvm⟩ := bisectLeft_mem policy root hne none
    obtain ⟨u, hu, hum⟩ := bisectRight_mem policy root hne none
    refine ⟨⟨?_, ?_⟩, ?_, ?_⟩
    · intro hmem
      rcases List.mem_append.mp hmem with h | h
      · exact bisectLeftApps_some policy root h
      · exact Option.noConfusion ((List.mem_singleton.mp h).trans hv)
    · intro hmem
      rcases List.mem_append.mp hmem with h | h
      · exact bisectRightApps_some policy root h
      · exact Option.noConfusion ((List.mem_singleton.mp h).trans hu)
    · refine ⟨if 0 < policy v then succIn (inorder root) v else some v,
        by rw [lowerBound, hv], ?_⟩
      by_cases h0 : 0 < policy v
      · rw [if_pos h0]
        cases hs : succIn (inorder root) v with
        | none => exact Or.inl rfl
        | some w => exact Or.inr ⟨w, rfl, succIn_mem hs⟩
      · rw [if_neg h0]
        exact Or.inr ⟨v, rfl, hvm⟩
    · refine ⟨if policy u < 0 then predIn (inorder root) u else some u,
        by rw [upperBound, hu], ?_⟩
      by_cases h0 : policy u < 0
      · rw [if_pos h0]
        cases hs : predIn (inorder root) u with
        | none => exact Or.inl rfl
        | some w => exact Or.inr ⟨w, rfl, predIn_mem hs⟩
      · rw [if_neg h0]
        exact Or.inr ⟨u, rfl, hum⟩
  · intro hnil
    subst hnil
    constructor
    · exact List.mem_append.mpr (Or.inr (List.mem_singleton.mpr rfl))
    · exact List.mem_append.mpr (Or.inr (List.mem_singleton.mpr rfl))

/-- Witness for `bound_null_safety`: the singleton tree holding 1 under
the key-2 policy (non-null root: no null application, result null or a
node), and the empty tree (the policy is applied to null). -/
theorem bound_null_safety_witness :
    ((((none : Option Int) ∉ lowerBoundApps (GreaterThan 2) (BTree.node BTree.nil 1 BTree.nil) ∧
       (none : Option Int) ∉ upperBoundApps (GreaterThan 2) (BTree.node BTree.nil 1 BTree.nil)) ∧
      (∃ r, lowerBound (GreaterThan 2) (BTree.node BTree.nil 1 BTree.nil)
          (succIn (inorder (BTree.node BTree.nil 1 BTree.nil))) = some r ∧
        (r = none ∨ ∃ w, r = some w ∧ w ∈ inorder (BTree.node BTree.nil 1 BTree.nil))) ∧
      (∃ r, upperBound (GreaterThan 2) (BTree.node BTree.nil 1 BTree.nil)
          (predIn (inorder (BTree.node BTree.nil 1 BTree.nil))) = some r ∧
        (r = none ∨ ∃ w, r = some w ∧ w ∈ inorder (BTree.node BTree.nil 1 BTree.nil))))) ∧
    ((none : Option Int) ∈ lowerBoundApps (GreaterThan 2) BTree.nil ∧
     (none : Option Int) ∈ upperBoundApps (GreaterThan 2) BTree.nil) :=
  ⟨(bound_null_safety (GreaterThan 2) (BTree.node BTree.nil 1 BTree.nil)).1 (by decide),
   (bound_null_safety (GreaterThan 2) BTree.nil).2 rfl⟩

/-- **C9 counterexample.** The claim says that on a non-null root the
result of `lowerBound` is a node of the tree; but on the singleton tree
holding 1 with the key-2 policy, `bisectLeft` lands on the node 1 which
compares strictly less, so `lowerBound` returns `lb->next` — the null
pointer past the last node — which is no node of the tree. -/
theorem lowerBound_result_not_node :
    ¬ (∀ (policy : Int → Int) (root : BTree Int), root ≠ BTree.nil →
        ∀ r, lowerBound policy root (succIn (inorder root)) = some r →
          ∃ w, r = some w ∧ w ∈ inorder root) := by
  intro h
  obtain ⟨w, hw, _⟩ := h (GreaterThan 2) (BTree.node BTree.nil 1 BTree.nil) (by decide)
    none (by decide)
  exact Option.noConfusion hw

/-! ### Red-black tree containers: `TreeNode` / `Tree` / `Set` (tree_node.h, tree.h, set.h)

`BinaryNodeBase` nodes carry `parent`/`left`/`right` structure pointers,
`next`/`prev` chain pointers, a color, and the payload.  We split this
heap of nodes into:
  * the tree *structure* — an inductive tree `RBT` of colors and node
    ids (ids model node addresses); `parent` pointers become zipper
    paths (`Path`, the frames a walk to the root traverses);
  * per-id maps for the payload (`val`, i.e. `node->value`) and the
    chain (`nxt`/`prv`, i.e. `node->next`/`node->prev`);
  * a fresh-id counter modeling the allocator.
Payloads are `Int` and the branching policies are those of `Set<int>` /
`Tree<int, GreaterThan>`: `policy(node) = GreaterThan{}(key,
node->value)`. -/

namespace TreeNode

/-- `BinaryNodeColor` (tree_node.h). -/
inductive Color where
  | red
  | black
deriving DecidableEq

/-- Tree structure: colors, node ids, children.  A null pointer is
`nil`. -/
inductive RBT where
  | nil
  | node (c : Color) (l : RBT) (id : Nat) (r : RBT)
deriving DecidableEq

/-- `TreeNode::isRed` (tree_node.h): non-null and red (null is not
red). -/
def isRed : RBT → Bool
  | .node .red _ _ _ => true
  | _ => false

/-- `node->color = BinaryNodeColor::Black` (no-op on null, never
reached on null in the source). -/
def setBlack : RBT → RBT
  | .nil => .nil
  | .node _ l id r => .node .black l id r

/-- The color a pointer reads: null counts as black (`isBlack`). -/
def colorOf : RBT → Color
  | .nil => .black
  | .node c _ _ _ => c

/-- In-order list of node ids of a subtree. -/
def inorderIds : RBT → List Nat
  | .nil => []
  | .node _ l id r => inorderIds l ++ id :: inorderIds r

/-- The id at a node pointer (`none` for null). -/
def rootId : RBT → Option Nat
  | .nil => none
  | .node _ _ id _ => some id

/-- One parent frame of a zipper path: what a node's `parent` pointer
(plus the parent's other child and color) contributes.  `left c pid r`
means the focus is the *left* child of the node `pid` with color `c`
and right subtree `r`. -/
inductive PathStep where
  | left (c : Color) (pid : Nat) (r : RBT)
  | right (c : Color) (l : RBT) (pid : Nat)
deriving DecidableEq

/-- A parent-pointer walk up to the root, innermost frame first. -/
abbrev Path := List PathStep

def frameColor : PathStep → Color
  | .left c _ _ => c
  | .right c _ _ => c

def framePid : PathStep → Nat
  | .left _ pid _ => pid
  | .right _ _ pid => pid

/-- Rebuild the whole tree from a focus subtree and its path
(`TreeNode::getRoot`, the `while (node->parent)` walk). -/
def plug : RBT → Path → RBT
  | t, [] => t
  | t, .left c pid r :: p => plug (.node c t pid r) p
  | t, .right c l pid :: p => plug (.node c l pid t) p

/-- The ids that precede the focus in the in-order walk of the plugged
tree. -/
def before : Path → List Nat
  | [] => []
  | .left _ _ _ :: rest => before rest
  | .right _ l pid :: rest => before rest ++ (inorderIds l ++ [pid])

/-- The ids that follow the focus in the in-order walk of the plugged
tree. -/
def after : Path → List Nat
  | [] => []
  | .left _ pid r :: rest => (pid :: inorderIds r) ++ after rest
  | .right _ _ _ :: rest => after rest

/-- Pointer-map update (an assignment `x->next = v` / `x->prev = v`
keyed by the node id `k`). -/
def fupd (f : Nat → Option Nat) (k : Nat) (v : Option Nat) : Nat → Option Nat :=
  fun i => if i = k then v else f i

/-- Payload-map update. -/
def vupd (f : Nat → Int) (k : Nat) (v : Int) : Nat → Int :=
  fun i => if i = k then v else f i

/-- `Tree` container state (tree.h): root structure plus the per-node
payloads and chain pointers, and the allocator's fresh-id counter. -/
structure TreeSt where
  root : RBT
  val : Nat → Int
  nxt : Nat → Option Nat
  prv : Nat → Option Nat
  nextId : Nat

/-- An empty `Tree()` / `Set()`. -/
def TreeSt.empty : TreeSt :=
  { root := .nil, val := fun _ => 0, nxt := fun _ => none, prv := fun _ => none,
    nextId := 0 }

/-- Chain part of `Impl::insertLeft(parent, child)` (tree_node.h):
`prev = parent->prev; parent->prev = child; child->next = parent;
child->prev = prev; if (child->prev) child->prev->next = child`.
(The structural assignments `parent->left = child; child->parent =
parent` are the zipper plug at the caller.) -/
def insertLeft (parentId childId : Nat) (nxt prv : Nat → Option Nat) :
    (Nat → Option Nat) × (Nat → Option Nat) :=
  let prev := prv parentId
  let prv1 := fupd prv parentId (some childId)
  let nxt1 := fupd nxt childId (some parentId)
  let prv2 := fupd prv1 childId prev
  let nxt2 := match prev with
    | some pr => fupd nxt1 pr (some childId)
    | none => nxt1
  (nxt2, prv2)

/-- Chain part of `Impl::insertRight(parent, child)`:
`next = parent->next; parent->next = child; child->prev = parent;
child->next = next; if (child->next) child->next->prev = child`. -/
def insertRight (parentId childId : Nat) (nxt prv : Nat → Option Nat) :
    (Nat → Option Nat) × (Nat → Option Nat) :=
  let next := nxt parentId
  let nxt1 := fupd nxt parentId (some childId)
  let prv1 := fupd prv childId (some parentId)
  let nxt2 := fupd nxt1 childId next
  let prv2 := match next with
    | some nx => fupd prv1 nx (some childId)
    | none => prv1
  (nxt2, prv2)

/-- Chain part of `Impl::evictNode(node)` (tree_node.h), for the node
`id` with children `l`, `r` (at most one non-null):
if the left child replaces the node, `repl->next = node->next; if
(repl->next) repl->next->prev = repl`; mirrored for the right child;
for a leaf, unlink: `if (node->next) node->next->prev = node->prev; if
(node->prev) node->prev->next = node->next`.  (The structural
`parent->left/right = repl; repl->parent = parent` are the zipper plug
at the caller.) -/
def evictNode (id : Nat) (l r : RBT) (nxt prv : Nat → Option Nat) :
    (Nat → Option Nat) × (Nat → Option Nat) :=
  match rootId l with
  | some lid =>
      let nxt1 := fupd nxt lid (nxt id)
      match nxt id with
      | some m => (nxt1, fupd prv m (some lid))
      | none => (nxt1, prv)
  | none =>
      match rootId r with
      | some rid =>
          let prv1 := fupd prv rid (prv id)
          match prv id with
          | some m => (fupd nxt m (some rid), prv1)
          | none => (nxt, prv1)
      | none =>
          let prv1 := match nxt id with
            | some m => fupd prv m (prv id)
            | none => prv
          let nxt1 := match prv id with
            | some q => fupd nxt q (nxt id)
            | none => nxt
          (nxt1, prv1)

/-- `Impl::repair(node)` (tree_node.h), on the zipper of the repaired
node: recolor the root black at the top; do nothing under a black
parent; under a red parent read the grandparent (the source
dereferences `parent->parent` with no null check — `none` models that
impossible-on-valid-trees dereference) and either recolor down a red
uncle and recurse on the grandparent, or rotate (the four
left/right × outer/inner cases, `rotateLeft`/`rotateRight` transcribed
as subtree rebuilds) and recolor `parent` black / `grand` red. -/
def repair : RBT → Path → Option RBT
  | t, [] => some (setBlack t)
  | t, pf :: rest =>
      if frameColor pf = .black then some (plug t (pf :: rest))
      else
        match rest with
        | [] => none
        | gf :: rest' =>
            match pf, gf with
            | .left _ pid pr, .left _ gid uncle =>
                if isRed uncle then
                  repair (.node .red (.node .black t pid pr) gid (setBlack uncle)) rest'
                else
                  some (plug (.node .black t pid (.node .red pr gid uncle)) rest')
            | .right pc pl pid, .left _ gid uncle =>
                if isRed uncle then
                  repair (.node .red (.node .black pl pid t) gid (setBlack uncle)) rest'
                else
                  match t with
                  | .nil => none
                  | .node _ tl tid tr =>
                      some (plug
                        (.node .black (.node pc pl pid tl) tid (.node .red tr gid uncle))
                        rest')
            | .left pc pid pr, .right _ uncle gid =>
                if isRed uncle then
                  repair (.node .red (setBlack uncle) gid (.node .black t pid pr)) rest'
                else
                  match t with
                  | .nil => none
                  | .node _ tl tid tr =>
                      some (plug
                        (.node .black (.node .red uncle gid tl) tid (.node pc tr pid pr))
                        rest')
            | .right _ pl pid, .right _ uncle gid =>
                if isRed uncle then
                  repair (.node .red (setBlack uncle) gid (.node .black pl pid t)) rest'
                else
                  some (plug (.node .black (.node .red uncle gid pl) pid t) rest')

/-- `TreeNode::findOrBisect(root, policy, parent)` (tree_node.h) with
the policy `GreaterThan{}(k, node->value)`: either the id of the node
where the policy vanished, or the parent path at the null slot the
descent fell off. -/
def findOrBisect (k : Int) (val : Nat → Int) : RBT → Path → Sum Nat Path
  | .nil, p => .inr p
  | .node c l id r, p =>
      let cmp := GreaterThan k (val id)
      if cmp < 0 then findOrBisect k val l (.left c id r :: p)
      else if 0 < cmp then findOrBisect k val r (.right c l id :: p)
      else .inl id

/-- `TreeNode::bisectRight(root, policy)` as used by `TreeNode::insert`
(descend right on ties), returning the parent path at the reached null
slot. -/
def bisectRightZ (k : Int) (val : Nat → Int) : RBT → Path → Path
  | .nil, p => p
  | .node c l id r, p =>
      if GreaterThan k (val id) < 0 then bisectRightZ k val l (.left c id r :: p)
      else bisectRightZ k val r (.right c l id :: p)

/-- `TreeNode::find(root, policy)` with the key policy, returning the
found node and its parent path. -/
def find (k : Int) (val : Nat → Int) : RBT → Path → Option (RBT × Path)
  | .nil, _ => none
  | .node c l id r, p =>
      let cmp := GreaterThan k (val id)
      if cmp < 0 then find k val l (.left c id r :: p)
      else if 0 < cmp then find k val r (.right c l id :: p)
      else some (.node c l id r, p)

/-- The attach-and-repair tail shared by `TreeNode::insert`,
`TreeNode::insertUnique` and `TreeNode::findOrInsert`: graft the fresh
red node (C++ default member initializers: red, null children, null
chain pointers) at the null slot the descent reached, splice the chain
(`if (policy(parent) < 0) Impl::insertLeft(parent, node) else
Impl::insertRight(parent, node)`; no parent means the node becomes the
root), then `Impl::repair(node)`. -/
def attachAt (k : Int) (p : Path) (s : TreeSt) : Option TreeSt :=
  let id := s.nextId
  match repair (.node .red .nil id .nil) p with
  | none => none
  | some root' =>
      let np :=
        match p with
        | [] => (fupd s.nxt id none, fupd s.prv id none)
        | st :: _ =>
            if GreaterThan k (s.val (framePid st)) < 0 then
              insertLeft (framePid st) id s.nxt s.prv
            else
              insertRight (framePid st) id s.nxt s.prv
      some { root := root', val := vupd s.val id k, nxt := np.1, prv := np.2,
             nextId := s.nextId + 1 }

/-- `Tree::emplace`/`Tree::insert` (tree.h) → `TreeNode::insert`:
descend with `bisectRight` (duplicates allowed, ties go right) and
attach. -/
def insert (k : Int) (s : TreeSt) : Option TreeSt :=
  attachAt k (bisectRightZ k s.val s.root []) s

/-- `Tree::insertUnique` (tree.h) → `TreeNode::insertUnique`: on a
duplicate, overwrite the found node's value (`it->value =
move(node->value)`); otherwise attach. -/
def insertUnique (k : Int) (s : TreeSt) : Option TreeSt :=
  match findOrBisect k s.val s.root [] with
  | .inl id => some { s with val := vupd s.val id k }
  | .inr p => attachAt k p s

/-- `Set::insert` → `Tree::findOrEmplace` (tree.h) →
`TreeNode::findOrInsert`: on a duplicate the freshly created node is
destroyed and the tree is unchanged; otherwise attach. -/
def findOrInsert (k : Int) (s : TreeSt) : Option TreeSt :=
  match findOrBisect k s.val s.root [] with
  | .inl _ => some s
  | .inr p => attachAt k p s

/-- `TreeNode::getMin` on a zipper: descend left. -/
def getMinZ : RBT → Path → RBT × Path
  | .nil, p => (.nil, p)
  | .node c l id r, p =>
      match l with
      | .nil => (.node c .nil id r, p)
      | _ => getMinZ l (.left c id r :: p)

/-- Result of one `repairRemoved` iteration body past its first two
branches: exit the loop with a rebuilt parent subtree, continue one
level up (delete case 1, `node = parent`), or dereference a null
sibling (impossible on valid trees). -/
inductive DelFixRes where
  | done (sub : RBT)
  | up (sub : RBT)
  | fault

/-- The `parent->left == node` branch of the `Impl::repairRemoved` loop
body after the sibling is known black (tree_node.h): delete case 1
(both nephews black: recolor the sibling red and move up), else delete
case 5 (red left nephew: `rotateRight(sibling)` and recolor) followed
by delete case 6 (`rotateLeft(parent)`; `sibling->color =
parent->color; parent->color = Black; sibling->right->color = Black`),
transcribed as subtree rebuilds. -/
def delLeftFix (t : RBT) (pc : Color) (pid : Nat) (sib : RBT) : DelFixRes :=
  match sib with
  | .nil => .fault
  | .node _ sl sid sr =>
      if !(isRed sr) && !(isRed sl) then
        .up (.node pc t pid (.node .red sl sid sr))
      else if isRed sl then
        match sl with
        | .node _ sll slid slr =>
            .done (.node pc (.node .black t pid sll) slid (.node .black slr sid sr))
        | .nil => .fault
      else
        .done (.node pc (.node .black t pid sl) sid (setBlack sr))

/-- The mirrored `parent->right == node` branch of `Impl::repairRemoved`
(sibling is `parent->left`). -/
def delRightFix (t : RBT) (pc : Color) (pid : Nat) (sib : RBT) : DelFixRes :=
  match sib with
  | .nil => .fault
  | .node _ sl sid sr =>
      if !(isRed sl) && !(isRed sr) then
        .up (.node pc (.node .red sl sid sr) pid t)
      else if isRed sr then
        match sr with
        | .node _ srl srid srr =>
            .done (.node pc (.node .black sl sid srl) srid (.node .black srr pid t))
        | .nil => .fault
      else
        .done (.node pc (setBlack sl) sid (.node .black sr pid t))

/-- `Impl::repairRemoved(node, parent)` (tree_node.h) on the zipper of
the replacement node: the `do`-loop.  An empty path is a null parent
(`!node && !parent`: nothing; otherwise `node->color = Black`).  A red
replacement is recolored black (delete cases 2/4).  A red sibling is
first rotated away (delete case 3: `rotateLeft/rotateRight(parent)`,
parent red, sibling black) — after which the new sibling is black and
the same iteration continues in `delLeftFix`/`delRightFix`; a `case 1`
outcome there moves to the red pre-rotated parent, which the next
iteration immediately recolors black (inlined here as `setBlack`).
With a black sibling, a `case 1` outcome either continues the loop one
level up or, at the root, exits the loop (`while (parent =
node->parent)` fails) leaving the tree as rebuilt. -/
def repairRemoved : RBT → Path → Option RBT
  | t, [] =>
      match t with
      | .nil => some .nil
      | _ => some (setBlack t)
  | t, pf :: rest =>
      if isRed t then some (plug (setBlack t) (pf :: rest))
      else
        match pf with
        | .left pc pid sib =>
            match sib with
            | .node .red sl sid sr =>
                (match delLeftFix t .red pid sl with
                 | .done sub => some (plug sub (.left .black sid sr :: rest))
                 | .up sub => some (plug (setBlack sub) (.left .black sid sr :: rest))
                 | .fault => none)
            | _ =>
                (match delLeftFix t pc pid sib with
                 | .done sub => some (plug sub rest)
                 | .up sub =>
                     match rest with
                     | [] => some sub
                     | _ :: _ => repairRemoved sub rest
                 | .fault => none)
        | .right pc sib pid =>
            match sib with
            | .node .red sl sid sr =>
                (match delRightFix t .red pid sr with
                 | .done sub => some (plug sub (.right .black sl sid :: rest))
                 | .up sub => some (plug (setBlack sub) (.right .black sl sid :: rest))
                 | .fault => none)
            | _ =>
                (match delRightFix t pc pid sib with
                 | .done sub => some (plug sub rest)
                 | .up sub =>
                     match rest with
                     | [] => some sub
                     | _ :: _ => repairRemoved sub rest
                 | .fault => none)

/-- `Tree::remove(find(k))` (tree.h, set.h): locate the node with the
key, then `TreeNode::remove` — with two children, `swapNodes(node,
node->next)` swaps the payloads with the in-order successor (the min of
the right subtree) and that successor is evicted instead; evict
(`Impl::evictNode`: chain splice plus child promotion), and if the
evicted node was black, `Impl::repairRemoved`.  A missing key is a
no-op (at the container level removal takes an iterator to an existing
node). -/
def remove (k : Int) (s : TreeSt) : Option TreeSt :=
  match find k s.val s.root [] with
  | none => some s
  | some (.nil, _) => none
  | some (.node c l id r, p) =>
      match l, r with
      | .node lc ll lid lr, .node rc rl rid rr =>
          (match getMinZ (.node rc rl rid rr) (.right c (.node lc ll lid lr) id :: p) with
           | (.node mc .nil mid mr, mp) =>
               let val' := fun i => if i = id then s.val mid
                 else if i = mid then s.val id else s.val i
               let np := evictNode mid .nil mr s.nxt s.prv
               let root? := if isRed (.node mc .nil mid mr) then some (plug mr mp)
                 else repairRemoved mr mp
               (match root? with
                | none => none
                | some root' =>
                    some { root := root', val := val', nxt := np.1, prv := np.2,
                           nextId := s.nextId })
           | _ => none)
      | _, _ =>
          let repl := match l with | .nil => r | _ => l
          let np := evictNode id l r s.nxt s.prv
          let root? := if isRed (.node c l id r) then some (plug repl p)
            else repairRemoved repl p
          (match root? with
           | none => none
           | some root' =>
               some { root := root', val := s.val, nxt := np.1, prv := np.2,
                      nextId := s.nextId })

/-- The container operations the claims quantify over: `Tree::insert`
(duplicates allowed), `Tree::insertUnique`, `Set::insert`
(= `Tree::findOrEmplace`), and removal of a found key. -/
inductive TOp where
  | ins (k : Int)
  | insUnique (k : Int)
  | finsert (k : Int)
  | del (k : Int)

def stepOp : TOp → TreeSt → Option TreeSt
  | .ins k, s => insert k s
  | .insUnique k, s => insertUnique k s
  | .finsert k, s => findOrInsert k s
  | .del k, s => remove k s

def runOps : List TOp → TreeSt → Option TreeSt
  | [], s => some s
  | op :: ops, s =>
      match stepOp op s with
      | none => none
      | some s' => runOps ops s'

/-- `TreeNode::getMin(root)`: the id `Tree::begin()` points at. -/
def getMinId : RBT → Option Nat
  | .nil => none
  | .node _ l id _ =>
      match l with
      | .nil => some id
      | _ => getMinId l

/-- Follow `node->next` pointers from a starting node (iterator `++`);
the fuel only bounds the walk, which on a correctly threaded tree stops
at null by itself. -/
def chainFrom (nxt : Nat → Option Nat) : Nat → Option Nat → List Nat
  | _, none => []
  | 0, some _ => []
  | fuel + 1, some id => id :: chainFrom nxt fuel (nxt id)

/-- Iterating a `Set`/`Tree` from `begin()` to `end()`: start at the
leftmost node and follow the chain, reading the payloads. -/
def iterate (s : TreeSt) : List Int :=
  (chainFrom s.nxt (inorderIds s.root).length (getMinId s.root)).map s.val

/-- Uniform black height (the equal-black-count-per-path RB
invariant). -/
inductive Balanced : RBT → Nat → Prop where
  | nil : Balanced .nil 0
  | red {l r : RBT} {id n} : Balanced l n → Balanced r n →
      Balanced (.node .red l id r) n
  | black {l r : RBT} {id n} : Balanced l n → Balanced r n →
      Balanced (.node .black l id r) (n + 1)

/-- No red node has a red child. -/
inductive RedOk : RBT → Prop where
  | nil : RedOk .nil
  | node {c : Color} {l r : RBT} {id : Nat} : RedOk l → RedOk r →
      (c = .red → colorOf l = .black ∧ colorOf r = .black) →
      RedOk (.node c l id r)

/-- The other child hanging off a path frame. -/
def frameSib : PathStep → RBT
  | .left _ _ r => r
  | .right _ l _ => l

/-- The innermost frame (the focus's parent) is black, if any. -/
def headBlack : Path → Prop
  | [] => True
  | st :: _ => frameColor st = .black

/-- The outermost frame (the tree root) is black, if any. -/
def lastBlack : Path → Prop
  | [] => True
  | [st] => frameColor st = .black
  | _ :: rest => lastBlack rest

/-- Black frames on the path (the black height the path contributes). -/
def pathBlacks : Path → Nat
  | [] => 0
  | st :: rest => (if frameColor st = .black then 1 else 0) + pathBlacks rest

/-- What a valid red-black tree guarantees about the path to any node:
every frame's sibling is a well-colored subtree of the black height at
that level, and a red frame sits under a black frame with a
black-rooted sibling. -/
def PathInv : Path → Nat → Prop
  | [], _ => True
  | st :: rest, n =>
      RedOk (frameSib st) ∧ Balanced (frameSib st) n ∧
      (frameColor st = .red → headBlack rest ∧ colorOf (frameSib st) = .black) ∧
      PathInv rest (n + (if frameColor st = .black then 1 else 0))

theorem inorder_plug : ∀ (p : Path) (t : RBT),
    inorderIds (plug t p) = before p ++ inorderIds t ++ after p := by
  intro p
  induction p with
  | nil => intro t; simp [plug, before, after]
  | cons st rest ih =>
      intro t
      cases st with
      | left c pid r =>
          rw [plug, ih]
          simp [inorderIds, before, after, List.append_assoc]
      | right c l pid =>
          rw [plug, ih]
          simp [inorderIds, before, after, List.append_assoc]

theorem greaterThan_lt {x y : Int} : GreaterThan x y < 0 ↔ x < y := by
  unfold GreaterThan
  split <;> split <;> omega

theorem greaterThan_gt {x y : Int} : 0 < GreaterThan x y ↔ y < x := by
  unfold GreaterThan
  split <;> split <;> omega

theorem greaterThan_eq {x y : Int} :
    (¬ GreaterThan x y < 0 ∧ ¬ 0 < GreaterThan x y) ↔ x = y := by
  unfold GreaterThan
  split <;> split <;> omega

theorem plug_colorOf_lastBlack : ∀ (p : Path) (t : RBT), lastBlack p →
    (p = [] → colorOf t = .black) → colorOf (plug t p) = .black := by
  intro p
  induction p with
  | nil => intro t _ h; exact h rfl
  | cons st rest ih =>
      intro t hlb _
      cases rest with
      | nil =>
          cases st with
          | left c pid r => exact hlb
          | right c l pid => exact hlb
      | cons st2 rest2 =>
          cases st with
          | left c pid r => exact ih _ hlb (fun h => List.noConfusion h)
          | right c l pid => exact ih _ hlb (fun h => List.noConfusion h)

theorem lastBlack_of_plug : ∀ (p : Path) (t : RBT), colorOf (plug t p) = .black →
    lastBlack p ∧ (p = [] → colorOf t = .black) := by
  intro p
  induction p with
  | nil => intro t h; exact ⟨trivial, fun _ => h⟩
  | cons st rest ih =>
      intro t h
      cases st with
      | left c pid r =>
          obtain ⟨h1, h2⟩ := ih (.node c t pid r) h
          refine ⟨?_, fun hc => List.noConfusion hc⟩
          cases rest with
          | nil => exact h2 rfl
          | cons st2 rest2 => exact h1
      | right c l pid =>
          obtain ⟨h1, h2⟩ := ih (.node c l pid t) h
          refine ⟨?_, fun hc => List.noConfusion hc⟩
          cases rest with
          | nil => exact h2 rfl
          | cons st2 rest2 => exact h1

theorem plug_rb : ∀ (p : Path) (t : RBT) (n : Nat), PathInv p n → Balanced t n →
    RedOk t → (colorOf t = .red → headBlack p) →
    Balanced (plug t p) (n + pathBlacks p) ∧ RedOk (plug t p) := by
  intro p
  induction p with
  | nil =>
      intro t n _ hb hr _
      exact ⟨by simpa [pathBlacks] using hb, hr⟩
  | cons st rest ih =>
      intro t n hpi hb hr hred
      obtain ⟨hsr, hsb, hredc, hpi'⟩ := hpi
      have hct : frameColor st = .red → colorOf t = .black := by
        intro hc
        cases hcc : colorOf t with
        | black => rfl
        | red => exact absurd (hred hcc) (by simp [headBlack, hc])
      cases st with
      | left c pid r =>
          have hb' : Balanced (.node c t pid r)
              (n + (if frameColor (PathStep.left c pid r) = .black then 1 else 0)) := by
            cases c with
            | red => simpa [frameColor] using Balanced.red hb hsb
            | black => simpa [frameColor] using Balanced.black hb hsb
          have hr' : RedOk (.node c t pid r) :=
            RedOk.node hr hsr (fun hc => ⟨hct (by simpa [frameColor] using hc),
              (hredc (by simpa [frameColor] using hc)).2⟩)
          have hred' : colorOf (.node c t pid r) = .red → headBlack rest := by
            intro hc
            exact (hredc (by simpa [frameColor, colorOf] using hc)).1
          have := ih (.node c t pid r) _ hpi' hb' hr' hred'
          rw [plug]
          refine ⟨?_, this.2⟩
          have harith : n + (if frameColor (PathStep.left c pid r) = .black then 1 else 0) +
              pathBlacks rest = n + pathBlacks (PathStep.left c pid r :: rest) := by
            rw [pathBlacks]
            omega
          exact harith ▸ this.1
      | right c l pid =>
          have hb' : Balanced (.node c l pid t)
              (n + (if frameColor (PathStep.right c l pid) = .black then 1 else 0)) := by
            cases c with
            | red => simpa [frameColor] using Balanced.red hsb hb
            | black => simpa [frameColor] using Balanced.black hsb hb
          have hr' : RedOk (.node c l pid t) :=
            RedOk.node hsr hr (fun hc => ⟨(hredc (by simpa [frameColor] using hc)).2,
              hct (by simpa [frameColor] using hc)⟩)
          have hred' : colorOf (.node c l pid t) = .red → headBlack rest := by
            intro hc
            exact (hredc (by simpa [frameColor, colorOf] using hc)).1
          have := ih (.node c l pid t) _ hpi' hb' hr' hred'
          rw [plug]
          refine ⟨?_, this.2⟩
          have harith : n + (if frameColor (PathStep.right c l pid) = .black then 1 else 0) +
              pathBlacks rest = n + pathBlacks (PathStep.right c l pid :: rest) := by
            rw [pathBlacks]
            omega
          exact harith ▸ this.1

theorem plug_rb_inv : ∀ (p : Path) (t : RBT) (N : Nat),
    Balanced (plug t p) N → RedOk (plug t p) →
    ∃ n, Balanced t n ∧ RedOk t ∧ PathInv p n ∧
      (colorOf t = .red → headBlack p) ∧ N = n + pathBlacks p := by
  intro p
  induction p with
  | nil =>
      intro t N hb hr
      exact ⟨N, hb, hr, trivial, fun _ => trivial, by simp [pathBlacks]⟩
  | cons st rest ih =>
      intro t N hb0 hr0
      cases st with
      | left c pid r =>
          rw [plug] at hb0 hr0
          obtain ⟨n', hb', hr', hpi', hred', hN⟩ := ih (.node c t pid r) N hb0 hr0
          cases hr' with
          | node hrl hrr hcc =>
              cases hb' with
              | red hbl hbr =>
                  refine ⟨n', hbl, hrl, ⟨hrr, hbr, ?_, ?_⟩, ?_, ?_⟩
                  · intro _
                    exact ⟨hred' rfl, (hcc rfl).2⟩
                  · simpa [frameColor] using hpi'
                  · intro hct
                    have := (hcc rfl).1
                    rw [hct] at this
                    exact absurd this (by simp)
                  · rw [hN, pathBlacks]
                    simp [frameColor]
              | black hbl hbr =>
                  rename_i m
                  refine ⟨m, hbl, hrl, ⟨hrr, hbr, ?_, ?_⟩, ?_, ?_⟩
                  · intro hc
                    exact absurd hc (by simp [frameColor])
                  · simpa [frameColor] using hpi'
                  · intro _
                    simp [headBlack, frameColor]
                  · rw [hN, pathBlacks]
                    simp [frameColor]
                    omega
      | right c l pid =>
          rw [plug] at hb0 hr0
          obtain ⟨n', hb', hr', hpi', hred', hN⟩ := ih (.node c l pid t) N hb0 hr0
          cases hr' with
          | node hrl hrr hcc =>
              cases hb' with
              | red hbl hbr =>
                  refine ⟨n', hbr, hrr, ⟨hrl, hbl, ?_, ?_⟩, ?_, ?_⟩
                  · intro _
                    exact ⟨hred' rfl, (hcc rfl).1⟩
                  · simpa [frameColor] using hpi'
                  · intro hct
                    have := (hcc rfl).2
                    rw [hct] at this
                    exact absurd this (by simp)
                  · rw [hN, pathBlacks]
                    simp [frameColor]
              | black hbl hbr =>
                  rename_i m
                  refine ⟨m, hbr, hrr, ⟨hrl, hbl, ?_, ?_⟩, ?_, ?_⟩
                  · intro hc
                    exact absurd hc (by simp [frameColor])
                  · simpa [frameColor] using hpi'
                  · intro _
                    simp [headBlack, frameColor]
                  · rw [hN, pathBlacks]
                    simp [frameColor]
                    omega

theorem inorder_setBlack (t : RBT) : inorderIds (setBlack t) = inorderIds t := by
  cases t <;> rfl

theorem colorOf_setBlack (t : RBT) : colorOf (setBlack t) = .black := by
  cases t <;> rfl

theorem balanced_setBlack_red {t : RBT} {n : Nat} (hc : colorOf t = .red)
    (hb : Balanced t n) : Balanced (setBlack t) (n + 1) := by
  cases hb with
  | nil => exact absurd hc (by simp [colorOf])
  | red hl hr => exact Balanced.black hl hr
  | black hl hr => exact absurd hc (by simp [colorOf])

theorem redOk_setBlack {t : RBT} (h : RedOk t) : RedOk (setBlack t) := by
  cases h with
  | nil => exact RedOk.nil
  | node hl hr _ => exact RedOk.node hl hr (fun hc => by simp at hc)

theorem isRed_false_colorOf {t : RBT} (h : isRed t = false) : colorOf t = .black := by
  cases t with
  | nil => rfl
  | node c l id r => cases c with
      | red => simp [isRed] at h
      | black => rfl

theorem isRed_true_colorOf {t : RBT} (h : isRed t = true) : colorOf t = .red := by
  cases t with
  | nil => simp [isRed] at h
  | node c l id r => cases c with
      | red => rfl
      | black => simp [isRed] at h

theorem lastBlack_cons {st : PathStep} {rest : Path} (h : lastBlack (st :: rest)) :
    lastBlack rest := by
  cases rest with
  | nil => trivial
  | cons st2 rest2 => exact h

/-- `Impl::repair` success and correctness: starting from a red focus
that is itself well-colored, under the path facts a valid tree
provides, repair succeeds and returns a valid black-rooted tree holding
exactly the nodes of the plugged tree, in the same in-order. -/
theorem repair_ok : ∀ (L : Nat) (p : Path), p.length ≤ L → ∀ (t : RBT) (n : Nat),
    PathInv p n → Balanced t n → RedOk t → colorOf t = .red → lastBlack p →
    ∃ t', repair t p = some t' ∧ (∃ N, Balanced t' N) ∧ RedOk t' ∧
      colorOf t' = .black ∧ inorderIds t' = inorderIds (plug t p) := by
  intro L
  induction L with
  | zero =>
      intro p hlen t n _ hb hr hc _
      have hp : p = [] := List.length_eq_zero.mp (Nat.le_zero.mp hlen)
      subst hp
      exact ⟨setBlack t, rfl, ⟨n + 1, balanced_setBlack_red hc hb⟩, redOk_setBlack hr,
        colorOf_setBlack t, inorder_setBlack t⟩
  | succ L ih =>
      intro p hlen t n hpi hb hr hc hlb
      cases p with
      | nil =>
          exact ⟨setBlack t, rfl, ⟨n + 1, balanced_setBlack_red hc hb⟩, redOk_setBlack hr,
            colorOf_setBlack t, inorder_setBlack t⟩
      | cons pf rest =>
          cases pf with
          | left pc pid pr =>
              obtain ⟨hsr, hsb, hredc, hpi2⟩ := hpi
              cases pc with
              | black =>
                  have hpi0 : PathInv (PathStep.left Color.black pid pr :: rest) n :=
                    ⟨hsr, hsb, hredc, hpi2⟩
                  have hpr := plug_rb (PathStep.left Color.black pid pr :: rest) t n hpi0
                    hb hr (fun _ => rfl)
                  refine ⟨plug t (.left .black pid pr :: rest), ?_, ⟨_, hpr.1⟩, hpr.2,
                    ?_, rfl⟩
                  · rw [repair.eq_def]
                    simp [frameColor]
                  · exact plug_colorOf_lastBlack _ _ hlb (fun h => List.noConfusion h)
              | red =>
                  obtain ⟨hhb, hprb⟩ := hredc rfl
                  have hpi2' : PathInv rest n := by simpa [frameColor] using hpi2
                  cases rest with
                  | nil => simp [lastBlack, frameColor] at hlb
                  | cons gf rest' =>
                      have hlb3 : lastBlack rest' := lastBlack_cons (lastBlack_cons hlb)
                      have hlen3 : rest'.length ≤ L := by
                        simp [List.length_cons] at hlen
                        omega
                      cases gf with
                      | left gc gid uncle =>
                          have hgc : gc = .black := by
                            cases gc with
                            | black => rfl
                            | red => simp [headBlack, frameColor] at hhb
                          subst hgc
                          obtain ⟨hsru, hsbu, _, hpi3⟩ := hpi2'
                          have hpi3' : PathInv rest' (n + 1) := by
                            simpa [frameColor] using hpi3
                          cases hu : isRed uncle with
                          | true =>
                              have hb2 : Balanced
                                  (.node .red (.node .black t pid pr) gid (setBlack uncle))
                                  (n + 1) :=
                                Balanced.red (Balanced.black hb hsb)
                                  (balanced_setBlack_red (isRed_true_colorOf hu) hsbu)
                              have hr2 : RedOk
                                  (.node .red (.node .black t pid pr) gid (setBlack uncle)) :=
                                RedOk.node
                                  (RedOk.node hr hsr (fun h => by simp at h))
                                  (redOk_setBlack hsru)
                                  (fun _ => ⟨rfl, colorOf_setBlack uncle⟩)
                              obtain ⟨t', ht', hbal', hro', hcol', hio'⟩ :=
                                ih rest' hlen3 _ (n + 1) hpi3' hb2 hr2 rfl hlb3
                              refine ⟨t', ?_, hbal', hro', hcol', ?_⟩
                              · show (if isRed uncle then
                                    repair (.node .red (.node .black t pid pr) gid
                                      (setBlack uncle)) rest'
                                  else some (plug (.node .black t pid
                                    (.node .red pr gid uncle)) rest')) = some t'
                                rw [if_pos hu]
                                exact ht'
                              · rw [hio', inorder_plug, inorder_plug]
                                simp [inorderIds, inorder_setBlack, before, after,
                                  List.append_assoc]
                          | false =>
                              have hub : colorOf uncle = .black := isRed_false_colorOf hu
                              have hbS : Balanced
                                  (.node .black t pid (.node .red pr gid uncle)) (n + 1) :=
                                Balanced.black hb (Balanced.red hsb hsbu)
                              have hrS : RedOk
                                  (.node .black t pid (.node .red pr gid uncle)) :=
                                RedOk.node hr
                                  (RedOk.node hsr hsru (fun _ => ⟨hprb, hub⟩))
                                  (fun h => by simp at h)
                              refine ⟨plug (.node .black t pid (.node .red pr gid uncle))
                                rest', ?_, ?_, ?_, ?_, ?_⟩
                              · show (if isRed uncle then
                                    repair (.node .red (.node .black t pid pr) gid
                                      (setBlack uncle)) rest'
                                  else some (plug (.node .black t pid
                                    (.node .red pr gid uncle)) rest')) = _
                                rw [if_neg (by simp [hu])]
                              · exact ⟨_, (plug_rb rest' _ (n + 1) hpi3' hbS hrS
                                  (fun h => by simp [colorOf] at h)).1⟩
                              · exact (plug_rb rest' _ (n + 1) hpi3' hbS hrS
                                  (fun h => by simp [colorOf] at h)).2
                              · exact plug_colorOf_lastBlack _ _ hlb3 (fun _ => rfl)
                              · rw [inorder_plug, inorder_plug]
                                simp [inorderIds, before, after, List.append_assoc]
                      | right gc uncle gid =>
                          have hgc : gc = .black := by
                            cases gc with
                            | black => rfl
                            | red => simp [headBlack, frameColor] at hhb
                          subst hgc
                          obtain ⟨hsru, hsbu, _, hpi3⟩ := hpi2'
                          have hpi3' : PathInv rest' (n + 1) := by
                            simpa [frameColor] using hpi3
                          cases hu : isRed uncle with
                          | true =>
                              have hb2 : Balanced
                                  (.node .red (setBlack uncle) gid (.node .black t pid pr))
                                  (n + 1) :=
                                Balanced.red
                                  (balanced_setBlack_red (isRed_true_colorOf hu) hsbu)
                                  (Balanced.black hb hsb)
                              have hr2 : RedOk
                                  (.node .red (setBlack uncle) gid (.node .black t pid pr)) :=
                                RedOk.node (redOk_setBlack hsru)
                                  (RedOk.node hr hsr (fun h => by simp at h))
                                  (fun _ => ⟨colorOf_setBlack uncle, rfl⟩)
                              obtain ⟨t', ht', hbal', hro', hcol', hio'⟩ :=
                                ih rest' hlen3 _ (n + 1) hpi3' hb2 hr2 rfl hlb3
                              refine ⟨t', ?_, hbal', hro', hcol', ?_⟩
                              · show (if isRed uncle then
                                    repair (.node .red (setBlack uncle) gid
                                      (.node .black t pid pr)) rest'
                                  else _) = some t'
                                rw [if_pos hu]
                                exact ht'
                              · rw [hio', inorder_plug, inorder_plug]
                                simp [inorderIds, inorder_setBlack, before, after,
                                  List.append_assoc]
                          | false =>
                              have hub : colorOf uncle = .black := isRed_false_colorOf hu
                              obtain ⟨tl, tid, tr, hteq⟩ : ∃ tl tid tr,
                                  t = .node .red tl tid tr := by
                                cases t with
                                | nil => simp [colorOf] at hc
                                | node tc tl tid tr =>
                                    cases tc with
                                    | red => exact ⟨tl, tid, tr, rfl⟩
                                    | black => simp [colorOf] at hc
                              subst hteq
                              obtain ⟨htlb, htrb⟩ :
                                  colorOf tl = .black ∧ colorOf tr = .black := by
                                cases hr with
                                | node _ _ hcc => exact hcc rfl
                              have hrtl : RedOk tl := by
                                cases hr with
                                | node h1 _ _ => exact h1
                              have hrtr : RedOk tr := by
                                cases hr with
                                | node _ h2 _ => exact h2
                              obtain ⟨hbtl, hbtr⟩ : Balanced tl n ∧ Balanced tr n := by
                                cases hb with
                                | red h1 h2 => exact ⟨h1, h2⟩
                              have hbS : Balanced
                                  (.node .black (.node .red uncle gid tl) tid
                                    (.node .red tr pid pr)) (n + 1) :=
                                Balanced.black (Balanced.red hsbu hbtl)
                                  (Balanced.red hbtr hsb)
                              have hrS : RedOk
                                  (.node .black (.node .red uncle gid tl) tid
                                    (.node .red tr pid pr)) :=
                                RedOk.node
                                  (RedOk.node hsru hrtl (fun _ => ⟨hub, htlb⟩))
                                  (RedOk.node hrtr hsr (fun _ => ⟨htrb, hprb⟩))
                                  (fun h => by simp at h)
                              refine ⟨plug (.node .black (.node .red uncle gid tl) tid
                                (.node .red tr pid pr)) rest', ?_, ?_, ?_, ?_, ?_⟩
                              · show (if isRed uncle then
                                    repair (.node .red (setBlack uncle) gid
                                      (.node .black (.node .red tl tid tr) pid pr)) rest'
                                  else some (plug (.node .black (.node .red uncle gid tl)
                                    tid (.node .red tr pid pr)) rest')) = _
                                rw [if_neg (by simp [hu])]
                              · exact ⟨_, (plug_rb rest' _ (n + 1) hpi3' hbS hrS
                                  (fun h => by simp [colorOf] at h)).1⟩
                              · exact (plug_rb rest' _ (n + 1) hpi3' hbS hrS
                                  (fun h => by simp [colorOf] at h)).2
                              · exact plug_colorOf_lastBlack _ _ hlb3 (fun _ => rfl)
                              · rw [inorder_plug, inorder_plug]
                                simp [inorderIds, before, after, List.append_assoc]
          | right pc pl pid =>
              obtain ⟨hsr, hsb, hredc, hpi2⟩ := hpi
              cases pc with
              | black =>
                  have hpi0 : PathInv (PathStep.right Color.black pl pid :: rest) n :=
                    ⟨hsr, hsb, hredc, hpi2⟩
                  have hpr := plug_rb (PathStep.right Color.black pl pid :: rest) t n hpi0
                    hb hr (fun _ => rfl)
                  refine ⟨plug t (.right .black pl pid :: rest), ?_, ⟨_, hpr.1⟩, hpr.2,
                    ?_, rfl⟩
                  · rw [repair.eq_def]
                    simp [frameColor]
                  · exact plug_colorOf_lastBlack _ _ hlb (fun h => List.noConfusion h)
              | red =>
                  obtain ⟨hhb, hplb⟩ := hredc rfl
                  have hpi2' : PathInv rest n := by simpa [frameColor] using hpi2
                  cases rest with
                  | nil => simp [lastBlack, frameColor] at hlb
                  | cons gf rest' =>
                      have hlb3 : lastBlack rest' := lastBlack_cons (lastBlack_cons hlb)
                      have hlen3 : rest'.length ≤ L := by
                        simp [List.length_cons] at hlen
                        omega
                      cases gf with
                      | left gc gid uncle =>
                          have hgc : gc = .black := by
                            cases gc with
                            | black => rfl
                            | red => simp [headBlack, frameColor] at hhb
                          subst hgc
                          obtain ⟨hsru, hsbu, _, hpi3⟩ := hpi2'
                          have hpi3' : PathInv rest' (n + 1) := by
                            simpa [frameColor] using hpi3
                          cases hu : isRed uncle with
                          | true =>
                              have hb2 : Balanced
                                  (.node .red (.node .black pl pid t) gid (setBlack uncle))
                                  (n + 1) :=
                                Balanced.red (Balanced.black hsb hb)
                                  (balanced_setBlack_red (isRed_true_colorOf hu) hsbu)
                              have hr2 : RedOk
                                  (.node .red (.node .black pl pid t) gid (setBlack uncle)) :=
                                RedOk.node
                                  (RedOk.node hsr hr (fun h => by simp at h))
                                  (redOk_setBlack hsru)
                                  (fun _ => ⟨rfl, colorOf_setBlack uncle⟩)
                              obtain ⟨t', ht', hbal', hro', hcol', hio'⟩ :=
                                ih rest' hlen3 _ (n + 1) hpi3' hb2 hr2 rfl hlb3
                              refine ⟨t', ?_, hbal', hro', hcol', ?_⟩
                              · show (if isRed uncle then
                                    repair (.node .red (.node .black pl pid t) gid
                                      (setBlack uncle)) rest'
                                  else _) = some t'
                                rw [if_pos hu]
                                exact ht'
                              · rw [hio', inorder_plug, inorder_plug]
                                simp [inorderIds, inorder_setBlack, before, after,
                                  List.append_assoc]
                          | false =>
                              have hub : colorOf uncle = .black := isRed_false_colorOf hu
                              obtain ⟨tl, tid, tr, hteq⟩ : ∃ tl tid tr,
                                  t = .node .red tl tid tr := by
                                cases t with
                                | nil => simp [colorOf] at hc
                                | node tc tl tid tr =>
                                    cases tc with
                                    | red => exact ⟨tl, tid, tr, rfl⟩
                                    | black => simp [colorOf] at hc
                              subst hteq
                              obtain ⟨htlb, htrb⟩ :
                                  colorOf tl = .black ∧ colorOf tr = .black := by
                                cases hr with
                                | node _ _ hcc => exact hcc rfl
                              have hrtl : RedOk tl := by
                                cases hr with
                                | node h1 _ _ => exact h1
                              have hrtr : RedOk tr := by
                                cases hr with
                                | node _ h2 _ => exact h2
                              obtain ⟨hbtl, hbtr⟩ : Balanced tl n ∧ Balanced tr n := by
                                cases hb with
                                | red h1 h2 => exact ⟨h1, h2⟩
                              have hbS : Balanced
                                  (.node .black (.node .red pl pid tl) tid
                                    (.node .red tr gid uncle)) (n + 1) :=
                                Balanced.black (Balanced.red hsb hbtl)
                                  (Balanced.red hbtr hsbu)
                              have hrS : RedOk
                                  (.node .black (.node .red pl pid tl) tid
                                    (.node .red tr gid uncle)) :=
                                RedOk.node
                                  (RedOk.node hsr hrtl (fun _ => ⟨hplb, htlb⟩))
                                  (RedOk.node hrtr hsru (fun _ => ⟨htrb, hub⟩))
                                  (fun h => by simp at h)
                              refine ⟨plug (.node .black (.node .red pl pid tl) tid
                                (.node .red tr gid uncle)) rest', ?_, ?_, ?_, ?_, ?_⟩
                              · show (if isRed uncle then
                                    repair (.node .red (.node .black pl pid
                                      (.node .red tl tid tr)) gid (setBlack uncle)) rest'
                                  else some (plug (.node .black (.node .red pl pid tl)
                                    tid (.node .red tr gid uncle)) rest')) = _
                                rw [if_neg (by simp [hu])]
                              · exact ⟨_, (plug_rb rest' _ (n + 1) hpi3' hbS hrS
                                  (fun h => by simp [colorOf] at h)).1⟩
                              · exact (plug_rb rest' _ (n + 1) hpi3' hbS hrS
                                  (fun h => by simp [colorOf] at h)).2
                              · exact plug_colorOf_lastBlack _ _ hlb3 (fun _ => rfl)
                              · rw [inorder_plug, inorder_plug]
                                simp [inorderIds, before, after, List.append_assoc]
                      | right gc uncle gid =>
                          have hgc : gc = .black := by
                            cases gc with
                            | black => rfl
                            | red => simp [headBlack, frameColor] at hhb
                          subst hgc
                          obtain ⟨hsru, hsbu, _, hpi3⟩ := hpi2'
                          have hpi3' : PathInv rest' (n + 1) := by
                            simpa [frameColor] using hpi3
                          cases hu : isRed uncle with
                          | true =>
                              have hb2 : Balanced
                                  (.node .red (setBlack uncle) gid (.node .black pl pid t))
                                  (n + 1) :=
                                Balanced.red
                                  (balanced_setBlack_red (isRed_true_colorOf hu) hsbu)
                                  (Balanced.black hsb hb)
                              have hr2 : RedOk
                                  (.node .red (setBlack uncle) gid (.node .black pl pid t)) :=
                                RedOk.node (redOk_setBlack hsru)
                                  (RedOk.node hsr hr (fun h => by simp at h))
                                  (fun _ => ⟨colorOf_setBlack uncle, rfl⟩)
                              obtain ⟨t', ht', hbal', hro', hcol', hio'⟩ :=
                                ih rest' hlen3 _ (n + 1) hpi3' hb2 hr2 rfl hlb3
                              refine ⟨t', ?_, hbal', hro', hcol', ?_⟩
                              · show (if isRed uncle then
                                    repair (.node .red (setBlack uncle) gid
                                      (.node .black pl pid t)) rest'
                                  else _) = some t'
                                rw [if_pos hu]
                                exact ht'
                              · rw [hio', inorder_plug, inorder_plug]
                                simp [inorderIds, inorder_setBlack, before, after,
                                  List.append_assoc]
                          | false =>
                              have hub : colorOf uncle = .black := isRed_false_colorOf hu
                              have hbS : Balanced
                                  (.node .black (.node .red uncle gid pl) pid t) (n + 1) :=
                                Balanced.black (Balanced.red hsbu hsb) hb
                              have hrS : RedOk
                                  (.node .black (.node .red uncle gid pl) pid t) :=
                                RedOk.node
                                  (RedOk.node hsru hsr (fun _ => ⟨hub, hplb⟩))
                                  hr (fun h => by simp at h)
                              refine ⟨plug (.node .black (.node .red uncle gid pl) pid t)
                                rest', ?_, ?_, ?_, ?_, ?_⟩
                              · show (if isRed uncle then
                                    repair (.node .red (setBlack uncle) gid
                                      (.node .black pl pid t)) rest'
                                  else some (plug (.node .black (.node .red uncle gid pl)
                                    pid t) rest')) = _
                                rw [if_neg (by simp [hu])]
                              · exact ⟨_, (plug_rb rest' _ (n + 1) hpi3' hbS hrS
                                  (fun h => by simp [colorOf] at h)).1⟩
                              · exact (plug_rb rest' _ (n + 1) hpi3' hbS hrS
                                  (fun h => by simp [colorOf] at h)).2
                              · exact plug_colorOf_lastBlack _ _ hlb3 (fun _ => rfl)
                              · rw [inorder_plug, inorder_plug]
                                simp [inorderIds, before, after, List.append_assoc]

/-- The side a descent frame records agrees with the re-evaluated
policy sign at its parent (`if (policy(parent) < 0) insertLeft else
insertRight` in the insert functions). -/
def sideOk (k : Int) (val : Nat → Int) : PathStep → Prop
  | .left _ pid _ => GreaterThan k (val pid) < 0
  | .right _ _ pid => ¬ GreaterThan k (val pid) < 0

theorem findOrBisect_inr (k : Int) (val : Nat → Int) : ∀ (t : RBT) (p0 p : Path),
    findOrBisect k val t p0 = .inr p →
    plug .nil p = plug t p0 ∧
    ((p = p0 ∧ t = .nil) ∨ ∃ st p2, p = st :: p2 ∧ sideOk k val st) := by
  intro t
  induction t with
  | nil =>
      intro p0 p h
      simp only [findOrBisect] at h
      injection h with h
      subst h
      exact ⟨rfl, Or.inl ⟨rfl, rfl⟩⟩
  | node c l id r ihl ihr =>
      intro p0 p h
      simp only [findOrBisect] at h
      by_cases h1 : GreaterThan k (val id) < 0
      · rw [if_pos h1] at h
        obtain ⟨hp, hs⟩ := ihl _ _ h
        refine ⟨hp, ?_⟩
        rcases hs with ⟨hpe, _⟩ | hs
        · exact Or.inr ⟨_, _, hpe, h1⟩
        · exact Or.inr hs
      · rw [if_neg h1] at h
        by_cases h2 : 0 < GreaterThan k (val id)
        · rw [if_pos h2] at h
          obtain ⟨hp, hs⟩ := ihr _ _ h
          refine ⟨hp, ?_⟩
          rcases hs with ⟨hpe, _⟩ | hs
          · exact Or.inr ⟨_, _, hpe, h1⟩
          · exact Or.inr hs
        · rw [if_neg h2] at h
          exact absurd h (by simp)

theorem findOrBisect_inl (k : Int) (val : Nat → Int) : ∀ (t : RBT) (p0 : Path) (fid : Nat),
    findOrBisect k val t p0 = .inl fid →
    val fid = k ∧ fid ∈ inorderIds t := by
  intro t
  induction t with
  | nil => intro p0 fid h; exact absurd h (by simp [findOrBisect])
  | node c l id r ihl ihr =>
      intro p0 fid h
      simp only [findOrBisect] at h
      by_cases h1 : GreaterThan k (val id) < 0
      · rw [if_pos h1] at h
        obtain ⟨hv, hm⟩ := ihl _ _ h
        refine ⟨hv, ?_⟩
        simp only [inorderIds, List.mem_append]
        exact Or.inl hm
      · rw [if_neg h1] at h
        by_cases h2 : 0 < GreaterThan k (val id)
        · rw [if_pos h2] at h
          obtain ⟨hv, hm⟩ := ihr _ _ h
          refine ⟨hv, ?_⟩
          simp only [inorderIds, List.mem_append, List.mem_cons]
          exact Or.inr (Or.inr hm)
        · rw [if_neg h2] at h
          injection h with h
          subst h
          refine ⟨(greaterThan_eq.mp ⟨h1, h2⟩).symm, ?_⟩
          simp [inorderIds]

theorem bisectRightZ_spec (k : Int) (val : Nat → Int) : ∀ (t : RBT) (p0 : Path),
    plug .nil (bisectRightZ k val t p0) = plug t p0 ∧
    ((bisectRightZ k val t p0 = p0 ∧ t = .nil) ∨
      ∃ st p2, bisectRightZ k val t p0 = st :: p2 ∧ sideOk k val st) := by
  intro t
  induction t with
  | nil => intro p0; exact ⟨rfl, Or.inl ⟨rfl, rfl⟩⟩
  | node c l id r ihl ihr =>
      intro p0
      by_cases h1 : GreaterThan k (val id) < 0
      · have he : bisectRightZ k val (.node c l id r) p0 =
            bisectRightZ k val l (.left c id r :: p0) := by
          simp only [bisectRightZ]
          rw [if_pos h1]
        rw [he]
        obtain ⟨hp, hs⟩ := ihl (.left c id r :: p0)
        refine ⟨hp, ?_⟩
        rcases hs with ⟨hpe, _⟩ | hs
        · exact Or.inr ⟨_, _, hpe, h1⟩
        · exact Or.inr hs
      · have he : bisectRightZ k val (.node c l id r) p0 =
            bisectRightZ k val r (.right c l id :: p0) := by
          simp only [bisectRightZ]
          rw [if_neg h1]
        rw [he]
        obtain ⟨hp, hs⟩ := ihr (.right c l id :: p0)
        refine ⟨hp, ?_⟩
        rcases hs with ⟨hpe, _⟩ | hs
        · exact Or.inr ⟨_, _, hpe, h1⟩
        · exact Or.inr hs

theorem find_some (k : Int) (val : Nat → Int) : ∀ (t : RBT) (p0 : Path) (fo : RBT) (p : Path),
    find k val t p0 = some (fo, p) →
    plug fo p = plug t p0 ∧ ∃ c l fid r, fo = RBT.node c l fid r ∧ val fid = k := by
  intro t
  induction t with
  | nil => intro p0 fo p h; exact absurd h (by simp [find])
  | node c l id r ihl ihr =>
      intro p0 fo p h
      simp only [find] at h
      by_cases h1 : GreaterThan k (val id) < 0
      · rw [if_pos h1] at h
        exact ihl _ _ _ h
      · rw [if_neg h1] at h
        by_cases h2 : 0 < GreaterThan k (val id)
        · rw [if_pos h2] at h
          exact ihr _ _ _ h
        · rw [if_neg h2] at h
          injection h with h
          cases h
          exact ⟨rfl, c, l, id, r, rfl, (greaterThan_eq.mp ⟨h1, h2⟩).symm⟩

/-- The chain invariant: every node's `next`/`prev` pointer is the
in-order successor/predecessor in the chain list `L`. -/
def chainOk (nxt prv : Nat → Option Nat) (L : List Nat) : Prop :=
  ∀ a ∈ L, nxt a = succIn L a ∧ prv a = predIn L a

theorem fupd_self (f : Nat → Option Nat) (k : Nat) (v : Option Nat) : fupd f k v k = v :=
  if_pos rfl

theorem fupd_other (f : Nat → Option Nat) {k i : Nat} {v : Option Nat} (h : i ≠ k) :
    fupd f k v i = f i := if_neg h

theorem head?_mem_nat {l : List Nat} {a : Nat} (h : l.head? = some a) : a ∈ l := by
  cases l with
  | nil => exact absurd h (by simp)
  | cons x xs =>
      rw [List.head?_cons] at h
      injection h with h
      exact h ▸ List.mem_cons_self x xs

theorem getLast?_mem_nat {l : List Nat} {a : Nat} (h : l.getLast? = some a) : a ∈ l := by
  rw [← List.head?_reverse] at h
  exact List.mem_reverse.mp (head?_mem_nat h)

theorem getLast?_append_right {l₁ l₂ : List Nat} (h : l₂ ≠ []) :
    (l₁ ++ l₂).getLast? = l₂.getLast? := by
  rw [← List.head?_reverse, ← List.head?_reverse l₂, List.reverse_append]
  have : l₂.reverse ≠ [] := by simpa using h
  cases hrev : l₂.reverse with
  | nil => exact absurd hrev this
  | cons x xs => rfl

theorem getLast?_cons_of_ne_nil {a : Nat} {l : List Nat} (h : l ≠ []) :
    (a :: l).getLast? = l.getLast? := @getLast?_append_right [a] _ h

theorem predIn_append {v : Nat} {ys zs : List Nat} (h : v ∉ zs) :
    predIn (ys ++ v :: zs) v = ys.getLast? := by
  show succIn (ys ++ v :: zs).reverse v = ys.getLast?
  rw [List.reverse_append, List.reverse_cons, List.append_assoc, List.singleton_append]
  rw [succIn_append (by simpa using h)]
  rw [List.head?_reverse]

/-- Inserting `id` between a prefix `P` and a suffix `Q` of the chain:
any update maps that send `id` to the old neighbors, relink the last of
`P` forward to `id` and the head of `Q` backward to `id`, and leave
everything else alone, thread the new chain. -/
theorem chain_upd_insert {P Q : List Nat} {id : Nat}
    {nxt prv nxt' prv' : Nat → Option Nat}
    (hnd : (P ++ id :: Q).Nodup)
    (hold : chainOk nxt prv (P ++ Q))
    (hnxt' : ∀ a, nxt' a = if a = id then Q.head?
      else if P.getLast? = some a then some id else nxt a)
    (hprv' : ∀ a, prv' a = if a = id then P.getLast?
      else if Q.head? = some a then some id else prv a) :
    chainOk nxt' prv' (P ++ id :: Q) := by
  have hidP : id ∉ P := by
    intro hm
    exact (List.nodup_append.mp hnd).2.2 hm (List.mem_cons_self id Q)
  have hparts := List.nodup_append.mp hnd
  have hPnd : P.Nodup := hparts.1
  have hQnd : Q.Nodup := by
    have := hparts.2.1
    rw [List.nodup_cons] at this
    exact this.2
  have hidQ : id ∉ Q := by
    have := hparts.2.1
    rw [List.nodup_cons] at this
    exact this.1
  have hPQdisj : ∀ {a}, a ∈ P → a ∈ Q → False :=
    fun ha hb => hparts.2.2 ha (List.mem_cons_of_mem _ hb)
  intro a ha
  rcases List.mem_append.mp ha with haP | haIQ
  · -- a ∈ P
    have haid : a ≠ id := fun h => hidP (h ▸ haP)
    obtain ⟨P1, P2, hPeq⟩ := List.append_of_mem haP
    have hPnd' := hPeq ▸ hPnd
    have haP1 : a ∉ P1 := by
      intro hm
      exact (List.nodup_append.mp hPnd').2.2 hm (List.mem_cons_self a P2)
    have haP2 : a ∉ P2 := by
      have := (List.nodup_append.mp hPnd').2.1
      rw [List.nodup_cons] at this
      exact this.1
    have haQ : a ∉ Q := fun hm => hPQdisj haP hm
    have hnewsplit : P ++ id :: Q = P1 ++ a :: (P2 ++ id :: Q) := by
      rw [hPeq]
      simp [List.append_assoc]
    have holdsplit : P ++ Q = P1 ++ a :: (P2 ++ Q) := by
      rw [hPeq]
      simp [List.append_assoc]
    constructor
    · rw [hnxt' a, if_neg haid]
      cases hP2 : P2 with
      | nil =>
          have hlast : P.getLast? = some a := by
            rw [hPeq, hP2, @getLast?_append_right P1 _ (by simp)]
            rfl
          rw [if_pos hlast, hnewsplit, succIn_append haP1, hP2]
          rfl
      | cons z P2' =>
          have hlast : ¬ (P.getLast? = some a) := by
            intro hl
            rw [hPeq, hP2, @getLast?_append_right P1 _ (by simp)] at hl
            have h2 : (a :: z :: P2').getLast? = (z :: P2').getLast? :=
              @getLast?_append_right [a] _ (by simp)
            rw [h2] at hl
            exact haP2 (hP2 ▸ getLast?_mem_nat hl)
          rw [if_neg hlast, (hold a (by rw [holdsplit]; simp)).1]
          rw [hnewsplit, succIn_append haP1, holdsplit, succIn_append haP1, hP2]
          rfl
    · rw [hprv' a, if_neg haid]
      have hhead : ¬ (Q.head? = some a) := fun hl => haQ (head?_mem_nat hl)
      rw [if_neg hhead, (hold a (by rw [holdsplit]; simp)).2]
      rw [hnewsplit, predIn_append (by simp [haP2, haid, haQ]),
        holdsplit, predIn_append (by simp [haP2, haQ])]
  · rcases List.mem_cons.mp haIQ with haeq | haQ
    · -- a = id
      subst haeq
      constructor
      · rw [hnxt' a, if_pos rfl, succIn_append hidP]
      · rw [hprv' a, if_pos rfl, predIn_append hidQ]
    · -- a ∈ Q
      have haid : a ≠ id := fun h => hidQ (h ▸ haQ)
      have haP : a ∉ P := fun hm => hPQdisj hm haQ
      obtain ⟨Q1, Q2, hQeq⟩ := List.append_of_mem haQ
      have hQnd' := hQeq ▸ hQnd
      have haQ1 : a ∉ Q1 := by
        intro hm
        exact (List.nodup_append.mp hQnd').2.2 hm (List.mem_cons_self a Q2)
      have haQ2 : a ∉ Q2 := by
        have := (List.nodup_append.mp hQnd').2.1
        rw [List.nodup_cons] at this
        exact this.1
      have hnewsplit : P ++ id :: Q = (P ++ id :: Q1) ++ a :: Q2 := by
        rw [hQeq]
        simp [List.append_assoc]
      have holdsplit : P ++ Q = (P ++ Q1) ++ a :: Q2 := by
        rw [hQeq]
        simp [List.append_assoc]
      constructor
      · rw [hnxt' a, if_neg haid]
        have hlast : ¬ (P.getLast? = some a) := fun hl => haP (getLast?_mem_nat hl)
        rw [if_neg hlast, (hold a (by rw [holdsplit]; simp)).1]
        rw [hnewsplit, succIn_append (by simp [haP, haid, haQ1]),
          holdsplit, succIn_append (by simp [haP, haQ1])]
      · rw [hprv' a, if_neg haid]
        cases hQ1 : Q1 with
        | nil =>
            have hhead : Q.head? = some a := by
              rw [hQeq, hQ1]
              rfl
            rw [if_pos hhead, hnewsplit, predIn_append haQ2, hQ1]
            rw [@getLast?_append_right P _ (by simp)]
            rfl
        | cons w Q1' =>
            have hhead : ¬ (Q.head? = some a) := by
              intro hl
              rw [hQeq, hQ1] at hl
              rw [List.cons_append, List.head?_cons] at hl
              injection hl with hl
              exact haQ1 (hQ1 ▸ (hl ▸ List.mem_cons_self w Q1'))
            rw [if_neg hhead, (hold a (by rw [holdsplit]; simp)).2]
            rw [hnewsplit, predIn_append haQ2, holdsplit, predIn_append haQ2, hQ1]
            rw [@getLast?_append_right P (w :: Q1') (by simp),
              @getLast?_append_right P (id :: w :: Q1') (by simp),
              getLast?_cons_of_ne_nil (a := id) (l := w :: Q1') (by simp)]

/-- Unlinking `id` from between a prefix `P` and a suffix `Q` of the
chain: update maps that link the last of `P` forward to the head of `Q`
and backward likewise, and leave all other live nodes alone, thread the
shortened chain. -/
theorem chain_upd_remove {P Q : List Nat} {id : Nat}
    {nxt prv nxt' prv' : Nat → Option Nat}
    (hnd : (P ++ id :: Q).Nodup)
    (hold : chainOk nxt prv (P ++ id :: Q))
    (hnxt' : ∀ a, a ≠ id → nxt' a = if P.getLast? = some a then Q.head? else nxt a)
    (hprv' : ∀ a, a ≠ id → prv' a = if Q.head? = some a then P.getLast? else prv a) :
    chainOk nxt' prv' (P ++ Q) := by
  have hparts := List.nodup_append.mp hnd
  have hidP : id ∉ P := by
    intro hm
    exact hparts.2.2 hm (List.mem_cons_self id Q)
  have hPnd : P.Nodup := hparts.1
  have hQnd : Q.Nodup := by
    have := hparts.2.1
    rw [List.nodup_cons] at this
    exact this.2
  have hidQ : id ∉ Q := by
    have := hparts.2.1
    rw [List.nodup_cons] at this
    exact this.1
  have hPQdisj : ∀ {a}, a ∈ P → a ∈ Q → False :=
    fun ha hb => hparts.2.2 ha (List.mem_cons_of_mem _ hb)
  intro a ha
  rcases List.mem_append.mp ha with haP | haQ
  · have haid : a ≠ id := fun h => hidP (h ▸ haP)
    obtain ⟨P1, P2, hPeq⟩ := List.append_of_mem haP
    have hPnd' := hPeq ▸ hPnd
    have haP1 : a ∉ P1 := by
      intro hm
      exact (List.nodup_append.mp hPnd').2.2 hm (List.mem_cons_self a P2)
    have haP2 : a ∉ P2 := by
      have := (List.nodup_append.mp hPnd').2.1
      rw [List.nodup_cons] at this
      exact this.1
    have haQ : a ∉ Q := fun hm => hPQdisj haP hm
    have holdsplit : P ++ id :: Q = P1 ++ a :: (P2 ++ id :: Q) := by
      rw [hPeq]
      simp [List.append_assoc]
    have hnewsplit : P ++ Q = P1 ++ a :: (P2 ++ Q) := by
      rw [hPeq]
      simp [List.append_assoc]
    constructor
    · rw [hnxt' a haid]
      cases hP2 : P2 with
      | nil =>
          have hlast : P.getLast? = some a := by
            rw [hPeq, hP2, @getLast?_append_right P1 _ (by simp)]
            rfl
          rw [if_pos hlast, hnewsplit, succIn_append haP1, hP2]
          rfl
      | cons z P2' =>
          have hlast : ¬ (P.getLast? = some a) := by
            intro hl
            rw [hPeq, hP2, @getLast?_append_right P1 _ (by simp)] at hl
            have h2 : (a :: z :: P2').getLast? = (z :: P2').getLast? :=
              @getLast?_append_right [a] _ (by simp)
            rw [h2] at hl
            exact haP2 (hP2 ▸ getLast?_mem_nat hl)
          rw [if_neg hlast, (hold a (by rw [holdsplit]; simp)).1]
          rw [hnewsplit, succIn_append haP1, holdsplit, succIn_append haP1, hP2]
          rfl
    · rw [hprv' a haid]
      have hhead : ¬ (Q.head? = some a) := fun hl => haQ (head?_mem_nat hl)
      rw [if_neg hhead, (hold a (by rw [holdsplit]; simp)).2]
      rw [hnewsplit, predIn_append (by simp [haP2, haQ]),
        holdsplit, predIn_append (by simp [haP2, haid, haQ])]
  · have haid : a ≠ id := fun h => hidQ (h ▸ haQ)
    have haP : a ∉ P := fun hm => hPQdisj hm haQ
    obtain ⟨Q1, Q2, hQeq⟩ := List.append_of_mem haQ
    have hQnd' := hQeq ▸ hQnd
    have haQ1 : a ∉ Q1 := by
      intro hm
      exact (List.nodup_append.mp hQnd').2.2 hm (List.mem_cons_self a Q2)
    have haQ2 : a ∉ Q2 := by
      have := (List.nodup_append.mp hQnd').2.1
      rw [List.nodup_cons] at this
      exact this.1
    have holdsplit : P ++ id :: Q = (P ++ id :: Q1) ++ a :: Q2 := by
      rw [hQeq]
      simp [List.append_assoc]
    have hnewsplit : P ++ Q = (P ++ Q1) ++ a :: Q2 := by
      rw [hQeq]
      simp [List.append_assoc]
    constructor
    · rw [hnxt' a haid]
      have hlast : ¬ (P.getLast? = some a) := fun hl => haP (getLast?_mem_nat hl)
      rw [if_neg hlast, (hold a (by rw [holdsplit]; simp)).1]
      rw [hnewsplit, succIn_append (by simp [haP, haQ1]),
        holdsplit, succIn_append (by simp [haP, haid, haQ1])]
    · rw [hprv' a haid]
      cases hQ1 : Q1 with
      | nil =>
          have hhead : Q.head? = some a := by
            rw [hQeq, hQ1]
            rfl
          rw [if_pos hhead, hnewsplit, predIn_append haQ2, hQ1, List.append_nil]
      | cons w Q1' =>
          have hhead : ¬ (Q.head? = some a) := by
            intro hl
            rw [hQeq, hQ1] at hl
            rw [List.cons_append, List.head?_cons] at hl
            injection hl with hl
            exact haQ1 (hQ1 ▸ (hl ▸ List.mem_cons_self w Q1'))
          rw [if_neg hhead, (hold a (by rw [holdsplit]; simp)).2]
          rw [hnewsplit, predIn_append haQ2, holdsplit, predIn_append haQ2, hQ1]
          rw [@getLast?_append_right P (w :: Q1') (by simp),
            @getLast?_append_right P (id :: w :: Q1') (by simp),
            getLast?_cons_of_ne_nil (a := id) (l := w :: Q1') (by simp)]

theorem insertLeft_updates {pid id : Nat} {nxt prv : Nat → Option Nat} {P Qr : List Nat}
    (hprev : prv pid = P.getLast?) (hidP : id ∉ P) (hidpid : id ≠ pid) :
    (∀ a, (insertLeft pid id nxt prv).1 a = if a = id then (pid :: Qr).head?
      else if P.getLast? = some a then some id else nxt a) ∧
    (∀ a, (insertLeft pid id nxt prv).2 a = if a = id then P.getLast?
      else if (pid :: Qr).head? = some a then some id else prv a) := by
  constructor
  · intro a
    show (match prv pid with
      | some pr => fupd (fupd nxt id (some pid)) pr (some id)
      | none => fupd nxt id (some pid)) a = _
    rw [hprev]
    cases hgl : P.getLast? with
    | none =>
        show fupd nxt id (some pid) a = _
        by_cases haid : a = id
        · subst haid
          rw [if_pos rfl, fupd_self]
          rfl
        · rw [if_neg haid, if_neg (by simp), fupd_other _ haid]
    | some pr =>
        show fupd (fupd nxt id (some pid)) pr (some id) a = _
        have hpr : pr ≠ id := fun h => hidP (h ▸ getLast?_mem_nat hgl)
        by_cases haid : a = id
        · subst haid
          rw [if_pos rfl, fupd_other _ (Ne.symm hpr), fupd_self]
          rfl
        · rw [if_neg haid]
          by_cases hapr : a = pr
          · subst hapr
            rw [if_pos rfl, fupd_self]
          · rw [if_neg (by simpa using Ne.symm hapr), fupd_other _ hapr,
              fupd_other _ haid]
  · intro a
    show fupd (fupd prv pid (some id)) id (prv pid) a = _
    rw [hprev]
    by_cases haid : a = id
    · subst haid
      rw [if_pos rfl, fupd_self]
    · rw [if_neg haid, fupd_other _ haid]
      by_cases hapid : a = pid
      · subst hapid
        rw [fupd_self, List.head?_cons, if_pos rfl]
      · rw [fupd_other _ hapid, List.head?_cons, if_neg (by simpa using Ne.symm hapid)]

theorem insertRight_updates {pid id : Nat} {nxt prv : Nat → Option Nat} {P Q : List Nat}
    (hnext : nxt pid = Q.head?) (hPlast : P.getLast? = some pid)
    (hidQ : id ∉ Q) (hidpid : id ≠ pid) (hpidnd : pid ∉ Q) :
    (∀ a, (insertRight pid id nxt prv).1 a = if a = id then Q.head?
      else if P.getLast? = some a then some id else nxt a) ∧
    (∀ a, (insertRight pid id nxt prv).2 a = if a = id then P.getLast?
      else if Q.head? = some a then some id else prv a) := by
  constructor
  · intro a
    show fupd (fupd nxt pid (some id)) id (nxt pid) a = _
    rw [hnext]
    by_cases haid : a = id
    · subst haid
      rw [if_pos rfl, fupd_self]
    · rw [if_neg haid, fupd_other _ haid]
      by_cases hapid : a = pid
      · subst hapid
        rw [fupd_self, hPlast, if_pos rfl]
      · rw [fupd_other _ hapid, hPlast, if_neg (by simpa using Ne.symm hapid)]
  · intro a
    show (match nxt pid with
      | some nx => fupd (fupd prv id (some pid)) nx (some id)
      | none => fupd prv id (some pid)) a = _
    rw [hnext]
    cases hgl : Q.head? with
    | none =>
        show fupd prv id (some pid) a = _
        by_cases haid : a = id
        · subst haid
          rw [if_pos rfl, fupd_self, hPlast]
        · rw [if_neg haid, if_neg (by simp), fupd_other _ haid]
    | some nx =>
        show fupd (fupd prv id (some pid)) nx (some id) a = _
        have hnx : nx ≠ id := fun h => hidQ (h ▸ head?_mem_nat hgl)
        by_cases haid : a = id
        · subst haid
          rw [if_pos rfl, fupd_other _ (Ne.symm hnx), fupd_self, hPlast]
        · rw [if_neg haid]
          by_cases hanx : a = nx
          · subst hanx
            rw [if_pos rfl, fupd_self]
          · rw [if_neg (by simpa using Ne.symm hanx), fupd_other _ hanx,
              fupd_other _ haid]

/-- The invariant a `Tree`/`Set` state maintains: the root is black, no
red-red violation, uniform black height, node ids are distinct and
below the allocator counter, and the `next`/`prev` chain threads the
in-order walk. -/
structure Inv (s : TreeSt) : Prop where
  rootB : colorOf s.root = .black
  rOk : RedOk s.root
  bal : ∃ n, Balanced s.root n
  nodup : (inorderIds s.root).Nodup
  fresh : ∀ a ∈ inorderIds s.root, a < s.nextId
  chain : chainOk s.nxt s.prv (inorderIds s.root)

/-- Attaching a fresh node at the null slot a descent reached preserves
the invariant, and inserts the fresh id at the hole's position of the
in-order walk. -/
theorem attachAt_inv {k : Int} {p : Path} {s : TreeSt} (hinv : Inv s)
    (hplug : plug .nil p = s.root)
    (hside : p = [] ∨ ∃ st p2, p = st :: p2 ∧ sideOk k s.val st) :
    ∃ s', attachAt k p s = some s' ∧ Inv s' ∧
      inorderIds s'.root = before p ++ s.nextId :: after p ∧
      s'.val = vupd s.val s.nextId k ∧ s'.nextId = s.nextId + 1 := by
  obtain ⟨N, hbN⟩ := hinv.bal
  obtain ⟨n0, hb0, _, hpi, _, hN⟩ :=
    plug_rb_inv p .nil N (hplug ▸ hbN) (hplug ▸ hinv.rOk)
  have hn0 : n0 = 0 := by cases hb0; rfl
  subst hn0
  have hlb : lastBlack p := (lastBlack_of_plug p .nil (hplug ▸ hinv.rootB)).1
  obtain ⟨t', hrep, hbal', hro', hcol', hio'⟩ :=
    repair_ok p.length p le_rfl (.node .red .nil s.nextId .nil) 0 hpi
      (Balanced.red Balanced.nil Balanced.nil)
      (RedOk.node RedOk.nil RedOk.nil (fun _ => ⟨rfl, rfl⟩)) rfl hlb
  have hioL : inorderIds t' = before p ++ s.nextId :: after p := by
    rw [hio', inorder_plug]
    simp [inorderIds]
  have hLold : inorderIds s.root = before p ++ after p := by
    rw [← hplug, inorder_plug]
    simp [inorderIds]
  have hfresh_notin : s.nextId ∉ before p ++ after p := by
    intro hm
    have := hinv.fresh s.nextId (hLold ▸ hm)
    omega
  have hnd' : (before p ++ s.nextId :: after p).Nodup :=
    List.nodup_middle.mpr (List.nodup_cons.mpr ⟨hfresh_notin, hLold ▸ hinv.nodup⟩)
  have hchainolds : chainOk s.nxt s.prv (before p ++ after p) := hLold ▸ hinv.chain
  have hfreshIn : ∀ a ∈ before p ++ s.nextId :: after p, a < s.nextId + 1 := by
    intro a ha
    rcases List.mem_append.mp ha with h | h
    · have := hinv.fresh a (hLold ▸ List.mem_append.mpr (Or.inl h))
      omega
    · rcases List.mem_cons.mp h with h | h
      · omega
      · have := hinv.fresh a (hLold ▸ List.mem_append.mpr (Or.inr h))
        omega
  rcases hside with hpnil | ⟨st, p2, hpeq, hsideOk⟩
  · subst hpnil
    have hatt : attachAt k [] s =
        some { root := t', val := vupd s.val s.nextId k,
               nxt := fupd s.nxt s.nextId none, prv := fupd s.prv s.nextId none,
               nextId := s.nextId + 1 } := by
      simp only [attachAt, hrep]
    have hsucc1 : succIn [s.nextId] s.nextId = none := by
      rw [succIn, if_pos rfl]
      rfl
    have hpred1 : predIn [s.nextId] s.nextId = none := by
      show succIn [s.nextId].reverse s.nextId = none
      rw [List.reverse_singleton]
      exact hsucc1
    refine ⟨_, hatt, ⟨hcol', hro', hbal', by rw [hioL]; exact hnd',
      fun a ha => hfreshIn a (hioL ▸ ha), ?_⟩, hioL, rfl, rfl⟩
    show chainOk (fupd s.nxt s.nextId none) (fupd s.prv s.nextId none) (inorderIds t')
    rw [hioL]
    intro a ha
    have ha' : a = s.nextId := by
      simpa [before, after] using ha
    subst ha'
    constructor
    · rw [fupd_self]
      exact hsucc1.symm
    · rw [fupd_self]
      exact hpred1.symm
  · subst hpeq
    cases st with
    | left c pid r =>
        have hcmp : GreaterThan k (s.val pid) < 0 := hsideOk
        have hQform : after (PathStep.left c pid r :: p2) =
            pid :: (inorderIds r ++ after p2) := rfl
        have hpid_mem : pid ∈ inorderIds s.root := by
          rw [hLold, hQform]
          exact List.mem_append.mpr (Or.inr (List.mem_cons_self _ _))
        have hpid_notin_rest : pid ∉ inorderIds r ++ after p2 := by
          have hx := hLold ▸ hinv.nodup
          rw [hQform] at hx
          have h2 := (List.nodup_append.mp hx).2.1
          rw [List.nodup_cons] at h2
          exact h2.1
        have hprev : s.prv pid =
            (before (PathStep.left c pid r :: p2)).getLast? := by
          rw [(hinv.chain pid hpid_mem).2, hLold, hQform]
          exact predIn_append hpid_notin_rest
        have hid_notin_before : s.nextId ∉ before (PathStep.left c pid r :: p2) :=
          fun hm => hfresh_notin (List.mem_append.mpr (Or.inl hm))
        have hidpid : s.nextId ≠ pid := by
          intro h
          have := hinv.fresh pid hpid_mem
          omega
        obtain ⟨hup1, hup2⟩ := @insertLeft_updates pid s.nextId s.nxt s.prv
          (before (PathStep.left c pid r :: p2))
          (inorderIds r ++ after p2) hprev hid_notin_before hidpid
        have hatt : attachAt k (PathStep.left c pid r :: p2) s =
            some { root := t', val := vupd s.val s.nextId k,
                   nxt := (insertLeft pid s.nextId s.nxt s.prv).1,
                   prv := (insertLeft pid s.nextId s.nxt s.prv).2,
                   nextId := s.nextId + 1 } := by
          simp only [attachAt, framePid, hrep, if_pos hcmp]
        refine ⟨_, hatt, ⟨hcol', hro', hbal', by rw [hioL]; exact hnd',
          fun a ha => hfreshIn a (hioL ▸ ha), ?_⟩, hioL, rfl, rfl⟩
        show chainOk (insertLeft pid s.nextId s.nxt s.prv).1
          (insertLeft pid s.nextId s.nxt s.prv).2 (inorderIds t')
        rw [hioL]
        refine chain_upd_insert hnd' hchainolds ?_ ?_
        · intro a
          rw [hup1 a, hQform]
        · intro a
          rw [hup2 a, hQform]
    | right c l pid =>
        have hncmp : ¬ GreaterThan k (s.val pid) < 0 := hsideOk
        have hPform : before (PathStep.right c l pid :: p2) =
            before p2 ++ (inorderIds l ++ [pid]) := rfl
        have hQform : after (PathStep.right c l pid :: p2) = after p2 := rfl
        have hsplit : before (PathStep.right c l pid :: p2) ++
            after (PathStep.right c l pid :: p2) =
            (before p2 ++ inorderIds l) ++ pid :: after p2 := by
          rw [hPform, hQform]
          simp [List.append_assoc]
        have hpid_mem : pid ∈ inorderIds s.root := by
          rw [hLold, hsplit]
          exact List.mem_append.mpr (Or.inr (List.mem_cons_self _ _))
        have hnodup_mid := hLold ▸ hinv.nodup
        have hpid_notin : pid ∉ (before p2 ++ inorderIds l) ++ after p2 := by
          rw [hsplit] at hnodup_mid
          have := List.nodup_cons.mp (List.nodup_middle.mp hnodup_mid)
          intro hm
          refine this.1 ?_
          rcases List.mem_append.mp hm with h | h
          · rcases List.mem_append.mp h with h2 | h2
            · exact List.mem_append.mpr (Or.inl (List.mem_append.mpr (Or.inl h2)))
            · exact List.mem_append.mpr (Or.inl (List.mem_append.mpr (Or.inr h2)))
          · exact List.mem_append.mpr (Or.inr h)
        have hpid_notin_left : pid ∉ before p2 ++ inorderIds l :=
          fun hm => hpid_notin (List.mem_append.mpr (Or.inl hm))
        have hpid_notin_Q : pid ∉ after p2 :=
          fun hm => hpid_notin (List.mem_append.mpr (Or.inr hm))
        have hPlast : (before (PathStep.right c l pid :: p2)).getLast? = some pid := by
          rw [hPform, @getLast?_append_right (before p2) _ (by simp),
            @getLast?_append_right (inorderIds l) _ (by simp)]
          rfl
        have hnext : s.nxt pid = (after (PathStep.right c l pid :: p2)).head? := by
          rw [(hinv.chain pid hpid_mem).1, hLold, hsplit, hQform]
          exact succIn_append hpid_notin_left
        have hid_notin_Q : s.nextId ∉ after (PathStep.right c l pid :: p2) :=
          fun hm => hfresh_notin (List.mem_append.mpr (Or.inr hm))
        have hidpid : s.nextId ≠ pid := by
          intro h
          have := hinv.fresh pid hpid_mem
          omega
        obtain ⟨hup1, hup2⟩ := @insertRight_updates pid s.nextId s.nxt s.prv
          (before (PathStep.right c l pid :: p2))
          (after (PathStep.right c l pid :: p2)) hnext hPlast hid_notin_Q hidpid
          (by rw [hQform]; exact hpid_notin_Q)
        have hatt : attachAt k (PathStep.right c l pid :: p2) s =
            some { root := t', val := vupd s.val s.nextId k,
                   nxt := (insertRight pid s.nextId s.nxt s.prv).1,
                   prv := (insertRight pid s.nextId s.nxt s.prv).2,
                   nextId := s.nextId + 1 } := by
          simp only [attachAt, framePid, hrep, if_neg hncmp]
        refine ⟨_, hatt, ⟨hcol', hro', hbal', by rw [hioL]; exact hnd',
          fun a ha => hfreshIn a (hioL ▸ ha), ?_⟩, hioL, rfl, rfl⟩
        show chainOk (insertRight pid s.nextId s.nxt s.prv).1
          (insertRight pid s.nextId s.nxt s.prv).2 (inorderIds t')
        rw [hioL]
        exact chain_upd_insert hnd' hchainolds hup1 hup2

theorem insert_inv {k : Int} {s : TreeSt} (hinv : Inv s) :
    ∃ s', insert k s = some s' ∧ Inv s' := by
  obtain ⟨hp, hs⟩ := bisectRightZ_spec k s.val s.root []
  have hside : bisectRightZ k s.val s.root [] = [] ∨
      ∃ st p2, bisectRightZ k s.val s.root [] = st :: p2 ∧ sideOk k s.val st := by
    rcases hs with ⟨hpe, _⟩ | hs
    · exact Or.inl hpe
    · exact Or.inr hs
  obtain ⟨s', hatt, hinv', _, _, _⟩ := attachAt_inv hinv hp hside
  exact ⟨s', hatt, hinv'⟩

theorem findOrInsert_inv {k : Int} {s : TreeSt} (hinv : Inv s) :
    ∃ s', findOrInsert k s = some s' ∧ Inv s' := by
  cases hfb : findOrBisect k s.val s.root [] with
  | inl fid =>
      refine ⟨s, ?_, hinv⟩
      simp only [findOrInsert, hfb]
  | inr p =>
      obtain ⟨hp, hs⟩ := findOrBisect_inr k s.val s.root [] p hfb
      have hside : p = [] ∨ ∃ st p2, p = st :: p2 ∧ sideOk k s.val st := by
        rcases hs with ⟨hpe, _⟩ | hs
        · exact Or.inl hpe
        · exact Or.inr hs
      obtain ⟨s', hatt, hinv', _, _, _⟩ := attachAt_inv hinv hp hside
      refine ⟨s', ?_, hinv'⟩
      simp only [findOrInsert, hfb]
      exact hatt

theorem insertUnique_inv {k : Int} {s : TreeSt} (hinv : Inv s) :
    ∃ s', insertUnique k s = some s' ∧ Inv s' := by
  cases hfb : findOrBisect k s.val s.root [] with
  | inl fid =>
      refine ⟨{ s with val := vupd s.val fid k }, ?_, ?_⟩
      · simp only [insertUnique, hfb]
      · exact ⟨hinv.rootB, hinv.rOk, hinv.bal, hinv.nodup, hinv.fresh, hinv.chain⟩
  | inr p =>
      obtain ⟨hp, hs⟩ := findOrBisect_inr k s.val s.root [] p hfb
      have hside : p = [] ∨ ∃ st p2, p = st :: p2 ∧ sideOk k s.val st := by
        rcases hs with ⟨hpe, _⟩ | hs
        · exact Or.inl hpe
        · exact Or.inr hs
      obtain ⟨s', hatt, hinv', _, _, _⟩ := attachAt_inv hinv hp hside
      refine ⟨s', ?_, hinv'⟩
      simp only [insertUnique, hfb]
      exact hatt

theorem lastBlack_cons_of {st : PathStep} {rest : Path} (hc : frameColor st = .black)
    (hlb : lastBlack rest) : lastBlack (st :: rest) := by
  cases rest with
  | nil => exact hc
  | cons st2 rest2 => exact hlb

theorem getMinZ_spec : ∀ (t : RBT) (p : Path), t ≠ .nil →
    ∃ mc mid mr mp, getMinZ t p = (.node mc .nil mid mr, mp) ∧
      plug (.node mc .nil mid mr) mp = plug t p ∧ before mp = before p := by
  intro t
  induction t with
  | nil => intro p h; exact absurd rfl h
  | node c l id r ihl ihr =>
      intro p _
      cases hl : l with
      | nil =>
          exact ⟨c, id, r, p, by rw [getMinZ], rfl, rfl⟩
      | node lc ll lid lr =>
          have he : getMinZ (RBT.node c (RBT.node lc ll lid lr) id r) p =
              getMinZ (RBT.node lc ll lid lr) (.left c id r :: p) := by
            rw [getMinZ]
            simp
          obtain ⟨mc, mid, mr, mp, h1, h2, h3⟩ :=
            (hl ▸ ihl) (.left c id r :: p) (by simp)
          exact ⟨mc, mid, mr, mp, by rw [he]; exact h1, by rw [h2]; rfl, h3⟩

theorem delLeftFix_spec {t : RBT} {pc : Color} {pid : Nat} {sib : RBT} {n : Nat}
    (hb : Balanced t n) (hr : RedOk t) (hct : colorOf t = .black)
    (hsb : Balanced sib (n + 1)) (hsr : RedOk sib) (hsc : colorOf sib = .black) :
    (∃ sub, delLeftFix t pc pid sib = .up sub ∧ colorOf sub = pc ∧
       Balanced (setBlack sub) (n + 1) ∧ RedOk (setBlack sub) ∧
       (pc = .black → sub = setBlack sub) ∧
       inorderIds sub = inorderIds t ++ pid :: inorderIds sib) ∨
    (∃ sub, delLeftFix t pc pid sib = .done sub ∧ colorOf sub = pc ∧
       Balanced sub (n + 1 + (if pc = .black then 1 else 0)) ∧ RedOk sub ∧
       inorderIds sub = inorderIds t ++ pid :: inorderIds sib) := by
  cases sib with
  | nil => exact absurd hsb (by intro h; cases h)
  | node sc sl sid sr =>
      have hsc' : sc = .black := hsc
      subst hsc'
      obtain ⟨hbsl, hbsr⟩ : Balanced sl n ∧ Balanced sr n := by
        cases hsb with
        | black h1 h2 => exact ⟨h1, h2⟩
      have hrsl : RedOk sl := by cases hsr with | node h1 _ _ => exact h1
      have hrsr : RedOk sr := by cases hsr with | node _ h2 _ => exact h2
      cases hslr : isRed sr with
      | false =>
          cases hsll : isRed sl with
          | false =>
              -- delete case 1
              refine Or.inl ⟨.node pc t pid (.node .red sl sid sr), ?_, rfl, ?_, ?_, ?_, ?_⟩
              · simp [delLeftFix, hslr, hsll]
              · exact Balanced.black hb (Balanced.red hbsl hbsr)
              · exact RedOk.node hr
                  (RedOk.node hrsl hrsr
                    (fun _ => ⟨isRed_false_colorOf hsll, isRed_false_colorOf hslr⟩))
                  (fun h => by simp at h)
              · intro hpc
                rw [hpc]
                rfl
              · simp [inorderIds]
          | true =>
              -- delete case 5 then 6
              cases sl with
              | nil => simp [isRed] at hsll
              | node slc sll slid slr =>
                  have hslc : slc = .red := by
                    cases slc with
                    | red => rfl
                    | black => simp [isRed] at hsll
                  subst hslc
                  obtain ⟨hbsll, hbslr⟩ : Balanced sll n ∧ Balanced slr n := by
                    cases hbsl with
                    | red h1 h2 => exact ⟨h1, h2⟩
                  have hrsll : RedOk sll := by cases hrsl with | node h1 _ _ => exact h1
                  have hrslr : RedOk slr := by cases hrsl with | node _ h2 _ => exact h2
                  obtain ⟨hcsll, hcslr⟩ :
                      colorOf sll = .black ∧ colorOf slr = .black := by
                    cases hrsl with
                    | node _ _ hcc => exact hcc rfl
                  refine Or.inr ⟨.node pc (.node .black t pid sll) slid
                    (.node .black slr sid sr), ?_, rfl, ?_, ?_, ?_⟩
                  · simp [delLeftFix, hslr, hsll]
                  · cases pc with
                    | red =>
                        simpa using Balanced.red (Balanced.black hb hbsll)
                          (Balanced.black hbslr hbsr)
                    | black =>
                        simpa using Balanced.black (Balanced.black hb hbsll)
                          (Balanced.black hbslr hbsr)
                  · exact RedOk.node
                      (RedOk.node hr hrsll (fun h => by simp at h))
                      (RedOk.node hrslr hrsr (fun h => by simp at h))
                      (fun _ => ⟨rfl, rfl⟩)
                  · simp [inorderIds, List.append_assoc]
      | true =>
          cases hsll : isRed sl with
          | true =>
              -- sl red takes priority: delete case 5 then 6
              cases sl with
              | nil => simp [isRed] at hsll
              | node slc sll slid slr =>
                  have hslc : slc = .red := by
                    cases slc with
                    | red => rfl
                    | black => simp [isRed] at hsll
                  subst hslc
                  obtain ⟨hbsll, hbslr⟩ : Balanced sll n ∧ Balanced slr n := by
                    cases hbsl with
                    | red h1 h2 => exact ⟨h1, h2⟩
                  have hrsll : RedOk sll := by cases hrsl with | node h1 _ _ => exact h1
                  have hrslr : RedOk slr := by cases hrsl with | node _ h2 _ => exact h2
                  refine Or.inr ⟨.node pc (.node .black t pid sll) slid
                    (.node .black slr sid sr), ?_, rfl, ?_, ?_, ?_⟩
                  · simp [delLeftFix, hslr, hsll]
                  · cases pc with
                    | red =>
                        simpa using Balanced.red (Balanced.black hb hbsll)
                          (Balanced.black hbslr hbsr)
                    | black =>
                        simpa using Balanced.black (Balanced.black hb hbsll)
                          (Balanced.black hbslr hbsr)
                  · exact RedOk.node
                      (RedOk.node hr hrsll (fun h => by simp at h))
                      (RedOk.node hrslr hrsr (fun h => by simp at h))
                      (fun _ => ⟨rfl, rfl⟩)
                  · simp [inorderIds, List.append_assoc]
          | false =>
              -- delete case 6 directly
              refine Or.inr ⟨.node pc (.node .black t pid sl) sid (setBlack sr),
                ?_, rfl, ?_, ?_, ?_⟩
              · simp [delLeftFix, hslr, hsll]
              · have hbsr' : Balanced (setBlack sr) (n + 1) :=
                  balanced_setBlack_red (isRed_true_colorOf hslr) hbsr
                cases pc with
                | red => simpa using Balanced.red (Balanced.black hb hbsl) hbsr'
                | black => simpa using Balanced.black (Balanced.black hb hbsl) hbsr'
              · exact RedOk.node
                  (RedOk.node hr hrsl (fun h => by simp at h))
                  (redOk_setBlack hrsr)
                  (fun _ => ⟨rfl, colorOf_setBlack sr⟩)
              · simp [inorderIds, inorder_setBlack, List.append_assoc]

theorem delRightFix_spec {t : RBT} {pc : Color} {pid : Nat} {sib : RBT} {n : Nat}
    (hb : Balanced t n) (hr : RedOk t) (hct : colorOf t = .black)
    (hsb : Balanced sib (n + 1)) (hsr : RedOk sib) (hsc : colorOf sib = .black) :
    (∃ sub, delRightFix t pc pid sib = .up sub ∧ colorOf sub = pc ∧
       Balanced (setBlack sub) (n + 1) ∧ RedOk (setBlack sub) ∧
       (pc = .black → sub = setBlack sub) ∧
       inorderIds sub = inorderIds sib ++ pid :: inorderIds t) ∨
    (∃ sub, delRightFix t pc pid sib = .done sub ∧ colorOf sub = pc ∧
       Balanced sub (n + 1 + (if pc = .black then 1 else 0)) ∧ RedOk sub ∧
       inorderIds sub = inorderIds sib ++ pid :: inorderIds t) := by
  cases sib with
  | nil => exact absurd hsb (by intro h; cases h)
  | node sc sl sid sr =>
      have hsc' : sc = .black := hsc
      subst hsc'
      obtain ⟨hbsl, hbsr⟩ : Balanced sl n ∧ Balanced sr n := by
        cases hsb with
        | black h1 h2 => exact ⟨h1, h2⟩
      have hrsl : RedOk sl := by cases hsr with | node h1 _ _ => exact h1
      have hrsr : RedOk sr := by cases hsr with | node _ h2 _ => exact h2
      cases hsll : isRed sl with
      | false =>
          cases hslr : isRed sr with
          | false =>
              refine Or.inl ⟨.node pc (.node .red sl sid sr) pid t, ?_, rfl, ?_, ?_, ?_, ?_⟩
              · simp [delRightFix, hslr, hsll]
              · exact Balanced.black (Balanced.red hbsl hbsr) hb
              · exact RedOk.node
                  (RedOk.node hrsl hrsr
                    (fun _ => ⟨isRed_false_colorOf hsll, isRed_false_colorOf hslr⟩))
                  hr (fun h => by simp at h)
              · intro hpc
                rw [hpc]
                rfl
              · simp [inorderIds]
          | true =>
              cases sr with
              | nil => simp [isRed] at hslr
              | node src srl srid srr =>
                  have hsrc : src = .red := by
                    cases src with
                    | red => rfl
                    | black => simp [isRed] at hslr
                  subst hsrc
                  obtain ⟨hbsrl, hbsrr⟩ : Balanced srl n ∧ Balanced srr n := by
                    cases hbsr with
                    | red h1 h2 => exact ⟨h1, h2⟩
                  have hrsrl : RedOk srl := by cases hrsr with | node h1 _ _ => exact h1
                  have hrsrr : RedOk srr := by cases hrsr with | node _ h2 _ => exact h2
                  refine Or.inr ⟨.node pc (.node .black sl sid srl) srid
                    (.node .black srr pid t), ?_, rfl, ?_, ?_, ?_⟩
                  · simp [delRightFix, hslr, hsll]
                  · cases pc with
                    | red =>
                        simpa using Balanced.red (Balanced.black hbsl hbsrl)
                          (Balanced.black hbsrr hb)
                    | black =>
                        simpa using Balanced.black (Balanced.black hbsl hbsrl)
                          (Balanced.black hbsrr hb)
                  · exact RedOk.node
                      (RedOk.node hrsl hrsrl (fun h => by simp at h))
                      (RedOk.node hrsrr hr (fun h => by simp at h))
                      (fun _ => ⟨rfl, rfl⟩)
                  · simp [inorderIds, List.append_assoc]
      | true =>
          cases hslr : isRed sr with
          | true =>
              cases sr with
              | nil => simp [isRed] at hslr
              | node src srl srid srr =>
                  have hsrc : src = .red := by
                    cases src with
                    | red => rfl
                    | black => simp [isRed] at hslr
                  subst hsrc
                  obtain ⟨hbsrl, hbsrr⟩ : Balanced srl n ∧ Balanced srr n := by
                    cases hbsr with
                    | red h1 h2 => exact ⟨h1, h2⟩
                  have hrsrl : RedOk srl := by cases hrsr with | node h1 _ _ => exact h1
                  have hrsrr : RedOk srr := by cases hrsr with | node _ h2 _ => exact h2
                  refine Or.inr ⟨.node pc (.node .black sl sid srl) srid
                    (.node .black srr pid t), ?_, rfl, ?_, ?_, ?_⟩
                  · simp [delRightFix, hslr, hsll]
                  · cases pc with
                    | red =>
                        simpa using Balanced.red (Balanced.black hbsl hbsrl)
                          (Balanced.black hbsrr hb)
                    | black =>
                        simpa using Balanced.black (Balanced.black hbsl hbsrl)
                          (Balanced.black hbsrr hb)
                  · exact RedOk.node
                      (RedOk.node hrsl hrsrl (fun h => by simp at h))
                      (RedOk.node hrsrr hr (fun h => by simp at h))
                      (fun _ => ⟨rfl, rfl⟩)
                  · simp [inorderIds, List.append_assoc]
          | false =>
              refine Or.inr ⟨.node pc (setBlack sl) sid (.node .black sr pid t),
                ?_, rfl, ?_, ?_, ?_⟩
              · simp [delRightFix, hslr, hsll]
              · have hbsl' : Balanced (setBlack sl) (n + 1) :=
                  balanced_setBlack_red (isRed_true_colorOf hsll) hbsl
                cases pc with
                | red => simpa using Balanced.red hbsl' (Balanced.black hbsr hb)
                | black => simpa using Balanced.black hbsl' (Balanced.black hbsr hb)
              · exact RedOk.node (redOk_setBlack hrsl)
                  (RedOk.node hrsr hr (fun h => by simp at h))
                  (fun _ => ⟨colorOf_setBlack sl, rfl⟩)
              · simp [inorderIds, inorder_setBlack, List.append_assoc]

theorem balanced_ne_nil {t : RBT} {m : Nat} (hb : Balanced t (m + 1)) : t ≠ .nil := by
  intro h
  subst h
  cases hb

theorem isRed_of_colorOf_red {t : RBT} (h : colorOf t = .red) : isRed t = true := by
  cases t with
  | nil => simp [colorOf] at h
  | node c l id r =>
      cases c with
      | red => rfl
      | black => simp [colorOf] at h

theorem repairRemoved_nil_ok {t : RBT} {n : Nat} (hb : Balanced t n) (hr : RedOk t) :
    ∃ t', repairRemoved t [] = some t' ∧ (∃ N, Balanced t' N) ∧ RedOk t' ∧
      colorOf t' = .black ∧ inorderIds t' = inorderIds (plug t []) := by
  cases t with
  | nil =>
      refine ⟨.nil, ?_, ⟨0, Balanced.nil⟩, RedOk.nil, rfl, rfl⟩
      rw [repairRemoved.eq_def]
  | node c l id r =>
      refine ⟨setBlack (.node c l id r), ?_, ?_, redOk_setBlack hr,
        colorOf_setBlack _, inorder_setBlack _⟩
      · rw [repairRemoved.eq_def]
      · cases hb with
        | red h1 h2 => exact ⟨_, Balanced.black h1 h2⟩
        | black h1 h2 => exact ⟨_, Balanced.black h1 h2⟩

/-- `Impl::repairRemoved` success and correctness: plugging a
replacement subtree that is one black short of its slot (the evicted
node was black), under the path facts a valid tree provides, the loop
terminates with a valid black-rooted tree holding exactly the nodes of
the plugged tree, in order. -/
theorem repairRemoved_ok : ∀ (L : Nat) (p : Path), p.length ≤ L → ∀ (t : RBT) (n : Nat),
    PathInv p (n + 1) → Balanced t n → RedOk t → lastBlack p →
    ∃ t', repairRemoved t p = some t' ∧ (∃ N, Balanced t' N) ∧ RedOk t' ∧
      colorOf t' = .black ∧ inorderIds t' = inorderIds (plug t p) := by
  intro L
  induction L with
  | zero =>
      intro p hlen t n _ hb hr _
      have hp : p = [] := List.length_eq_zero.mp (Nat.le_zero.mp hlen)
      subst hp
      exact repairRemoved_nil_ok hb hr
  | succ L ih =>
      intro p hlen t n hpi hb hr hlb
      cases p with
      | nil => exact repairRemoved_nil_ok hb hr
      | cons pf rest =>
          have hlbrest : lastBlack rest := lastBlack_cons hlb
          have hlenrest : rest.length ≤ L := by
            simp [List.length_cons] at hlen
            omega
          cases hred : isRed t with
          | true =>
              have he : repairRemoved t (pf :: rest) =
                  some (plug (setBlack t) (pf :: rest)) := by
                rw [repairRemoved.eq_def]
                simp [hred]
              have hpr := plug_rb (pf :: rest) (setBlack t) (n + 1) hpi
                (balanced_setBlack_red (isRed_true_colorOf hred) hb)
                (redOk_setBlack hr)
                (fun h => absurd (colorOf_setBlack t ▸ h) (by simp))
              refine ⟨_, he, ⟨_, hpr.1⟩, hpr.2, ?_, ?_⟩
              · exact plug_colorOf_lastBlack _ _ hlb (fun h => List.noConfusion h)
              · rw [inorder_plug, inorder_plug, inorder_setBlack]
          | false =>
              have hct : colorOf t = .black := isRed_false_colorOf hred
              cases pf with
              | left pc pid sib =>
                  obtain ⟨hsr, hsb, hredc, hpi2⟩ := hpi
                  cases hsibred : isRed sib with
                  | true =>
                      obtain ⟨sl, sid, sr, hsibeq⟩ : ∃ sl sid sr,
                          sib = .node .red sl sid sr := by
                        cases sib with
                        | nil => simp [isRed] at hsibred
                        | node sc sl sid sr =>
                            cases sc with
                            | red => exact ⟨sl, sid, sr, rfl⟩
                            | black => simp [isRed] at hsibred
                      subst hsibeq
                      have hpc : pc = .black := by
                        cases pc with
                        | black => rfl
                        | red =>
                            have := (hredc rfl).2
                            simp [colorOf, frameSib] at this
                      subst hpc
                      obtain ⟨hbsl, hbsr⟩ :
                          Balanced sl (n + 1) ∧ Balanced sr (n + 1) := by
                        cases hsb with
                        | red h1 h2 => exact ⟨h1, h2⟩
                      have hrsl : RedOk sl := by cases hsr with | node h1 _ _ => exact h1
                      have hrsr : RedOk sr := by cases hsr with | node _ h2 _ => exact h2
                      obtain ⟨hcsl, hcsr⟩ : colorOf sl = .black ∧ colorOf sr = .black := by
                        cases hsr with
                        | node _ _ hcc => exact hcc rfl
                      have hpi2' : PathInv rest (n + 1 + 1) := by
                        simpa [frameColor] using hpi2
                      have hctx : PathInv (PathStep.left .black sid sr :: rest) (n + 1) :=
                        ⟨hrsr, hbsr, fun h => absurd h (by simp [frameColor]),
                          by simpa [frameColor] using hpi2'⟩
                      have hlbctx : lastBlack (PathStep.left .black sid sr :: rest) :=
                        lastBlack_cons_of rfl hlbrest
                      rcases @delLeftFix_spec _ .red pid _ _
                          hb hr hct hbsl hrsl hcsl with
                        ⟨sub, hfix, hcsub, hbsub, hrsub, _, hiosub⟩ |
                        ⟨sub, hfix, hcsub, hbsub, hrsub, hiosub⟩
                      · have he : repairRemoved t
                            (PathStep.left .black pid (.node .red sl sid sr) :: rest) =
                            some (plug (setBlack sub)
                              (PathStep.left .black sid sr :: rest)) := by
                          rw [repairRemoved.eq_def]
                          simp [hred, hfix]
                        have hpr := plug_rb (PathStep.left .black sid sr :: rest)
                          (setBlack sub) (n + 1) hctx hbsub hrsub
                          (fun h => absurd (colorOf_setBlack sub ▸ h) (by simp))
                        refine ⟨_, he, ⟨_, hpr.1⟩, hpr.2, ?_, ?_⟩
                        · exact plug_colorOf_lastBlack _ _ hlbctx
                            (fun h => List.noConfusion h)
                        · rw [inorder_plug, inorder_plug, inorder_setBlack, hiosub]
                          simp [before, after, inorderIds, List.append_assoc]
                      · have he : repairRemoved t
                            (PathStep.left .black pid (.node .red sl sid sr) :: rest) =
                            some (plug sub (PathStep.left .black sid sr :: rest)) := by
                          rw [repairRemoved.eq_def]
                          simp [hred, hfix]
                        have hbsub' : Balanced sub (n + 1) := by
                          simpa using hbsub
                        have hpr := plug_rb (PathStep.left .black sid sr :: rest)
                          sub (n + 1) hctx hbsub' hrsub (fun _ => rfl)
                        refine ⟨_, he, ⟨_, hpr.1⟩, hpr.2, ?_, ?_⟩
                        · exact plug_colorOf_lastBlack _ _ hlbctx
                            (fun h => List.noConfusion h)
                        · rw [inorder_plug, inorder_plug, hiosub]
                          simp [before, after, inorderIds, List.append_assoc]
                  | false =>
                      have hscb : colorOf sib = .black := isRed_false_colorOf hsibred
                      obtain ⟨sl, sid, sr, hsibeq⟩ : ∃ sl sid sr,
                          sib = .node .black sl sid sr := by
                        cases sib with
                        | nil => exact absurd rfl (balanced_ne_nil hsb)
                        | node sc sl sid sr =>
                            cases sc with
                            | red => simp [isRed] at hsibred
                            | black => exact ⟨sl, sid, sr, rfl⟩
                      subst hsibeq
                      have hsb' : Balanced (RBT.node .black sl sid sr) (n + 1) := hsb
                      have hsr' : RedOk (RBT.node .black sl sid sr) := hsr
                      rcases @delLeftFix_spec _ pc pid _ _
                          hb hr hct hsb' hsr' rfl with
                        ⟨sub, hfix, hcsub, hbsub, hrsub, hsubeq, hiosub⟩ |
                        ⟨sub, hfix, hcsub, hbsub, hrsub, hiosub⟩
                      · cases rest with
                        | nil =>
                            have hpc : pc = .black := hlb
                            have he : repairRemoved t
                                [PathStep.left pc pid (.node .black sl sid sr)] =
                                some sub := by
                              rw [repairRemoved.eq_def]
                              simp [hred, hfix]
                            have hsubB := hsubeq hpc
                            refine ⟨sub, he, ⟨n + 1, hsubB ▸ hbsub⟩,
                              hsubB ▸ hrsub, by rw [hcsub, hpc], ?_⟩
                            rw [hiosub, inorder_plug]
                            simp [before, after, inorderIds]
                        | cons st2 rest2 =>
                            cases hpc : pc with
                            | black =>
                                subst hpc
                                have hsubB := hsubeq rfl
                                have hpi2' : PathInv (st2 :: rest2) (n + 1 + 1) := by
                                  simpa [frameColor] using hpi2
                                obtain ⟨t'', ht'', hb'', hr'', hc'', hio''⟩ :=
                                  ih (st2 :: rest2) hlenrest sub (n + 1) hpi2'
                                    (hsubB ▸ hbsub) (hsubB ▸ hrsub) hlbrest
                                have he : repairRemoved t
                                    (PathStep.left .black pid (.node .black sl sid sr) ::
                                      st2 :: rest2) = repairRemoved sub (st2 :: rest2) := by
                                  rw [repairRemoved.eq_def]
                                  simp [hred, hfix]
                                refine ⟨t'', by rw [he]; exact ht'', hb'', hr'', hc'', ?_⟩
                                rw [hio'', inorder_plug, inorder_plug, hiosub]
                                simp [before, after, inorderIds, List.append_assoc]
                            | red =>
                                subst hpc
                                have hsubred : isRed sub = true :=
                                  isRed_of_colorOf_red hcsub
                                have he : repairRemoved t
                                    (PathStep.left .red pid (.node .black sl sid sr) ::
                                      st2 :: rest2) =
                                    some (plug (setBlack sub) (st2 :: rest2)) := by
                                  rw [repairRemoved.eq_def]
                                  simp [hred, hfix]
                                  rw [repairRemoved.eq_def]
                                  simp [hsubred]
                                have hpi2' : PathInv (st2 :: rest2) (n + 1) := by
                                  simpa [frameColor] using hpi2
                                have hpr := plug_rb (st2 :: rest2) (setBlack sub)
                                  (n + 1) hpi2' hbsub hrsub
                                  (fun h => absurd (colorOf_setBlack sub ▸ h) (by simp))
                                refine ⟨_, he, ⟨_, hpr.1⟩, hpr.2, ?_, ?_⟩
                                · exact plug_colorOf_lastBlack _ _ hlbrest
                                    (fun h => List.noConfusion h)
                                · rw [inorder_plug, inorder_plug, inorder_setBlack, hiosub]
                                  simp [before, after, inorderIds, List.append_assoc]
                      · have he : repairRemoved t
                            (PathStep.left pc pid (.node .black sl sid sr) :: rest) =
                            some (plug sub rest) := by
                          rw [repairRemoved.eq_def]
                          simp [hred, hfix]
                        have hpr := plug_rb rest sub (n + 1 +
                            (if pc = .black then 1 else 0)) hpi2
                          hbsub hrsub
                          (fun h => by
                            rw [hcsub] at h
                            exact (hredc h).1)
                        refine ⟨_, he, ⟨_, hpr.1⟩, hpr.2, ?_, ?_⟩
                        · refine plug_colorOf_lastBlack _ _ hlbrest ?_
                          intro hre
                          subst hre
                          rw [hcsub]
                          exact hlb
                        · rw [inorder_plug, inorder_plug, hiosub]
                          simp [before, after, inorderIds, List.append_assoc]
              | right pc sib pid =>
                  obtain ⟨hsr, hsb, hredc, hpi2⟩ := hpi
                  cases hsibred : isRed sib with
                  | true =>
                      obtain ⟨sl, sid, sr, hsibeq⟩ : ∃ sl sid sr,
                          sib = .node .red sl sid sr := by
                        cases sib with
                        | nil => simp [isRed] at hsibred
                        | node sc sl sid sr =>
                            cases sc with
                            | red => exact ⟨sl, sid, sr, rfl⟩
                            | black => simp [isRed] at hsibred
                      subst hsibeq
                      have hpc : pc = .black := by
                        cases pc with
                        | black => rfl
                        | red =>
                            have := (hredc rfl).2
                            simp [colorOf, frameSib] at this
                      subst hpc
                      obtain ⟨hbsl, hbsr⟩ :
                          Balanced sl (n + 1) ∧ Balanced sr (n + 1) := by
                        cases hsb with
                        | red h1 h2 => exact ⟨h1, h2⟩
                      have hrsl : RedOk sl := by cases hsr with | node h1 _ _ => exact h1
                      have hrsr : RedOk sr := by cases hsr with | node _ h2 _ => exact h2
                      obtain ⟨hcsl, hcsr⟩ : colorOf sl = .black ∧ colorOf sr = .black := by
                        cases hsr with
                        | node _ _ hcc => exact hcc rfl
                      have hpi2' : PathInv rest (n + 1 + 1) := by
                        simpa [frameColor] using hpi2
                      have hctx : PathInv (PathStep.right .black sl sid :: rest) (n + 1) :=
                        ⟨hrsl, hbsl, fun h => absurd h (by simp [frameColor]),
                          by simpa [frameColor] using hpi2'⟩
                      have hlbctx : lastBlack (PathStep.right .black sl sid :: rest) :=
                        lastBlack_cons_of rfl hlbrest
                      rcases @delRightFix_spec _ .red pid _ _
                          hb hr hct hbsr hrsr hcsr with
                        ⟨sub, hfix, hcsub, hbsub, hrsub, _, hiosub⟩ |
                        ⟨sub, hfix, hcsub, hbsub, hrsub, hiosub⟩
                      · have he : repairRemoved t
                            (PathStep.right .black (.node .red sl sid sr) pid :: rest) =
                            some (plug (setBlack sub)
                              (PathStep.right .black sl sid :: rest)) := by
                          rw [repairRemoved.eq_def]
                          simp [hred, hfix]
                        have hpr := plug_rb (PathStep.right .black sl sid :: rest)
                          (setBlack sub) (n + 1) hctx hbsub hrsub
                          (fun h => absurd (colorOf_setBlack sub ▸ h) (by simp))
                        refine ⟨_, he, ⟨_, hpr.1⟩, hpr.2, ?_, ?_⟩
                        · exact plug_colorOf_lastBlack _ _ hlbctx
                            (fun h => List.noConfusion h)
                        · rw [inorder_plug, inorder_plug, inorder_setBlack, hiosub]
                          simp [before, after, inorderIds, List.append_assoc]
                      · have he : repairRemoved t
                            (PathStep.right .black (.node .red sl sid sr) pid :: rest) =
                            some (plug sub (PathStep.right .black sl sid :: rest)) := by
                          rw [repairRemoved.eq_def]
                          simp [hred, hfix]
                        have hbsub' : Balanced sub (n + 1) := by
                          simpa using hbsub
                        have hpr := plug_rb (PathStep.right .black sl sid :: rest)
                          sub (n + 1) hctx hbsub' hrsub (fun _ => rfl)
                        refine ⟨_, he, ⟨_, hpr.1⟩, hpr.2, ?_, ?_⟩
                        · exact plug_colorOf_lastBlack _ _ hlbctx
                            (fun h => List.noConfusion h)
                        · rw [inorder_plug, inorder_plug, hiosub]
                          simp [before, after, inorderIds, List.append_assoc]
                  | false =>
                      have hscb : colorOf sib = .black := isRed_false_colorOf hsibred
                      obtain ⟨sl, sid, sr, hsibeq⟩ : ∃ sl sid sr,
                          sib = .node .black sl sid sr := by
                        cases sib with
                        | nil => exact absurd rfl (balanced_ne_nil hsb)
                        | node sc sl sid sr =>
                            cases sc with
                            | red => simp [isRed] at hsibred
                            | black => exact ⟨sl, sid, sr, rfl⟩
                      subst hsibeq
                      have hsb' : Balanced (RBT.node .black sl sid sr) (n + 1) := hsb
                      have hsr' : RedOk (RBT.node .black sl sid sr) := hsr
                      rcases @delRightFix_spec _ pc pid _ _
                          hb hr hct hsb' hsr' rfl with
                        ⟨sub, hfix, hcsub, hbsub, hrsub, hsubeq, hiosub⟩ |
                        ⟨sub, hfix, hcsub, hbsub, hrsub, hiosub⟩
                      · cases rest with
                        | nil =>
                            have hpc : pc = .black := hlb
                            have he : repairRemoved t
                                [PathStep.right pc (.node .black sl sid sr) pid] =
                                some sub := by
                              rw [repairRemoved.eq_def]
                              simp [hred, hfix]
                            have hsubB := hsubeq hpc
                            refine ⟨sub, he, ⟨n + 1, hsubB ▸ hbsub⟩,
                              hsubB ▸ hrsub, by rw [hcsub, hpc], ?_⟩
                            rw [hiosub, inorder_plug]
                            simp [before, after, inorderIds]
                        | cons st2 rest2 =>
                            cases hpc : pc with
                            | black =>
                                subst hpc
                                have hsubB := hsubeq rfl
                                have hpi2' : PathInv (st2 :: rest2) (n + 1 + 1) := by
                                  simpa [frameColor] using hpi2
                                obtain ⟨t'', ht'', hb'', hr'', hc'', hio''⟩ :=
                                  ih (st2 :: rest2) hlenrest sub (n + 1) hpi2'
                                    (hsubB ▸ hbsub) (hsubB ▸ hrsub) hlbrest
                                have he : repairRemoved t
                                    (PathStep.right .black (.node .black sl sid sr) pid ::
                                      st2 :: rest2) = repairRemoved sub (st2 :: rest2) := by
                                  rw [repairRemoved.eq_def]
                                  simp [hred, hfix]
                                refine ⟨t'', by rw [he]; exact ht'', hb'', hr'', hc'', ?_⟩
                                rw [hio'', inorder_plug, inorder_plug, hiosub]
                                simp [before, after, inorderIds, List.append_assoc]
                            | red =>
                                subst hpc
                                have hsubred : isRed sub = true :=
                                  isRed_of_colorOf_red hcsub
                                have he : repairRemoved t
                                    (PathStep.right .red (.node .black sl sid sr) pid ::
                                      st2 :: rest2) =
                                    some (plug (setBlack sub) (st2 :: rest2)) := by
                                  rw [repairRemoved.eq_def]
                                  simp [hred, hfix]
                                  rw [repairRemoved.eq_def]
                                  simp [hsubred]
                                have hpi2' : PathInv (st2 :: rest2) (n + 1) := by
                                  simpa [frameColor] using hpi2
                                have hpr := plug_rb (st2 :: rest2) (setBlack sub)
                                  (n + 1) hpi2' hbsub hrsub
                                  (fun h => absurd (colorOf_setBlack sub ▸ h) (by simp))
                                refine ⟨_, he, ⟨_, hpr.1⟩, hpr.2, ?_, ?_⟩
                                · exact plug_colorOf_lastBlack _ _ hlbrest
                                    (fun h => List.noConfusion h)
                                · rw [inorder_plug, inorder_plug, inorder_setBlack, hiosub]
                                  simp [before, after, inorderIds, List.append_assoc]
                      · have he : repairRemoved t
                            (PathStep.right pc (.node .black sl sid sr) pid :: rest) =
                            some (plug sub rest) := by
                          rw [repairRemoved.eq_def]
                          simp [hred, hfix]
                        have hpr := plug_rb rest sub (n + 1 +
                            (if pc = .black then 1 else 0)) hpi2
                          hbsub hrsub
                          (fun h => by
                            rw [hcsub] at h
                            exact (hredc h).1)
                        refine ⟨_, he, ⟨_, hpr.1⟩, hpr.2, ?_, ?_⟩
                        · refine plug_colorOf_lastBlack _ _ hlbrest ?_
                          intro hre
                          subst hre
                          rw [hcsub]
                          exact hlb
                        · rw [inorder_plug, inorder_plug, hiosub]
                          simp [before, after, inorderIds, List.append_assoc]

/-- A well-colored subtree of black height 0 is empty or a lone red
node. -/
theorem balanced0_shape {t : RBT} (hb : Balanced t 0) (hr : RedOk t) :
    t = .nil ∨ ∃ i, t = .node .red .nil i .nil := by
  cases t with
  | nil => exact Or.inl rfl
  | node c l id r =>
      cases c with
      | black => cases hb
      | red =>
          obtain ⟨hbl, hbr⟩ : Balanced l 0 ∧ Balanced r 0 := by
            cases hb with
            | red h1 h2 => exact ⟨h1, h2⟩
          obtain ⟨hcl, hcr⟩ : colorOf l = .black ∧ colorOf r = .black := by
            cases hr with
            | node _ _ hcc => exact hcc rfl
          have hl : l = .nil := by
            cases l with
            | nil => rfl
            | node lc _ _ _ =>
                cases lc with
                | red => simp [colorOf] at hcl
                | black => cases hbl
          have hrr : r = .nil := by
            cases r with
            | nil => rfl
            | node rc _ _ _ =>
                cases rc with
                | red => simp [colorOf] at hcr
                | black => cases hbr
          exact Or.inr ⟨id, by rw [hl, hrr]⟩

/-- A node with at most one child in a valid red-black tree is either a
red leaf, or black of black height 1 (so the lone child, if any, is a
red leaf). -/
theorem single_child_shape {tc : Color} {tl : RBT} {tid : Nat} {tr : RBT} {n : Nat}
    (hb : Balanced (.node tc tl tid tr) n) (hr : RedOk (.node tc tl tid tr))
    (hone : tl = .nil ∨ tr = .nil) :
    (tc = .red ∧ tl = .nil ∧ tr = .nil ∧ n = 0) ∨
    (tc = .black ∧ n = 1 ∧ Balanced tl 0 ∧ Balanced tr 0) := by
  obtain ⟨hcl, hcr⟩ : RedOk tl ∧ RedOk tr := by
    cases hr with
    | node h1 h2 _ => exact ⟨h1, h2⟩
  cases tc with
  | red =>
      obtain ⟨hbl, hbr⟩ : Balanced tl n ∧ Balanced tr n := by
        cases hb with
        | red h1 h2 => exact ⟨h1, h2⟩
      obtain ⟨hbcl, hbcr⟩ : colorOf tl = .black ∧ colorOf tr = .black := by
        cases hr with
        | node _ _ hcc => exact hcc rfl
      have hn : n = 0 := by
        rcases hone with h | h
        · subst h
          cases hbl
          rfl
        · subst h
          cases hbr
          rfl
      subst hn
      refine Or.inl ⟨rfl, ?_, ?_, rfl⟩
      · rcases balanced0_shape hbl hcl with h | ⟨i, h⟩
        · exact h
        · rw [h] at hbcl
          simp [colorOf] at hbcl
      · rcases balanced0_shape hbr hcr with h | ⟨i, h⟩
        · exact h
        · rw [h] at hbcr
          simp [colorOf] at hbcr
  | black =>
      obtain ⟨m, hm, hbl, hbr⟩ : ∃ m, n = m + 1 ∧ Balanced tl m ∧ Balanced tr m := by
        cases hb with
        | black h1 h2 => exact ⟨_, rfl, h1, h2⟩
      have hm0 : m = 0 := by
        rcases hone with h | h
        · subst h
          cases hbl
          rfl
        · subst h
          cases hbr
          rfl
      subst hm0
      subst hm
      exact Or.inr ⟨rfl, rfl, hbl, hbr⟩

theorem evictNode_leaf_chain {tid : Nat} {nxt prv : Nat → Option Nat} {P Q : List Nat}
    (hnd : (P ++ tid :: Q).Nodup) (hold : chainOk nxt prv (P ++ tid :: Q))
    (hnxt_tid : nxt tid = Q.head?) (hprv_tid : prv tid = P.getLast?) :
    chainOk (evictNode tid .nil .nil nxt prv).1 (evictNode tid .nil .nil nxt prv).2
      (P ++ Q) := by
  refine chain_upd_remove hnd hold ?_ ?_
  · intro a haid
    show (match prv tid with
      | some q => fupd nxt q (nxt tid)
      | none => nxt) a = _
    rw [hprv_tid, hnxt_tid]
    cases hgl : P.getLast? with
    | none => rw [if_neg (by simp)]
    | some q =>
        show fupd nxt q Q.head? a = _
        by_cases haq : a = q
        · subst haq
          rw [fupd_self, if_pos rfl]
        · rw [fupd_other _ haq, if_neg (by simpa using Ne.symm haq)]
  · intro a haid
    show (match nxt tid with
      | some m => fupd prv m (prv tid)
      | none => prv) a = _
    rw [hnxt_tid, hprv_tid]
    cases hgl : Q.head? with
    | none => rw [if_neg (by simp)]
    | some m =>
        show fupd prv m P.getLast? a = _
        by_cases ham : a = m
        · subst ham
          rw [fupd_self, if_pos rfl]
        · rw [fupd_other _ ham, if_neg (by simpa using Ne.symm ham)]

theorem evictNode_left_chain {tid lid : Nat} {lc : Color} {ll lr tr : RBT}
    {nxt prv : Nat → Option Nat} {P Q : List Nat}
    (hnd : (P ++ tid :: Q).Nodup) (hold : chainOk nxt prv (P ++ tid :: Q))
    (hnxt_tid : nxt tid = Q.head?) (hPlast : P.getLast? = some lid) :
    chainOk (evictNode tid (.node lc ll lid lr) tr nxt prv).1
      (evictNode tid (.node lc ll lid lr) tr nxt prv).2 (P ++ Q) := by
  refine chain_upd_remove hnd hold ?_ ?_
  all_goals intro a haid
  all_goals simp only [evictNode, rootId]
  all_goals rw [hnxt_tid]
  all_goals cases hgl : Q.head? with
  | none =>
      first
      | (show fupd nxt lid none a = _
         rw [hPlast]
         by_cases hal : a = lid
         · subst hal
           rw [fupd_self, if_pos rfl]
         · rw [fupd_other _ hal, if_neg (by simpa using Ne.symm hal)])
      | (show prv a = _
         rw [if_neg (by simp)])
  | some m =>
      first
      | (show fupd nxt lid (some m) a = _
         rw [hPlast]
         by_cases hal : a = lid
         · subst hal
           rw [fupd_self, if_pos rfl]
         · rw [fupd_other _ hal, if_neg (by simpa using Ne.symm hal)])
      | (show fupd prv m (some lid) a = _
         rw [hPlast]
         by_cases ham : a = m
         · subst ham
           rw [fupd_self, if_pos rfl]
         · rw [fupd_other _ ham, if_neg (by simpa using Ne.symm ham)])

theorem evictNode_right_chain {tid rid : Nat} {rc : Color} {rl rr : RBT}
    {nxt prv : Nat → Option Nat} {P Q : List Nat}
    (hnd : (P ++ tid :: Q).Nodup) (hold : chainOk nxt prv (P ++ tid :: Q))
    (hprv_tid : prv tid = P.getLast?) (hQhead : Q.head? = some rid) :
    chainOk (evictNode tid .nil (.node rc rl rid rr) nxt prv).1
      (evictNode tid .nil (.node rc rl rid rr) nxt prv).2 (P ++ Q) := by
  refine chain_upd_remove hnd hold ?_ ?_
  all_goals intro a haid
  all_goals simp only [evictNode, rootId]
  all_goals rw [hprv_tid]
  all_goals cases hgl : P.getLast? with
  | none =>
      first
      | (show nxt a = _
         rw [if_neg (by simp)])
      | (show fupd prv rid none a = _
         rw [hQhead]
         by_cases har : a = rid
         · subst har
           rw [fupd_self, if_pos rfl]
         · rw [fupd_other _ har, if_neg (by simpa using Ne.symm har)])
  | some m =>
      first
      | (show fupd nxt m (some rid) a = _
         rw [hQhead]
         by_cases ham : a = m
         · subst ham
           rw [fupd_self, if_pos rfl]
         · rw [fupd_other _ ham, if_neg (by simpa using Ne.symm ham)])
      | (show fupd prv rid (some m) a = _
         rw [hQhead]
         by_cases har : a = rid
         · subst har
           rw [fupd_self, if_pos rfl]
         · rw [fupd_other _ har, if_neg (by simpa using Ne.symm har)])

/-- Evicting a node with at most one child at a zipper position: the
structural replacement plus `repairRemoved` (for a black node) yield a
valid tree with exactly the remaining nodes in order, and the
`evictNode` chain splice threads the shortened chain.  The splice is
only chain-correct because, in a valid red-black tree, the lone child
of a one-child node is a single red leaf — which the proof derives. -/
theorem removeAt_inv {s : TreeSt} (hinv : Inv s) {tc : Color} {tl : RBT} {tid : Nat}
    {tr : RBT} {p : Path}
    (hplug : plug (.node tc tl tid tr) p = s.root)
    (hone : tl = .nil ∨ tr = .nil) :
    ∃ t', (if isRed (.node tc tl tid tr)
        then some (plug (match tl with | .nil => tr | _ => tl) p)
        else repairRemoved (match tl with | .nil => tr | _ => tl) p) = some t' ∧
      colorOf t' = .black ∧ RedOk t' ∧ (∃ N, Balanced t' N) ∧
      inorderIds t' = (before p ++ inorderIds tl) ++ (inorderIds tr ++ after p) ∧
      (inorderIds t').Nodup ∧
      (∀ a ∈ inorderIds t', a < s.nextId) ∧
      chainOk (evictNode tid tl tr s.nxt s.prv).1 (evictNode tid tl tr s.nxt s.prv).2
        (inorderIds t') := by
  obtain ⟨N, hbN⟩ := hinv.bal
  obtain ⟨n, hbT, hrT, hpi, _, hN⟩ :=
    plug_rb_inv p _ N (hplug ▸ hbN) (hplug ▸ hinv.rOk)
  have hlb : lastBlack p := (lastBlack_of_plug p _ (hplug ▸ hinv.rootB)).1
  have hLsplit : inorderIds s.root =
      (before p ++ inorderIds tl) ++ tid :: (inorderIds tr ++ after p) := by
    rw [← hplug, inorder_plug]
    simp [inorderIds, List.append_assoc]
  have hndL : ((before p ++ inorderIds tl) ++ tid :: (inorderIds tr ++ after p)).Nodup :=
    hLsplit ▸ hinv.nodup
  have hchainL : chainOk s.nxt s.prv
      ((before p ++ inorderIds tl) ++ tid :: (inorderIds tr ++ after p)) :=
    hLsplit ▸ hinv.chain
  have hmidnd := List.nodup_cons.mp (List.nodup_middle.mp hndL)
  have htid_notin : tid ∉ (before p ++ inorderIds tl) ++ (inorderIds tr ++ after p) :=
    hmidnd.1
  have hndPQ : ((before p ++ inorderIds tl) ++ (inorderIds tr ++ after p)).Nodup :=
    hmidnd.2
  have htid_notinP : tid ∉ before p ++ inorderIds tl :=
    fun hm => htid_notin (List.mem_append.mpr (Or.inl hm))
  have htid_notinQ : tid ∉ inorderIds tr ++ after p :=
    fun hm => htid_notin (List.mem_append.mpr (Or.inr hm))
  have htid_mem : tid ∈ inorderIds s.root := by
    rw [hLsplit]
    exact List.mem_append.mpr (Or.inr (List.mem_cons_self _ _))
  have hnxt_tid : s.nxt tid = (inorderIds tr ++ after p).head? := by
    rw [(hinv.chain tid htid_mem).1, hLsplit]
    exact succIn_append htid_notinP
  have hprv_tid : s.prv tid = (before p ++ inorderIds tl).getLast? := by
    rw [(hinv.chain tid htid_mem).2, hLsplit]
    exact predIn_append htid_notinQ
  have hfreshPQ : ∀ a ∈ (before p ++ inorderIds tl) ++ (inorderIds tr ++ after p),
      a < s.nextId := by
    intro a ha
    refine hinv.fresh a ?_
    rw [hLsplit]
    rcases List.mem_append.mp ha with h | h
    · exact List.mem_append.mpr (Or.inl h)
    · exact List.mem_append.mpr (Or.inr (List.mem_cons_of_mem _ h))
  rcases single_child_shape hbT hrT hone with
    ⟨hc, hl, hrr, hn⟩ | ⟨hc, hn, hbtl, hbtr⟩
  · -- red leaf
    subst hc
    subst hl
    subst hrr
    subst hn
    have hpr := plug_rb p .nil 0 hpi Balanced.nil RedOk.nil
      (fun h => by simp [colorOf] at h)
    refine ⟨plug .nil p, by simp [isRed], ?_, hpr.2, ⟨_, hpr.1⟩, ?_, ?_, ?_, ?_⟩
    · exact plug_colorOf_lastBlack _ _ hlb (fun _ => rfl)
    · rw [inorder_plug]
      simp [inorderIds]
    · rw [inorder_plug]
      simpa [inorderIds] using hndPQ
    · intro a ha
      refine hfreshPQ a ?_
      rw [inorder_plug] at ha
      simpa [inorderIds] using ha
    · rw [inorder_plug]
      have := evictNode_leaf_chain hndL hchainL hnxt_tid hprv_tid
      simpa [inorderIds] using this
  · -- black node of black height 1
    subst hc
    have hrtl : RedOk tl := by cases hrT with | node h1 _ _ => exact h1
    have hrtr : RedOk tr := by cases hrT with | node _ h2 _ => exact h2
    have hpi1 : PathInv p (0 + 1) := by
      rw [hn] at hpi
      exact hpi
    rcases balanced0_shape hbtl hrtl with htlnil | ⟨lid, htleq⟩
    · -- left child empty, evict promotes the right child
      subst htlnil
      obtain ⟨t', hrr', hbal', hro', hcol', hio'⟩ :=
        repairRemoved_ok p.length p le_rfl tr 0 hpi1 hbtr hrtr hlb
      have hioPQ : inorderIds t' =
          (before p ++ inorderIds (RBT.nil : RBT)) ++ (inorderIds tr ++ after p) := by
        rw [hio', inorder_plug]
        simp [inorderIds]
      refine ⟨t', ?_, hcol', hro', hbal', hioPQ, by rw [hioPQ]; simpa using hndPQ,
        ?_, ?_⟩
      · simp [isRed]
        exact hrr'
      · intro a ha
        rw [hioPQ] at ha
        exact hfreshPQ a ha
      · rw [hioPQ]
        rcases balanced0_shape hbtr hrtr with htrnil | ⟨rid, htreq⟩
        · subst htrnil
          exact evictNode_leaf_chain hndL hchainL hnxt_tid hprv_tid
        · subst htreq
          exact evictNode_right_chain hndL hchainL hprv_tid rfl
    · -- left child is a single red node, right child must be empty
      subst htleq
      have htrnil : tr = .nil := by
        rcases hone with h | h
        · exact absurd h (by simp)
        · exact h
      subst htrnil
      obtain ⟨t', hrr', hbal', hro', hcol', hio'⟩ :=
        repairRemoved_ok p.length p le_rfl (.node .red .nil lid .nil) 0 hpi1 hbtl hrtl hlb
      have hioPQ : inorderIds t' =
          (before p ++ inorderIds (RBT.node .red .nil lid .nil)) ++
            (inorderIds (RBT.nil : RBT) ++ after p) := by
        rw [hio', inorder_plug]
        simp [inorderIds]
      refine ⟨t', ?_, hcol', hro', hbal', hioPQ, by rw [hioPQ]; simpa using hndPQ,
        ?_, ?_⟩
      · simp [isRed]
        exact hrr'
      · intro a ha
        rw [hioPQ] at ha
        exact hfreshPQ a ha
      · rw [hioPQ]
        refine evictNode_left_chain hndL hchainL hnxt_tid ?_
        rw [@getLast?_append_right (before p)
          (inorderIds (RBT.node .red .nil lid .nil)) (by simp [inorderIds])]
        rfl

/-- `Tree::remove` preserves the invariant. -/
theorem remove_inv {k : Int} {s : TreeSt} (hinv : Inv s) :
    ∃ s', remove k s = some s' ∧ Inv s' := by
  cases hf : find k s.val s.root [] with
  | none =>
      refine ⟨s, ?_, hinv⟩
      simp only [remove, hf]
  | some fop =>
      obtain ⟨fo, p⟩ := fop
      obtain ⟨hplug0, c, l, fid, r, hfo, hval⟩ := find_some k s.val s.root [] fo p hf
      subst hfo
      have hplug : plug (.node c l fid r) p = s.root := hplug0
      cases l with
      | nil =>
          obtain ⟨t', heq, hcol, hrok, hbal, hio, hnd, hfr, hch⟩ :=
            removeAt_inv hinv hplug (Or.inl rfl)
          refine ⟨{ root := t', val := s.val,
                    nxt := (evictNode fid .nil r s.nxt s.prv).1,
                    prv := (evictNode fid .nil r s.nxt s.prv).2,
                    nextId := s.nextId }, ?_, ?_⟩
          · simp only [remove, hf, heq]
          · exact ⟨hcol, hrok, hbal, hnd, hfr, hch⟩
      | node lc ll lid lr =>
          cases r with
          | nil =>
              obtain ⟨t', heq, hcol, hrok, hbal, hio, hnd, hfr, hch⟩ :=
                removeAt_inv hinv hplug
                  (Or.inr rfl)
              refine ⟨{ root := t', val := s.val,
                        nxt := (evictNode fid (.node lc ll lid lr) .nil s.nxt s.prv).1,
                        prv := (evictNode fid (.node lc ll lid lr) .nil s.nxt s.prv).2,
                        nextId := s.nextId }, ?_, ?_⟩
              · simp only [remove, hf, heq]
              · exact ⟨hcol, hrok, hbal, hnd, hfr, hch⟩
          | node rc rl rid rr =>
              obtain ⟨mc, mid, mr, mp, hgm, hplugm, hbm⟩ :=
                getMinZ_spec (.node rc rl rid rr)
                  (.right c (.node lc ll lid lr) fid :: p) (by simp)
              have hplug2 : plug (.node mc .nil mid mr) mp = s.root := by
                rw [hplugm]
                exact hplug
              obtain ⟨t', heq, hcol, hrok, hbal, hio, hnd, hfr, hch⟩ :=
                removeAt_inv hinv hplug2 (Or.inl rfl)
              refine ⟨{ root := t',
                        val := fun i => if i = fid then s.val mid
                          else if i = mid then s.val fid else s.val i,
                        nxt := (evictNode mid .nil mr s.nxt s.prv).1,
                        prv := (evictNode mid .nil mr s.nxt s.prv).2,
                        nextId := s.nextId }, ?_, ?_⟩
              · simp only [remove, hf, hgm, heq]
              · exact ⟨hcol, hrok, hbal, hnd, hfr, hch⟩

theorem Inv_empty : Inv TreeSt.empty := by
  refine ⟨rfl, RedOk.nil, ⟨0, Balanced.nil⟩, List.nodup_nil, ?_, ?_⟩
  · intro a ha
    simp [TreeSt.empty, inorderIds] at ha
  · intro a ha
    simp [TreeSt.empty, inorderIds] at ha

/-- Every single tree operation succeeds and preserves the invariant. -/
theorem stepOp_inv {op : TOp} {s : TreeSt} (hinv : Inv s) :
    ∃ s', stepOp op s = some s' ∧ Inv s' := by
  cases op with
  | ins k => exact insert_inv hinv
  | insUnique k => exact insertUnique_inv hinv
  | finsert k => exact findOrInsert_inv hinv
  | del k => exact remove_inv hinv

theorem runOps_inv {ops : List TOp} : ∀ {s : TreeSt}, Inv s →
    ∃ s', runOps ops s = some s' ∧ Inv s' := by
  induction ops with
  | nil => intro s hinv; exact ⟨s, rfl, hinv⟩
  | cons op ops ih =>
      intro s hinv
      obtain ⟨s1, hs1, hinv1⟩ := @stepOp_inv op s hinv
      obtain ⟨s2, hs2, hinv2⟩ := ih hinv1
      refine ⟨s2, ?_, hinv2⟩
      simp only [runOps, hs1]
      exact hs2

theorem head_append_left {α : Type} (xs : List α) (hne : xs ≠ []) (ys : List α) :
    (xs ++ ys).head? = xs.head? := by
  cases xs with
  | nil => exact absurd rfl hne
  | cons x rest => rfl

theorem inorderIds_node_ne_nil {c : Color} {l r : RBT} {id : Nat} :
    inorderIds (.node c l id r) ≠ [] := by
  simp [inorderIds]

/-- `TreeNode::getMin(root)` is the head of the in-order walk. -/
theorem getMinId_eq_head : ∀ t : RBT, getMinId t = (inorderIds t).head? := by
  intro t
  induction t with
  | nil => rfl
  | node c l id r ihl ihr =>
      cases l with
      | nil =>
          show some id = (inorderIds (.node c .nil id r)).head?
          simp [inorderIds]
      | node lc ll lid lr =>
          show getMinId (.node lc ll lid lr) = _
          rw [ihl]
          show _ = (inorderIds (.node lc ll lid lr) ++ id :: inorderIds r).head?
          rw [head_append_left _ inorderIds_node_ne_nil]

/-- Following `next` pointers from the head of a duplicate-free list
whose successor structure matches the list reproduces the list. -/
theorem chainFrom_of_chain (nxt : Nat → Option Nat) (L : List Nat)
    (hnd : L.Nodup) (h : ∀ a ∈ L, nxt a = succIn L a) :
    chainFrom nxt L.length L.head? = L := by
  induction L with
  | nil => rfl
  | cons x rest ih =>
      have hxnotin := (List.nodup_cons.mp hnd).1
      have hnd' := (List.nodup_cons.mp hnd).2
      have hx : nxt x = rest.head? := by
        rw [h x (List.mem_cons_self _ _)]
        simp [succIn]
      have h' : ∀ a ∈ rest, nxt a = succIn rest a := by
        intro a ha
        have hne : x ≠ a := fun he => hxnotin (he ▸ ha)
        rw [h a (List.mem_cons_of_mem _ ha)]
        simp [succIn, hne]
      show chainFrom nxt (rest.length + 1) (some x) = x :: rest
      rw [chainFrom, hx, ih hnd' h']

/-- C1: for every sequence of insertions (`Tree::emplace`/`insert`,
`Tree::insertUnique`, `Set::insert`) and removals (`Tree::remove`) run
on an initially empty tree container, after each operation (hence after
every such sequence, all of whose prefixes are themselves such
sequences) the red-black invariants hold: the root is black, no red
node has a red child, the tree is balanced (every root-to-NIL path
crosses the same number of black nodes), and the `next`/`prev` chain
visits exactly the nodes of the tree — walking `next` from
`getMin(root)` enumerates the in-order id list (so the chain length
equals the node count), with `next` the in-order successor and `prev`
the in-order predecessor of every node. -/
theorem rb_invariants (ops : List TOp) :
    ∃ s, runOps ops TreeSt.empty = some s ∧
      colorOf s.root = .black ∧
      RedOk s.root ∧
      (∃ n, Balanced s.root n) ∧
      (∀ a ∈ inorderIds s.root,
        s.nxt a = succIn (inorderIds s.root) a ∧
        s.prv a = predIn (inorderIds s.root) a) ∧
      chainFrom s.nxt (inorderIds s.root).length (getMinId s.root) =
        inorderIds s.root := by
  obtain ⟨s, hrun, hinv⟩ := @runOps_inv ops TreeSt.empty Inv_empty
  refine ⟨s, hrun, hinv.rootB, hinv.rOk, hinv.bal, hinv.chain, ?_⟩
  rw [getMinId_eq_head]
  exact chainFrom_of_chain s.nxt _ hinv.nodup (fun a ha => (hinv.chain a ha).1)

/-- The descent of `findOrBisect` brackets the key: on a
value-sorted tree every id that ends up before the reached hole has a
smaller value and every id after it a larger one. -/
theorem findOrBisect_bounds (k : Int) (val : Nat → Int) : ∀ (t : RBT) (p0 p : Path),
    findOrBisect k val t p0 = .inr p →
    (∀ a ∈ before p0, val a < k) →
    (∀ a ∈ after p0, k < val a) →
    ((inorderIds t).map val).Pairwise (· < ·) →
    (∀ a ∈ before p, val a < k) ∧ (∀ a ∈ after p, k < val a) := by
  intro t
  induction t with
  | nil =>
      intro p0 p h hb ha _
      simp only [findOrBisect] at h
      injection h with h
      subst h
      exact ⟨hb, ha⟩
  | node c l id r ihl ihr =>
      intro p0 p h hb ha hs
      have hsplit : (inorderIds (RBT.node c l id r)).map val =
          (inorderIds l).map val ++ val id :: (inorderIds r).map val := by
        simp [inorderIds]
      rw [hsplit] at hs
      obtain ⟨hsl, hcons, hcross⟩ := List.pairwise_append.mp hs
      obtain ⟨hmid, hsr⟩ := List.pairwise_cons.mp hcons
      simp only [findOrBisect] at h
      by_cases h1 : GreaterThan k (val id) < 0
      · rw [if_pos h1] at h
        have hklt : k < val id := greaterThan_lt.mp h1
        refine ihl _ _ h hb ?_ hsl
        intro a ha'
        have ha2 : a ∈ (id :: inorderIds r) ++ after p0 := ha'
        rcases List.mem_append.mp ha2 with hc | hap0
        · rcases List.mem_cons.mp hc with rfl | har
          · exact hklt
          · exact lt_trans hklt (hmid _ (List.mem_map_of_mem val har))
        · exact ha a hap0
      · rw [if_neg h1] at h
        by_cases h2 : 0 < GreaterThan k (val id)
        · rw [if_pos h2] at h
          have hkgt : val id < k := greaterThan_gt.mp h2
          refine ihr _ _ h ?_ ha hsr
          intro a ha'
          have ha2 : a ∈ before p0 ++ (inorderIds l ++ [id]) := ha'
          rcases List.mem_append.mp ha2 with hbp0 | hc
          · exact hb a hbp0
          · rcases List.mem_append.mp hc with hal | hid
            · exact lt_trans
                (hcross _ (List.mem_map_of_mem val hal) _ (List.mem_cons_self _ _)) hkgt
            · have : a = id := by simpa using hid
              subst this
              exact hkgt
        · rw [if_neg h2] at h
          exact absurd h (by simp)

theorem map_vupd_notin (L : List Nat) (f : Nat → Int) (id : Nat) (v : Int)
    (h : id ∉ L) : L.map (vupd f id v) = L.map f := by
  refine List.map_congr_left ?_
  intro a ha
  have hne : a ≠ id := fun he => h (he ▸ ha)
  simp [vupd, hne]

/-- `Set::insert` keeps the in-order payload walk strictly sorted and
adds exactly the inserted key to its set of values. -/
theorem findOrInsert_sorted {k : Int} {s : TreeSt} (hinv : Inv s)
    (hs : ((inorderIds s.root).map s.val).Pairwise (· < ·)) :
    ∃ s', findOrInsert k s = some s' ∧ Inv s' ∧
      ((inorderIds s'.root).map s'.val).Pairwise (· < ·) ∧
      (∀ x : Int, x ∈ (inorderIds s'.root).map s'.val ↔
        x ∈ (inorderIds s.root).map s.val ∨ x = k) := by
  cases hfb : findOrBisect k s.val s.root [] with
  | inl fid =>
      obtain ⟨hval, hmem⟩ := findOrBisect_inl k s.val s.root [] fid hfb
      refine ⟨s, by simp only [findOrInsert, hfb], hinv, hs, fun x => ?_⟩
      constructor
      · exact Or.inl
      · rintro (hx | rfl)
        · exact hx
        · rw [← hval]
          exact List.mem_map_of_mem s.val hmem
  | inr p =>
      obtain ⟨hp, hside0⟩ := findOrBisect_inr k s.val s.root [] p hfb
      have hside : p = [] ∨ ∃ st p2, p = st :: p2 ∧ sideOk k s.val st := by
        rcases hside0 with ⟨hpe, _⟩ | h
        · exact Or.inl hpe
        · exact Or.inr h
      obtain ⟨hbnd, hand⟩ := findOrBisect_bounds k s.val s.root [] p hfb
        (by intro a ha; simp [before] at ha) (by intro a ha; simp [after] at ha) hs
      obtain ⟨s', hatt, hinv', hio, hval', hnid⟩ := attachAt_inv hinv hp hside
      have hp2 : plug RBT.nil p = s.root := hp
      have hids : inorderIds s.root = before p ++ after p := by
        rw [← hp2, inorder_plug]
        simp [inorderIds]
      have hbne : s.nextId ∉ before p := by
        intro hm
        refine lt_irrefl s.nextId (hinv.fresh _ ?_)
        rw [hids]
        exact List.mem_append.mpr (Or.inl hm)
      have hane : s.nextId ∉ after p := by
        intro hm
        refine lt_irrefl s.nextId (hinv.fresh _ ?_)
        rw [hids]
        exact List.mem_append.mpr (Or.inr hm)
      have hmapb : (before p).map s'.val = (before p).map s.val := by
        rw [hval']
        exact map_vupd_notin _ _ _ _ hbne
      have hmapa : (after p).map s'.val = (after p).map s.val := by
        rw [hval']
        exact map_vupd_notin _ _ _ _ hane
      have hmap : (inorderIds s'.root).map s'.val =
          (before p).map s.val ++ k :: (after p).map s.val := by
        rw [hio]
        have hstep : (before p ++ s.nextId :: after p).map s'.val =
            (before p).map s'.val ++ s'.val s.nextId :: (after p).map s'.val := by
          simp
        rw [hstep, hmapb, hmapa, hval']
        simp [vupd]
      have hsps : ((before p).map s.val ++ (after p).map s.val).Pairwise (· < ·) := by
        rw [← List.map_append, ← hids]
        exact hs
      obtain ⟨hsb, hsa, hcr⟩ := List.pairwise_append.mp hsps
      have hsorted' : ((inorderIds s'.root).map s'.val).Pairwise (· < ·) := by
        rw [hmap]
        refine List.pairwise_append.mpr ⟨hsb, ?_, ?_⟩
        · refine List.pairwise_cons.mpr ⟨?_, hsa⟩
          intro b hb2
          obtain ⟨a, ha2, rfl⟩ := List.mem_map.mp hb2
          exact hand a ha2
        · intro a ha2 b hb2
          obtain ⟨a0, ha0, rfl⟩ := List.mem_map.mp ha2
          rcases List.mem_cons.mp hb2 with rfl | hb3
          · exact hbnd a0 ha0
          · exact hcr _ ha2 _ hb3
      refine ⟨s', ?_, hinv', hsorted', fun x => ?_⟩
      · simp only [findOrInsert, hfb]
        exact hatt
      · rw [hmap, hids]
        simp only [List.map_append, List.mem_append, List.mem_cons]
        tauto

/-- Running a sequence of `Set::insert`s keeps the payload walk
strictly sorted and accumulates exactly the inserted values. -/
theorem finsertRun : ∀ (S : List Int) (s : TreeSt), Inv s →
    ((inorderIds s.root).map s.val).Pairwise (· < ·) →
    ∃ s', runOps (S.map TOp.finsert) s = some s' ∧ Inv s' ∧
      ((inorderIds s'.root).map s'.val).Pairwise (· < ·) ∧
      (∀ x : Int, x ∈ (inorderIds s'.root).map s'.val ↔
        x ∈ (inorderIds s.root).map s.val ∨ x ∈ S) := by
  intro S
  induction S with
  | nil =>
      intro s hinv hs
      refine ⟨s, rfl, hinv, hs, fun x => ?_⟩
      simp
  | cons k S ih =>
      intro s hinv hs
      obtain ⟨s1, h1, hinv1, hs1, hm1⟩ := findOrInsert_sorted (k := k) hinv hs
      obtain ⟨s2, h2, hinv2, hs2, hm2⟩ := ih s1 hinv1 hs1
      refine ⟨s2, ?_, hinv2, hs2, fun x => ?_⟩
      · simp only [List.map_cons, runOps, stepOp, h1]
        exact h2
      · rw [hm2 x, hm1 x]
        simp only [List.mem_cons]
        tauto

/-- `begin()`-to-`end()` iteration reads the payloads along the
in-order chain. -/
theorem iterate_eq {s : TreeSt} (hinv : Inv s) :
    iterate s = (inorderIds s.root).map s.val := by
  unfold iterate
  rw [getMinId_eq_head, chainFrom_of_chain s.nxt _ hinv.nodup
    (fun a ha => (hinv.chain a ha).1)]

/-- C4: for every finite sequence `S` of ints, inserting the elements
of `S` one by one into a `Set<int>` (`Set::insert` →
`Tree::findOrEmplace` → `TreeNode::findOrInsert`) and then iterating
from `begin()` to `end()` yields a strictly ascending list whose
members are exactly the values occurring in `S` — i.e. the distinct
values of `S` in ascending order. -/
theorem set_ordered_iteration (S : List Int) :
    ∃ s, runOps (S.map TOp.finsert) TreeSt.empty = some s ∧
      List.Sorted (· < ·) (iterate s) ∧
      (∀ x : Int, x ∈ iterate s ↔ x ∈ S) := by
  obtain ⟨s, hrun, hinv, hs, hm⟩ := finsertRun S TreeSt.empty Inv_empty
    (by simp [TreeSt.empty, inorderIds])
  refine ⟨s, hrun, ?_, fun x => ?_⟩
  · rw [iterate_eq hinv]
    exact hs
  · rw [iterate_eq hinv, hm x]
    simp [TreeSt.empty, inorderIds]

end TreeNode

end Korin
